import Mathlib

/-!
Verification development for the URL canonicalization / record upsert /
enrichment orchestration core of the Bing-vs-ChatGPT study repository.

The Python sources embedded here (shallowly, over `List Char` and plain
inductive data) are:
  * scripts/clean_bing_export.py      (normalize_url_key, clean_bing_export)
  * scripts/ingest/ingest_bing_extension_export_with_content_to_geo_xlsx.py
                                      (normalize_url_key, decode_bing_ck_url,
                                       upsert_row and helpers)
  * scripts/llm/enrich_geo_urls_with_gemini.py
                                      (retry loop, audit log, resume logic,
                                       upsert_row)

Python library routines used by those sources (urllib.parse.urlsplit,
parse_qsl, urlencode, urlunsplit, base64.urlsafe_b64decode, str.strip,
str.lower, int()) are modelled faithfully for the ASCII fragment the
theorems quantify over; behaviour that only differs on non-ASCII input
(NFKC netloc checks, multi-byte percent sequences) is outside the scope
of every statement below.  Fallible code (raised exceptions) is modelled
with `Option`, `none` standing for an uncaught exception.
-/

namespace UrlSpec

/-- Python `str.strip()` whitespace set, restricted to ASCII. -/
def isPySpace (c : Char) : Bool :=
  c = ' ' || c = '\t' || c = '\n' || c = '\r' || c = '\x0b' || c = '\x0c'

/-- Python `str.strip()` on a character list. -/
def pyStrip (l : List Char) : List Char :=
  ((l.dropWhile isPySpace).reverse.dropWhile isPySpace).reverse

/-- Python `str.lower()`, ASCII case folding. -/
def lowerL (l : List Char) : List Char :=
  l.map Char.toLower

/-- Break a list at the first occurrence of `c`: returns the part before and,
when `c` occurs, the part after it. -/
def breakFirst (c : Char) : List Char → List Char × Option (List Char)
  | [] => ([], none)
  | x :: xs =>
    if x = c then ([], some xs)
    else
      let r := breakFirst c xs
      (x :: r.1, r.2)

/-- Python `s.split(sep)` for a one-character separator (never returns `[]`). -/
def splitSep (c : Char) : List Char → List (List Char)
  | [] => [[]]
  | x :: xs =>
    if x = c then [] :: splitSep c xs
    else
      match splitSep c xs with
      | [] => [[x]]
      | h :: t => (x :: h) :: t

/-- Substring test, Python `pat in s`. -/
def containsSub (pat : List Char) : List Char → Bool
  | [] => decide (pat = [])
  | x :: xs => pat.isPrefixOf (x :: xs) || containsSub pat xs

/-- Scheme characters accepted by `urllib.parse.urlsplit`. -/
def schemeChar (c : Char) : Bool :=
  c.isAlpha || c.isDigit || c = '+' || c = '-' || c = '.'

/-- Result of `urllib.parse.urlsplit`. -/
structure UrlParts where
  scheme : List Char
  netloc : List Char
  path : List Char
  query : List Char
  fragment : List Char
deriving Repr, DecidableEq

/-- Scheme extraction step of `urlsplit`: take everything before the first
colon when it is a well-formed scheme token, else leave the URL alone. -/
def splitScheme (url : List Char) : List Char × List Char :=
  match breakFirst ':' url with
  | (pre, some post) =>
    if pre ≠ [] ∧ (pre.headD ' ').isAlpha ∧ pre.all schemeChar then (lowerL pre, post)
    else ([], url)
  | (_, none) => ([], url)

/-- Characters ending the netloc portion in `urlsplit`. -/
def netlocDelim (c : Char) : Bool :=
  c = '/' || c = '?' || c = '#'

/-- `urllib.parse.urlsplit` (ASCII fragment; the NFKC netloc check only
concerns non-ASCII input and is not modelled).  CPython first removes
tab/CR/LF, then takes the scheme, the `//`-introduced netloc (raising
`ValueError` — here `none` — on a `[`/`]` bracket mismatch), the fragment
and the query, in that order. -/
def urlsplitE (url0 : List Char) : Option UrlParts :=
  let url1 := url0.filter (fun c => ¬(c = '\t' ∨ c = '\r' ∨ c = '\n'))
  let s := splitScheme url1
  let u2 := s.2
  let nl :=
    if ("//".toList).isPrefixOf u2 then
      ((u2.drop 2).takeWhile (fun c => ¬ netlocDelim c = true),
       (u2.drop 2).dropWhile (fun c => ¬ netlocDelim c = true))
    else ([], u2)
  if ('[' ∈ nl.1 ∧ ']' ∉ nl.1) ∨ (']' ∈ nl.1 ∧ '[' ∉ nl.1) then none
  else
    let f := match breakFirst '#' nl.2 with
      | (a, some b) => (a, b)
      | (a, none) => (a, ([] : List Char))
    let pq := match breakFirst '?' f.1 with
      | (a, some b) => (a, b)
      | (a, none) => (a, ([] : List Char))
    some ⟨s.1, nl.1, pq.1, pq.2, f.2⟩

/-- Hexadecimal digit value. -/
def hexVal (c : Char) : Option Nat :=
  if '0' ≤ c ∧ c ≤ '9' then some (c.toNat - 48)
  else if 'a' ≤ c ∧ c ≤ 'f' then some (c.toNat - 87)
  else if 'A' ≤ c ∧ c ≤ 'F' then some (c.toNat - 55)
  else none

/-- `urllib.parse.unquote`, modelled exactly for `%XX` sequences below 0x80
(multi-byte UTF-8 percent sequences, which no theorem below exercises, are
left undecoded instead of replacement-decoded). -/
def unquoteAscii : List Char → List Char
  | [] => []
  | '%' :: a :: b :: rest2 =>
    match hexVal a, hexVal b with
    | some ha, some hb =>
      if ha * 16 + hb < 128 then Char.ofNat (ha * 16 + hb) :: unquoteAscii rest2
      else '%' :: unquoteAscii (a :: b :: rest2)
    | _, _ => '%' :: unquoteAscii (a :: b :: rest2)
  | c :: rest => c :: unquoteAscii rest

/-- `urllib.parse.unquote_plus`: `+` becomes a space, then percent-decoding. -/
def unquotePlus (l : List Char) : List Char :=
  unquoteAscii (l.map (fun c => if c = '+' then ' ' else c))

/-- `urllib.parse.parse_qsl(qs, keep_blank_values=True)`: split on `&`,
drop empty chunks, split each chunk at its first `=` (missing `=` gives an
empty value), and percent-plus-decode names and values. -/
def parse_qsl (qs : List Char) : List (List Char × List Char) :=
  (splitSep '&' qs).filterMap fun nv =>
    if nv = [] then none
    else
      match breakFirst '=' nv with
      | (name, some value) => some (unquotePlus name, unquotePlus value)
      | (name, none) => some (unquotePlus name, [])

/-- Python `dict(pairs)` lookup: the last binding of a key wins; `none`
models a missing key. -/
def dictGetLast (kvs : List (List Char × List Char)) (k : List Char) : Option (List Char) :=
  kvs.foldl (fun acc kv => if kv.1 = k then some kv.2 else acc) none

/-- `TRACKING_PARAM_PREFIXES` from the source (a single entry, `utm_`). -/
def trackingNameStarts : List (List Char) :=
  ["utm_".toList]

/-- `TRACKING_PARAMS_EXACT` from the source. -/
def trackingNamesExact : List (List Char) :=
  ["gclid".toList, "fbclid".toList, "msclkid".toList, "yclid".toList,
   "mc_cid".toList, "mc_eid".toList, "igshid".toList, "ref".toList,
   "ref_src".toList, "spm".toList]

/-- The tracking-parameter test applied to an already-lowercased name. -/
def isTrackingLower (lk : List Char) : Bool :=
  trackingNameStarts.any (fun p => p.isPrefixOf lk) || trackingNamesExact.contains lk

/-- Characters `urllib.parse.quote_plus` never escapes (`always_safe`). -/
def alwaysSafe (c : Char) : Bool :=
  c.isAlphanum || c = '_' || c = '.' || c = '-' || c = '~'

/-- UTF-8 encoding of a scalar value, as byte values. -/
def utf8EncodeNat (n : Nat) : List Nat :=
  if n < 0x80 then [n]
  else if n < 0x800 then [0xC0 + n / 64, 0x80 + n % 64]
  else if n < 0x10000 then [0xE0 + n / 4096, 0x80 + (n / 64) % 64, 0x80 + n % 64]
  else [0xF0 + n / 262144, 0x80 + (n / 4096) % 64, 0x80 + (n / 64) % 64, 0x80 + n % 64]

/-- Uppercase hexadecimal digit. -/
def hexDigitUpper (n : Nat) : Char :=
  if n < 10 then Char.ofNat (48 + n) else Char.ofNat (55 + n)

/-- `urllib.parse.quote_plus` on one character. -/
def quotePlusChar (c : Char) : List Char :=
  if alwaysSafe c then [c]
  else if c = ' ' then ['+']
  else (utf8EncodeNat c.toNat).flatMap
    (fun b => ['%', hexDigitUpper (b / 16), hexDigitUpper (b % 16)])

/-- `urllib.parse.quote_plus` (default `safe=''`). -/
def quotePlus (l : List Char) : List Char :=
  l.flatMap quotePlusChar

/-- `urllib.parse.urlencode(kept, doseq=True)` over string pairs. -/
def urlencode (kvs : List (List Char × List Char)) : List Char :=
  List.intercalate ['&'] (kvs.map fun kv => quotePlus kv.1 ++ '=' :: quotePlus kv.2)

/-- `urllib.parse.urlunsplit`. -/
def urlunsplit (scheme netloc path query fragment : List Char) : List Char :=
  let url := path
  let url :=
    if netloc ≠ [] ∨ ("//".toList).isPrefixOf url then
      "//".toList ++ netloc ++
        (if url ≠ [] ∧ ¬ (("/".toList).isPrefixOf url) then '/' :: url else url)
    else url
  let url := if scheme ≠ [] then scheme ++ ':' :: url else url
  let url := if query ≠ [] then url ++ '?' :: query else url
  if fragment ≠ [] then url ++ '#' :: fragment else url

/-- Python `s.lstrip('/')`. -/
def lstripSlash (l : List Char) : List Char :=
  l.dropWhile (fun c => c = '/')

/-- Base64 character values; the `urlsafe` translation (`-` to `+`, `_` to
`/`) is folded into the table, which is equivalent because the translation
touches no other character. -/
def b64Val (c : Char) : Option Nat :=
  if 'A' ≤ c ∧ c ≤ 'Z' then some (c.toNat - 65)
  else if 'a' ≤ c ∧ c ≤ 'z' then some (c.toNat - 71)
  else if '0' ≤ c ∧ c ≤ '9' then some (c.toNat + 4)
  else if c = '+' ∨ c = '-' then some 62
  else if c = '/' ∨ c = '_' then some 63
  else none

/-- CPython `binascii.a2b_base64` in non-strict mode: invalid characters are
discarded, a padding run that completes a quad ends decoding successfully
(data after it is ignored), and leftover data characters raise — one data
character over a quad (`none` here) or an incomplete quad (`none` too). -/
def a2bBase64 : List Char → Nat → Nat → Nat → Option (List Nat)
  | [], quadPos, _, _ => if quadPos = 0 then some [] else none
  | c :: rest, quadPos, leftchar, pads =>
    if c = '=' then
      if 2 ≤ quadPos ∧ 4 ≤ quadPos + (pads + 1) then some []
      else a2bBase64 rest quadPos leftchar (pads + 1)
    else
      match b64Val c with
      | none => a2bBase64 rest quadPos leftchar pads
      | some v =>
        match quadPos with
        | 0 => a2bBase64 rest 1 v 0
        | 1 => (a2bBase64 rest 2 (v % 16) 0).map (fun out => (leftchar * 4 + v / 16) :: out)
        | 2 => (a2bBase64 rest 3 (v % 4) 0).map (fun out => (leftchar * 16 + v / 4) :: out)
        | _ => (a2bBase64 rest 0 0 0).map (fun out => (leftchar * 64 + v) :: out)

/-- `base64.urlsafe_b64decode`, producing byte values (or `none` for the
`binascii.Error` cases). -/
def urlsafeB64decodeBytes (l : List Char) : Option (List Nat) :=
  a2bBase64 l 0 0 0

/-- Urlsafe base64 alphabet character for a 6-bit value. -/
def b64Char (n : Nat) : Char :=
  if n < 26 then Char.ofNat (65 + n)
  else if n < 52 then Char.ofNat (97 + (n - 26))
  else if n < 62 then Char.ofNat (48 + (n - 52))
  else if n = 62 then '-' else '_'

/-- `base64.urlsafe_b64encode` over byte values. -/
def b64urlEncode : List Nat → List Char
  | [] => []
  | [b1] => [b64Char (b1 / 4), b64Char ((b1 % 4) * 16), '=', '=']
  | [b1, b2] => [b64Char (b1 / 4), b64Char ((b1 % 4) * 16 + b2 / 16), b64Char ((b2 % 16) * 4), '=']
  | b1 :: b2 :: b3 :: rest =>
    b64Char (b1 / 4) :: b64Char ((b1 % 4) * 16 + b2 / 16) ::
      b64Char ((b2 % 16) * 4 + b3 / 64) :: b64Char (b3 % 64) :: b64urlEncode rest

/-- The Unicode replacement character. -/
def replacementChar : Char := Char.ofNat 0xFFFD

/-- Whether a byte is a UTF-8 continuation byte. -/
def isCont (b : Nat) : Bool := 0x80 ≤ b ∧ b < 0xC0

/-- Fuel-indexed helper for `utf8DecodeReplace`; one unit of fuel per
decoded character. -/
def utf8DecodeReplaceFuel : Nat → List Nat → List Char
  | 0, _ => []
  | _, [] => []
  | fuel + 1, b :: rest =>
    if b < 0x80 then Char.ofNat b :: utf8DecodeReplaceFuel fuel rest
    else if 0xC2 ≤ b ∧ b ≤ 0xDF then
      match rest with
      | b2 :: rest2 =>
        if isCont b2 then
          Char.ofNat ((b - 0xC0) * 64 + (b2 - 0x80)) :: utf8DecodeReplaceFuel fuel rest2
        else replacementChar :: utf8DecodeReplaceFuel fuel (b2 :: rest2)
      | [] => [replacementChar]
    else if 0xE0 ≤ b ∧ b ≤ 0xEF then
      match rest with
      | b2 :: b3 :: rest3 =>
        if isCont b2 ∧ isCont b3 ∧ (b ≠ 0xE0 ∨ 0xA0 ≤ b2) ∧ (b ≠ 0xED ∨ b2 < 0xA0) then
          Char.ofNat ((b - 0xE0) * 4096 + (b2 - 0x80) * 64 + (b3 - 0x80)) ::
            utf8DecodeReplaceFuel fuel rest3
        else replacementChar :: utf8DecodeReplaceFuel fuel (b2 :: b3 :: rest3)
      | rest2 => replacementChar :: utf8DecodeReplaceFuel fuel rest2
    else if 0xF0 ≤ b ∧ b ≤ 0xF4 then
      match rest with
      | b2 :: b3 :: b4 :: rest4 =>
        if isCont b2 ∧ isCont b3 ∧ isCont b4 ∧ (b ≠ 0xF0 ∨ 0x90 ≤ b2) ∧ (b ≠ 0xF4 ∨ b2 < 0x90) then
          Char.ofNat ((b - 0xF0) * 262144 + (b2 - 0x80) * 4096 + (b3 - 0x80) * 64 + (b4 - 0x80)) ::
            utf8DecodeReplaceFuel fuel rest4
        else replacementChar :: utf8DecodeReplaceFuel fuel (b2 :: b3 :: b4 :: rest4)
      | rest2 => replacementChar :: utf8DecodeReplaceFuel fuel rest2
    else replacementChar :: utf8DecodeReplaceFuel fuel rest

/-- `bytes.decode('utf-8', errors='replace')`, exact on ASCII bytes; on
malformed multi-byte input each bad leading byte yields one replacement
character (Python may group maximal subparts differently, which no theorem
below exercises).  The fuel of the helper only bounds the number of decoded
characters, each of which consumes at least one byte, so the input length is
always enough fuel. -/
def utf8DecodeReplace (bs : List Nat) : List Char :=
  utf8DecodeReplaceFuel bs.length bs

/-- UTF-8 byte values of a character list (`str.encode('utf-8')`). -/
def utf8Bytes (l : List Char) : List Nat :=
  l.flatMap (fun c => utf8EncodeNat c.toNat)

/-- `safe_str` from the ingest/enrich scripts, on a string value: strip, and
map a (case-insensitive) literal `nan` to the empty string. -/
def safe_str (l : List Char) : List Char :=
  let s := pyStrip l
  if lowerL s = "nan".toList then [] else s

/-- Steps (4)–(8) of the canonicalizer, shared verbatim by
`clean_bing_export.normalize_url_key` and the ingest script's
`normalize_url_key`: default the path to `/`, strip a trailing slash of a
non-root path, drop tracking query parameters, re-encode the query, rebuild
without scheme or fragment and strip leading slashes. -/
def normalizeTail (parts : UrlParts) (host : List Char) : List Char :=
  let path0 := if parts.path = [] then "/".toList else parts.path
  let path := if 1 < path0.length ∧ path0.getLast? = some '/' then path0.dropLast else path0
  let kept := (parse_qsl parts.query).filter (fun kv => ¬ isTrackingLower (lowerL kv.1) = true)
  let query := urlencode kept
  lstripSlash (urlunsplit [] host path query [])

/-- Fuel-indexed embedding of `normalize_url_key` from
`scripts/clean_bing_export.py`.  `none` models an uncaught exception (the
only source is `urlsplit`'s bracket check at the top level; exceptions inside
the click-redirect `try` block, including those raised by the recursive
call, are caught and give `""`).  The fuel only bounds the recursion depth
of the click-redirect decode; `normalizeFuel_stable` below proves that every
fuel value above the input length yields the same result, which is how the
source's unbounded recursion is total. -/
def normalizeFuel : Nat → List Char → Option (List Char)
  | 0, _ => none
  | fuel + 1, raw =>
    if raw = [] then some []
    else
      let url := pyStrip raw
      if url = [] then some []
      else
        let url2 := if containsSub ("://".toList) url then url else "https://".toList ++ url
        match urlsplitE url2 with
        | none => none
        | some parts =>
          let host0 := lowerL parts.netloc
          let host := if ("www.".toList).isPrefixOf host0 then host0.drop 4 else host0
          if ("bing.com".toList).isSuffixOf host ∧ ("/ck/a".toList).isPrefixOf parts.path then
            let u := pyStrip ((dictGetLast (parse_qsl parts.query) ("u".toList)).getD [])
            if ("a1".toList).isPrefixOf u then
              let b64 := u.drop 2
              let pad := List.replicate ((4 - b64.length % 4) % 4) '='
              match urlsafeB64decodeBytes (b64 ++ pad) with
              | none => some []
              | some bytes =>
                let decoded := utf8DecodeReplace bytes
                if ("http".toList).isPrefixOf decoded then
                  match normalizeFuel fuel decoded with
                  | none => some []
                  | some k => some k
                else some []
            else normalizeTail parts host
          else normalizeTail parts host

/-- `normalize_url_key` from `scripts/clean_bing_export.py` (see
`normalizeFuel` for the fuel convention). -/
def normalize_url_key (raw : List Char) : Option (List Char) :=
  normalizeFuel (raw.length + 1) raw

/-- `normalize_url_key` from the ingest script: same pipeline but `safe_str`
instead of a plain strip and no click-redirect branch. -/
def ingest_normalize_url_key (raw : List Char) : Option (List Char) :=
  let u := safe_str raw
  if u = [] then some []
  else
    let u2 := if containsSub ("://".toList) u then u else "https://".toList ++ u
    match urlsplitE u2 with
    | none => none
    | some parts =>
      let host0 := lowerL parts.netloc
      let host := if ("www.".toList).isPrefixOf host0 then host0.drop 4 else host0
      some (normalizeTail parts host)

/-- `decode_bing_ck_url` from the ingest script; total because its whole
body is wrapped in `try/except: return ""`. -/
def decode_bing_ck_url (raw : List Char) : List Char :=
  let u := safe_str raw
  if u = [] then []
  else
    let u2 := if containsSub ("://".toList) u then u else "https://".toList ++ u
    match urlsplitE u2 with
    | none => []
    | some parts =>
      let host0 := lowerL parts.netloc
      let host := if ("www.".toList).isPrefixOf host0 then host0.drop 4 else host0
      if ¬(("bing.com".toList).isSuffixOf host ∧ ("/ck/a".toList).isPrefixOf parts.path) then u
      else
        let enc := match dictGetLast (parse_qsl parts.query) ("u".toList) with
          | none => []
          | some s => safe_str s
        if ¬ ("a1".toList).isPrefixOf enc then []
        else
          let b64 := enc.drop 2
          let pad := List.replicate ((4 - b64.length % 4) % 4) '='
          match urlsafeB64decodeBytes (b64 ++ pad) with
          | none => []
          | some bytes =>
            let decoded := utf8DecodeReplace bytes
            if ("http".toList).isPrefixOf decoded then decoded else []

/-- A Python value as it appears in worksheet cells and upsert payloads:
`None`, a string, or an integer (the numeric labels the enricher writes are
stringified before upserting, so these three cases cover every value the
modelled call sites produce). -/
inductive PyVal
  | vNone
  | vStr (s : List Char)
  | vInt (n : Int)
deriving Repr, DecidableEq

/-- Python `str(v)` for the modelled values. -/
def pyStrOf : PyVal → List Char
  | .vNone => "None".toList
  | .vStr s => s
  | .vInt n => (toString n).toList

/-- `safe_str` applied to a cell value. -/
def safeStrPy : PyVal → List Char
  | .vNone => []
  | v => safe_str (pyStrOf v)

/-- A worksheet data row, cells by column index (missing cells are `None`). -/
abbrev Row := List PyVal

/-- A partial-fields payload, a Python dict as an ordered association list
(its keys are unique, which the upsert theorems assume via `Nodup`). -/
abbrev AssocRow := List (List Char × PyVal)

/-- Read a cell (openpyxl returns `None` for untouched cells). -/
def getCell (r : Row) (i : Nat) : PyVal :=
  r.getD i .vNone

/-- Write a cell, padding the row with `None` cells if needed. -/
def setCell (r : Row) (i : Nat) (v : PyVal) : Row :=
  if i < r.length then r.set i v
  else r ++ List.replicate (i - r.length) .vNone ++ [v]

/-- `sheet_header_map` lookup helper: the last column at or after `base`
holding name `k`. -/
def headerIdxAux (base : Nat) : List (List Char) → List Char → Option Nat
  | [], _ => none
  | h :: t, k =>
    match headerIdxAux (base + 1) t k with
    | some j => some j
    | none => if h = k then some base else none

/-- `sheet_header_map` lookup: the column of a header name, later duplicate
header columns overwriting earlier ones. -/
def headerIdx (header : List (List Char)) (k : List Char) : Option Nat :=
  headerIdxAux 0 header k

/-- The column indices in `header.values()` of the sheet header dict: each
name contributes its winning (last) column. -/
def headerVals (header : List (List Char)) : List Nat :=
  (List.range header.length).filter (fun i => headerIdx header (header.getD i []) = some i)

/-- A cell that `append_row_first_truly_empty` considers empty. -/
def cellEmpty (v : PyVal) : Bool :=
  match v with
  | .vNone => true
  | v => decide (pyStrip (pyStrOf v) = [])

/-- The per-row test of `find_row_by_key`: a non-`None` key cell whose
`str(v).strip()` equals the key value. -/
def rowMatches (r : Row) (keyIdx : Nat) (keyVal : List Char) : Bool :=
  match getCell r keyIdx with
  | .vNone => false
  | v => decide (pyStrip (pyStrOf v) = keyVal)

/-- Scanning helper for `find_row_by_key`. -/
def findRowAux (keyIdx : Nat) (keyVal : List Char) : Nat → List Row → Option Nat
  | _, [] => none
  | i, r :: rest =>
    if rowMatches r keyIdx keyVal then some i else findRowAux keyIdx keyVal (i + 1) rest

/-- `find_row_by_key`: first row whose key cell is non-`None` and strips to
the key value. -/
def find_row_by_key (ws : List Row) (keyIdx : Nat) (keyVal : List Char) : Option Nat :=
  findRowAux keyIdx keyVal 0 ws

/-- Whether a row is "truly empty" across the header's columns. -/
def rowTrulyEmpty (header : List (List Char)) (r : Row) : Bool :=
  (headerVals header).all (fun i => cellEmpty (getCell r i))

/-- Write each field of a payload that has a header column into row `r`. -/
def writeFields (ws : List Row) (header : List (List Char)) (r : Nat) (row : AssocRow) :
    List Row :=
  row.foldl (fun ws kv =>
    match headerIdx header kv.1 with
    | none => ws
    | some i => ws.set r (setCell (ws.getD r []) i kv.2)) ws

/-- `append_row_first_truly_empty`: reuse the first truly-empty row, else
append a fresh row; returns the new sheet and the used row index. -/
def append_row_first_truly_empty (ws : List Row) (header : List (List Char)) (row : AssocRow) :
    List Row × Nat :=
  match (List.range ws.length).find? (fun r => rowTrulyEmpty header (ws.getD r [])) with
  | some r => (writeFields ws header r row, r)
  | none => (writeFields (ws ++ [[]]) header ws.length row, ws.length)

/-- Python dict update `row2 = dict(row); row2[key_col] = key_val`. -/
def setAssoc (row : AssocRow) (k : List Char) (v : PyVal) : AssocRow :=
  if row.any (fun kv => kv.1 = k) then row.map (fun kv => if kv.1 = k then (k, v) else kv)
  else row ++ [(k, v)]

/-- Whether an incoming value is a blank string (skipped by the merge loop). -/
def isBlankStr (v : PyVal) : Bool :=
  match v with
  | .vStr s => decide (pyStrip s = [])
  | _ => false

/-- The condition under which the merge loop writes incoming value `v` over
current cell value `old`: the incoming value is neither `None` nor a blank
string, and either overwrite is on or the current value is empty. -/
def writableInto (overwrite : Bool) (old v : PyVal) : Bool :=
  ¬(v = .vNone) ∧ ¬ isBlankStr v = true ∧ (overwrite = true ∨ cellEmpty old = true)

/-- The merge loop of `upsert_row` on an existing row `r`. -/
def mergeFields (ws : List Row) (header : List (List Char)) (r : Nat) (row : AssocRow)
    (overwrite : Bool) : List Row :=
  row.foldl (fun ws kv =>
    match headerIdx header kv.1 with
    | none => ws
    | some i =>
      if kv.2 = .vNone then ws
      else if isBlankStr kv.2 then ws
      else if ¬overwrite ∧ ¬ cellEmpty (getCell (ws.getD r []) i) then ws
      else ws.set r (setCell (ws.getD r []) i kv.2)) ws

/-- `upsert_row` from the ingest and enrich scripts (their bodies are
identical); `none` models the `KeyError` when the key column is missing
from the header. -/
def upsert_row (ws : List Row) (header : List (List Char)) (keyCol keyVal : List Char)
    (row : AssocRow) (overwrite : Bool) : Option (List Row) :=
  match headerIdx header keyCol with
  | none => none
  | some keyIdx =>
    match find_row_by_key ws keyIdx keyVal with
    | none => some (append_row_first_truly_empty ws header (setAssoc row keyCol (.vStr keyVal))).1
    | some r => some (mergeFields ws header r row overwrite)

/-- The exceptions the enrichment attempt loop can catch, as raised by
`gemini_generate_json`: request-level transport errors, an `HTTPError`
from `raise_for_status` (which always carries its response, so only the
status matters), the `ValueError` for a non-JSON body, and anything else
(`KeyError`/`IndexError` on an unexpected response shape, …). -/
inductive GemExc
  | readTimeout
  | connectTimeout
  | connectionError
  | httpError (status : Int)
  | valueError
  | otherError
deriving Repr, DecidableEq

/-- One API call outcome. -/
inductive ApiOutcome
  | success
  | fail (e : GemExc)
deriving Repr, DecidableEq

/-- The retry-eligibility test of the orchestrator's attempt loop. -/
def retryableExc : GemExc → Bool
  | .readTimeout => true
  | .connectTimeout => true
  | .connectionError => true
  | .httpError s => s = 429 ∨ s = 500 ∨ s = 502 ∨ s = 503 ∨ s = 504
  | .valueError => false
  | .otherError => false

/-- Outcome of the per-item attempt loop: whether it ended in success and
how many API calls were made. -/
structure AttemptResult where
  ok : Bool
  attemptsMade : Nat
deriving Repr, DecidableEq

/-- The `for attempt in range(1, attempts + 1)` loop of `main` (default
configuration: no per-URL wall-clock budget), `api i` giving the outcome of
the i-th call.  Stops on success, on a non-retryable failure, or when the
attempt budget is spent. -/
def attemptLoop (api : Nat → ApiOutcome) (attempts : Nat) (i : Nat) : AttemptResult :=
  match api i with
  | .success => ⟨true, i⟩
  | .fail e =>
    if h : attempts ≤ i ∨ ¬ retryableExc e then ⟨false, i⟩
    else attemptLoop api attempts (i + 1)
termination_by attempts - i
decreasing_by
  simp only [not_or, not_le] at h
  omega

/-- The orchestrator's attempt budget and loop: `attempts = max(1, retries+1)`. -/
def runAttempts (api : Nat → ApiOutcome) (retries : Int) : AttemptResult :=
  attemptLoop api (max 1 (retries + 1)).toNat 1

/-- A raw CSV row as the cleaning pipeline sees one: `position` and `url`
cells plus an abstract tag standing for all the other columns. -/
structure RawRow where
  position : List Char
  url : List Char
  tag : Nat
deriving Repr, DecidableEq

/-- A kept output row (`url_key` added, `position` renumbered). -/
structure CleanRow where
  position : List Char
  url : List Char
  url_key : List Char
  tag : Nat
deriving Repr, DecidableEq

/-- Digits to a natural number. -/
def ofDigits (ds : List Char) : Nat :=
  ds.foldl (fun a c => a * 10 + (c.toNat - 48)) 0

/-- Python `int()` on an already-stripped token: optional sign plus ASCII
decimal digits (underscore/unicode-digit forms are not modelled and appear
in no statement). -/
def pyIntOpt : List Char → Option Int
  | [] => none
  | '+' :: ds => if ds ≠ [] ∧ ds.all Char.isDigit then some (ofDigits ds : Nat) else none
  | '-' :: ds => if ds ≠ [] ∧ ds.all Char.isDigit then some (-(ofDigits ds : Nat)) else none
  | ds => if ds.all Char.isDigit then some (ofDigits ds : Nat) else none

/-- `pos_val` from `clean_bing_export`: parse the position, defaulting to
`10 ** 9` on failure. -/
def pos_val (r : RawRow) : Int :=
  (pyIntOpt (pyStrip r.position)).getD (10 ^ 9)

/-- The keep/drop loop over one (run_id, query) group, already sorted.
`seen` is the set of canonical keys kept so far; `none` models the uncaught
`ValueError` that `normalize_url_key` can raise. -/
def cleanLoop (topN : Nat) :
    List RawRow → List (List Char) → List CleanRow → Nat → Nat →
    Option (List CleanRow × Nat × Nat)
  | [], _, kept, dm, dd => some (kept.reverse, dm, dd)
  | rr :: rest, seen, kept, dm, dd =>
    let raw := pyStrip rr.url
    if raw = [] then cleanLoop topN rest seen kept (dm + 1) dd
    else
      match normalize_url_key raw with
      | none => none
      | some k =>
        if k = [] then cleanLoop topN rest seen kept (dm + 1) dd
        else if seen.contains k then cleanLoop topN rest seen kept dm (dd + 1)
        else
          let kept' := ⟨rr.position, rr.url, k, rr.tag⟩ :: kept
          if topN ≤ kept'.length then some (kept'.reverse, dm, dd)
          else cleanLoop topN rest (k :: seen) kept' dm dd

/-- The missing-url drop test of the cleaning loop: blank raw url, or an
empty canonical key. -/
def droppedMissing (r : RawRow) : Bool :=
  pyStrip r.url = [] ∨ normalize_url_key (pyStrip r.url) = some []

/-- Renumber survivors `1..M` (`rr["position"] = str(i)`). -/
def renumber (rows : List CleanRow) : List CleanRow :=
  rows.enum.map (fun p => { p.2 with position := (toString (p.1 + 1)).toList })

/-- One (run_id, query) group of `clean_bing_export` (default flags:
`drop_content=False`, no content snapshot directory): stable sort by
`pos_val`, keep/drop loop, then renumbering. -/
def cleanGroup (rows : List RawRow) (topN : Nat) : Option (List CleanRow × Nat × Nat) :=
  let sorted := List.insertionSort (fun a b => pos_val a ≤ pos_val b) rows
  (cleanLoop topN sorted [] [] 0 0).map (fun r => (renumber r.1, r.2.1, r.2.2))

/-- Parsed JSON values (`json.loads` output). -/
inductive Json
  | jnull
  | jbool (b : Bool)
  | jstr (s : List Char)
  | jint (n : Int)
  | jarr (xs : List Json)
  | jobj (kvs : List (List Char × Json))

/-- Python dict lookup on a parsed JSON object (duplicate keys: last wins,
as in `json.loads`). -/
def jget (kvs : List (List Char × Json)) (k : List Char) : Option Json :=
  kvs.foldl (fun acc kv => if kv.1 = k then some kv.2 else acc) none

mutual

/-- Python `repr` of a parsed JSON value, enough of it for `str(v)` inside
`safe_str` (string escaping inside reprs is not modelled; no statement
evaluates it on a string needing escapes). -/
def jsonRepr : Json → List Char
  | .jnull => "None".toList
  | .jbool true => "True".toList
  | .jbool false => "False".toList
  | .jint n => (toString n).toList
  | .jstr s => '\'' :: (s ++ ['\''])
  | .jarr xs => '[' :: (List.intercalate ", ".toList (jsonReprList xs) ++ [']'])
  | .jobj kvs => '\x7b' :: (List.intercalate ", ".toList (jsonReprPairs kvs) ++ ['\x7d'])

/-- Reprs of a list of JSON values. -/
def jsonReprList : List Json → List (List Char)
  | [] => []
  | x :: xs => jsonRepr x :: jsonReprList xs

/-- Reprs of the pairs of a JSON object. -/
def jsonReprPairs : List (List Char × Json) → List (List Char)
  | [] => []
  | kv :: kvs => ('\'' :: (kv.1 ++ '\'' :: ':' :: ' ' :: jsonRepr kv.2)) :: jsonReprPairs kvs

end

/-- `safe_str(obj.get(k))` for a JSON object value. -/
def safeStrJson : Option Json → List Char
  | none => []
  | some .jnull => []
  | some v => safe_str (jsonRepr v |> fun r => match v with | .jstr s => s | _ => r)

/-- One line of `load_processed_urls_from_jsonl`: fold a parsed log line into
the (ok, failed) url sets; `none` lines stand for blank or unparseable lines
(skipped), non-dict lines are skipped, and a line counts only when its
`ok` field is the boolean `true` or `false` and its `url` is non-blank. -/
def loadStep (acc : List (List Char) × List (List Char)) (line : Option Json) :
    List (List Char) × List (List Char) :=
  match line with
  | none => acc
  | some (.jobj kvs) =>
    let u := safeStrJson (jget kvs ("url".toList))
    if u = [] then acc
    else
      match jget kvs ("ok".toList) with
      | some (.jbool true) => (if u ∈ acc.1 then acc.1 else acc.1 ++ [u], acc.2)
      | some (.jbool false) => (acc.1, if u ∈ acc.2 then acc.2 else acc.2 ++ [u])
      | _ => acc
  | some _ => acc

/-- The whole of `load_processed_urls_from_jsonl`: fold the parsed lines into
the `(ok, failed)` url sets starting from two empty sets. -/
def loadProcessed (lines : List (Option Json)) : List (List Char) × List (List Char) :=
  lines.foldl loadStep ([], [])

/-- The decision the orchestrator main loop takes for one `urls` row before
any API call.  Inputs mirror the loop's reads: the url cell, whether the
`content_path` cell is non-blank and exists on disk, and the `type` cell. -/
structure SheetRow where
  urlCell : PyVal
  contentPathOk : Bool
  existingType : PyVal
deriving Repr, DecidableEq

/-- What happens to a row before the API call: silently skipped by an early
`continue`, counted as skipped by the resume logic, or processed. -/
inductive RowAction
  | skipPre
  | skipCounted
  | process
deriving Repr, DecidableEq

/-- The pre-API decision sequence of the orchestrator's main loop. -/
def rowAction (overwrite retryFailures : Bool)
    (okUrls failUrls onlyUrls : List (List Char)) (row : SheetRow) : RowAction :=
  let url := safeStrPy row.urlCell
  if url = [] then .skipPre
  else if onlyUrls ≠ [] ∧ url ∉ onlyUrls then .skipPre
  else if ¬ row.contentPathOk then .skipPre
  else if ¬overwrite ∧ safeStrPy row.existingType ≠ [] then .skipCounted
  else if ¬overwrite ∧ url ∈ okUrls then .skipCounted
  else if ¬overwrite ∧ ¬retryFailures ∧ url ∈ failUrls then .skipCounted
  else .process

/-- The success audit entry `{"url": url, "ok": True, "response": parsed}`
written by `main` (field order as in the source dict literal). -/
def okEntry (url : List Char) (response : Json) : Json :=
  .jobj [("url".toList, .jstr url), ("ok".toList, .jbool true),
         ("response".toList, response)]

/-- The error dict built on failure: `type` and `message` always, plus
`http_status` and `http_body_snippet` for an `HTTPError` with a response. -/
def errFields (etype emsg : List Char) (httpStatus : Option Int)
    (bodySnippet : Option (List Char)) : List (List Char × Json) :=
  [("type".toList, .jstr etype), ("message".toList, .jstr emsg)] ++
    (match httpStatus with
     | some s => [("http_status".toList, .jint s)]
     | none => []) ++
    (match bodySnippet with
     | some b => [("http_body_snippet".toList, .jstr b)]
     | none => [])

/-- The failure audit entry `{"url": url, "ok": False, "error": err}`. -/
def errEntry (url : List Char) (err : List (List Char × Json)) : Json :=
  .jobj [("url".toList, .jstr url), ("ok".toList, .jbool false),
         ("error".toList, .jobj err)]

/-- Keys of a JSON object. -/
def jsonKeys : Json → List (List Char)
  | .jobj kvs => kvs.map (fun kv => kv.1)
  | _ => []

/-- Lowercase hexadecimal digit. -/
def hexDigitLower (n : Nat) : Char :=
  if n < 10 then Char.ofNat (48 + n) else Char.ofNat (87 + n)

/-- Four lowercase hex digits. -/
def hex4 (n : Nat) : List Char :=
  [hexDigitLower (n / 4096 % 16), hexDigitLower (n / 256 % 16),
   hexDigitLower (n / 16 % 16), hexDigitLower (n % 16)]

/-- `json.dumps` escaping of one string character (`ensure_ascii=True`). -/
def jsonEscapeChar (c : Char) : List Char :=
  if c = '"' then ['\\', '"']
  else if c = '\\' then ['\\', '\\']
  else if c = '\n' then ['\\', 'n']
  else if c = '\r' then ['\\', 'r']
  else if c = '\t' then ['\\', 't']
  else if c = '\x08' then ['\\', 'b']
  else if c = '\x0c' then ['\\', 'f']
  else if c.toNat < 0x20 ∨ 0x7f ≤ c.toNat then
    if c.toNat < 0x10000 then '\\' :: 'u' :: hex4 c.toNat
    else
      ('\\' :: 'u' :: hex4 (0xD800 + (c.toNat - 0x10000) / 1024)) ++
        ('\\' :: 'u' :: hex4 (0xDC00 + (c.toNat - 0x10000) % 1024))
  else [c]

mutual

/-- `json.dumps` with the default separators. -/
def jsonDumps : Json → List Char
  | .jnull => "null".toList
  | .jbool true => "true".toList
  | .jbool false => "false".toList
  | .jint n => (toString n).toList
  | .jstr s => '"' :: (s.flatMap jsonEscapeChar ++ ['"'])
  | .jarr xs => '[' :: (List.intercalate ", ".toList (jsonDumpsList xs) ++ [']'])
  | .jobj kvs => '\x7b' :: (List.intercalate ", ".toList (jsonDumpsPairs kvs) ++ ['\x7d'])

/-- Serialized elements of a JSON array. -/
def jsonDumpsList : List Json → List (List Char)
  | [] => []
  | x :: xs => jsonDumps x :: jsonDumpsList xs

/-- Serialized `"key": value` pairs of a JSON object. -/
def jsonDumpsPairs : List (List Char × Json) → List (List Char)
  | [] => []
  | kv :: kvs =>
    ('"' :: (kv.1.flatMap jsonEscapeChar ++ '"' :: ':' :: ' ' :: jsonDumps kv.2)) ::
      jsonDumpsPairs kvs

end

/-- Rendering of a query-parameter list: `k=v` pairs joined by `&`. -/
def renderParams (ps : List (List Char × List Char)) : List Char :=
  List.intercalate ['&'] (ps.map fun kv => kv.1 ++ '=' :: kv.2)

/-- The optional query part of a structured URL. -/
def renderQuery (ps : List (List Char × List Char)) : List Char :=
  if ps = [] then [] else '?' :: renderParams ps

/-- A structured web URL rendered as a string: optional scheme, optional
`www.` label, host, path, optional trailing slash and query.  The
canonicalizer claims quantify over URLs of this shape. -/
def renderUrl (scheme : List Char) (www : Bool) (host path : List Char)
    (slash : Bool) (ps : List (List Char × List Char)) : List Char :=
  scheme ++ (if www then "www.".toList else []) ++ host ++ path ++
    (if slash then ['/'] else []) ++ renderQuery ps

/-- The canonical key `normalize_url_key` produces for a structured URL. -/
def canonKey (host path : List Char) (kept : List (List Char × List Char)) : List Char :=
  lowerL host ++ (if path = [] then ['/'] else path) ++
    (if kept = [] then [] else '?' :: renderParams kept)

/-- Characters allowed in a modelled host name. -/
def hostChar (c : Char) : Bool :=
  c.isAlphanum || c = '.' || c = '-'

/-- Characters allowed in a modelled path. -/
def pathChar (c : Char) : Bool :=
  alwaysSafe c || c = '/'

/-- A rendered scheme: absent, or an explicit `http`/`https` prefix. -/
def wfScheme (s : List Char) : Prop :=
  s = [] ∨ s = "http://".toList ∨ s = "https://".toList

/-- Well-formedness of the structured-URL pieces the canonicalizer theorems
quantify over: plain host outside the click-redirect domain, absolute
slash-free-tail path, and query parameters over quote-safe characters. -/
def wfParts (host path : List Char) (ps : List (List Char × List Char)) : Prop :=
  host ≠ [] ∧ host.all hostChar = true ∧
  ¬ ("www.".toList).isPrefixOf (lowerL host) = true ∧
  ¬ ("bing.com".toList).isSuffixOf (lowerL host) = true ∧
  (path = [] ∨ (path.head? = some '/' ∧ path.getLast? ≠ some '/' ∧
    path.all pathChar = true)) ∧
  (∀ kv ∈ ps, kv.1.all alwaysSafe = true ∧ kv.2.all alwaysSafe = true)

/-- A Bing click-tracking redirect for a destination URL: the `u` parameter
carries `a1` followed by the urlsafe-base64 encoding of the destination. -/
def renderCk (dest : List Char) : List Char :=
  "https://www.bing.com/ck/a?p=1&u=a1".toList ++ b64urlEncode (utf8Bytes dest)

-- THEOREMS-START
theorem pyStrip_length_le (l : List Char) : (pyStrip l).length ≤ l.length := by
  unfold pyStrip
  have h1 : (l.dropWhile isPySpace).length ≤ l.length :=
    (List.dropWhile_suffix isPySpace).length_le
  have h2 : ((l.dropWhile isPySpace).reverse.dropWhile isPySpace).length ≤
      (l.dropWhile isPySpace).reverse.length :=
    (List.dropWhile_suffix isPySpace).length_le
  simp only [List.length_reverse] at *
  omega

theorem breakFirst_not_mem {c : Char} {l : List Char} (h : c ∉ l) :
    breakFirst c l = (l, none) := by
  induction l with
  | nil => rfl
  | cons x xs ih =>
    simp only [List.mem_cons, not_or] at h
    simp [breakFirst, h.1, ih h.2, Ne.symm h.1]

theorem breakFirst_append {c : Char} {l₁ l₂ : List Char} (h : c ∉ l₁) :
    breakFirst c (l₁ ++ c :: l₂) = (l₁, some l₂) := by
  induction l₁ with
  | nil => simp [breakFirst]
  | cons x xs ih =>
    simp only [List.mem_cons, not_or] at h
    simp [breakFirst, Ne.symm h.1, ih h.2]

theorem breakFirst_none_eq {c : Char} {l a : List Char}
    (h : breakFirst c l = (a, none)) : a = l ∧ c ∉ l := by
  induction l generalizing a with
  | nil =>
    simp [breakFirst] at h
    simp [h]
  | cons x xs ih =>
    by_cases hx : x = c
    · simp [breakFirst, hx] at h
    · rw [breakFirst, if_neg hx] at h
      rw [Prod.mk.injEq] at h
      obtain ⟨h1, h2⟩ := h
      obtain ⟨ha, hm⟩ := @ih (breakFirst c xs).1 (Prod.ext rfl h2)
      constructor
      · rw [← h1, ha]
      · simp only [List.mem_cons, not_or]
        exact ⟨fun hc => hx hc.symm, hm⟩

theorem breakFirst_some_eq {c : Char} {l a b : List Char}
    (h : breakFirst c l = (a, some b)) : l = a ++ c :: b ∧ c ∉ a := by
  induction l generalizing a b with
  | nil => simp [breakFirst] at h
  | cons x xs ih =>
    by_cases hx : x = c
    · rw [breakFirst, if_pos hx] at h
      rw [Prod.mk.injEq] at h
      obtain ⟨h1, h2⟩ := h
      rw [Option.some.injEq] at h2
      refine ⟨?_, ?_⟩
      · rw [← h1, ← h2, hx]
        rfl
      · rw [← h1]
        simp
    · rw [breakFirst, if_neg hx] at h
      rw [Prod.mk.injEq] at h
      obtain ⟨h1, h2⟩ := h
      obtain ⟨ha, hm⟩ := @ih (breakFirst c xs).1 b (Prod.ext rfl h2)
      constructor
      · rw [← h1, List.cons_append, ← ha]
      · rw [← h1]
        simp only [List.mem_cons, not_or]
        exact ⟨fun hc => hx hc.symm, hm⟩

theorem breakFirst_some_length {c : Char} {l a b : List Char}
    (h : breakFirst c l = (a, some b)) : l.length = a.length + 1 + b.length := by
  have := (breakFirst_some_eq h).1
  subst this
  simp
  omega

theorem splitSep_ne_nil (c : Char) (l : List Char) : splitSep c l ≠ [] := by
  cases l with
  | nil => simp [splitSep]
  | cons x xs =>
    simp only [splitSep]
    by_cases hx : x = c
    · simp [hx]
    · simp only [if_neg hx]
      cases splitSep c xs with
      | nil => simp
      | cons h t => simp

/-- Every piece of a split is no longer than the input. -/
theorem splitSep_mem_length_le {c : Char} {l p : List Char}
    (h : p ∈ splitSep c l) : p.length ≤ l.length := by
  induction l generalizing p with
  | nil =>
    simp [splitSep] at h
    simp [h]
  | cons x xs ih =>
    simp only [splitSep] at h
    by_cases hx : x = c
    · rw [if_pos hx] at h
      rcases List.mem_cons.mp h with h1 | h1
      · simp [h1]
      · have := ih h1
        simp
        omega
    · rw [if_neg hx] at h
      cases hs : splitSep c xs with
      | nil => exact absurd hs (splitSep_ne_nil c xs)
      | cons hd tl =>
        rw [hs] at h
        rcases List.mem_cons.mp h with h1 | h1
        · subst h1
          have : hd ∈ splitSep c xs := by rw [hs]; exact List.mem_cons_self _ _
          have := ih this
          simp
          omega
        · have : p ∈ splitSep c xs := by rw [hs]; exact List.mem_cons_of_mem _ h1
          have := ih this
          simp
          omega

/-- A separator-free list splits as itself. -/
theorem splitSep_eq_single {c : Char} {p : List Char} (hp : c ∉ p) :
    splitSep c p = [p] := by
  induction p with
  | nil => simp [splitSep]
  | cons x xs ihp =>
    simp only [List.mem_cons, not_or] at hp
    have hxc : ¬x = c := fun h => hp.1 h.symm
    simp only [splitSep, if_neg hxc]
    rw [ihp hp.2]

/-- Splitting past a separator-free first piece. -/
theorem splitSep_append_cons {c : Char} {p rest : List Char} (hp : c ∉ p) :
    splitSep c (p ++ c :: rest) = p :: splitSep c rest := by
  induction p with
  | nil => simp [splitSep]
  | cons x xs ihp =>
    simp only [List.mem_cons, not_or] at hp
    have hxc : ¬x = c := fun h => hp.1 h.symm
    simp only [List.cons_append]
    simp only [splitSep, if_neg hxc]
    rw [ihp hp.2]

/-- Splitting an interleave of separator-free pieces recovers the pieces. -/
theorem splitSep_intercalate {c : Char} {ps : List (List Char)}
    (hne : ps ≠ []) (hfree : ∀ p ∈ ps, c ∉ p) :
    splitSep c (List.intercalate [c] ps) = ps := by
  induction ps with
  | nil => exact absurd rfl hne
  | cons p rest ih =>
    cases rest with
    | nil =>
      have hp : c ∉ p := hfree p (List.mem_cons_self _ _)
      have hsingle : List.intercalate [c] [p] = p := by
        simp [List.intercalate]
      rw [hsingle]
      exact splitSep_eq_single hp
    | cons q qs =>
      have hp : c ∉ p := hfree p (List.mem_cons_self _ _)
      have hrest : ∀ r ∈ q :: qs, c ∉ r := fun r hr => hfree r (List.mem_cons_of_mem _ hr)
      have ihr := ih (by simp) hrest
      have key : List.intercalate [c] (p :: q :: qs) =
          p ++ c :: List.intercalate [c] (q :: qs) := by
        simp only [List.intercalate]
        simp [List.intersperse]
      rw [key, splitSep_append_cons hp, ihr]

theorem isPrefixOf_append_self (pat b : List Char) :
    pat.isPrefixOf (pat ++ b) = true := by
  induction pat with
  | nil => simp [List.isPrefixOf]
  | cons x xs ih => simp [List.isPrefixOf, ih]

theorem containsSub_of_append (pat a b : List Char) :
    containsSub pat (a ++ pat ++ b) = true := by
  induction a with
  | nil =>
    rw [List.nil_append]
    cases hp : pat ++ b with
    | nil =>
      have hp0 : pat = [] := by
        cases pat with
        | nil => rfl
        | cons x xs => simp at hp
      simp [hp0, containsSub]
    | cons x xs =>
      rw [containsSub, ← hp, isPrefixOf_append_self]
      simp
  | cons x a' ih =>
    have hn : (x :: a') ++ pat ++ b = x :: (a' ++ pat ++ b) := by simp
    rw [hn, containsSub, ih]
    simp

theorem containsSub_eq_false_of_head_not_mem {pat l : List Char} {d : Char}
    (hpat : pat = d :: pat.tail) (h : d ∉ l) : containsSub pat l = false := by
  induction l with
  | nil =>
    simp [containsSub]
    intro hc
    rw [hc] at hpat
    simp at hpat
  | cons x xs ih =>
    simp only [List.mem_cons, not_or] at h
    simp only [containsSub, Bool.or_eq_false_iff]
    constructor
    · rw [hpat]
      simp only [List.isPrefixOf]
      cases hdx : d == x with
      | false => simp
      | true =>
        exfalso
        exact h.1 (eq_of_beq hdx)
    · exact ih h.2

/-- Full characterization of the attempt loop: the final attempt count is in
range, every attempt strictly before the last failed retryably (hence was
retried), success holds exactly when the last call succeeded, and a failed
run ended on an exhausted budget or a non-retryable error. -/
theorem attemptLoop_spec (api : Nat → ApiOutcome) (attempts i : Nat)
    (hi : 1 ≤ i) (hia : i ≤ attempts) :
    i ≤ (attemptLoop api attempts i).attemptsMade ∧
    (attemptLoop api attempts i).attemptsMade ≤ attempts ∧
    (∀ j, i ≤ j → j < (attemptLoop api attempts i).attemptsMade →
      ∃ e, api j = .fail e ∧ retryableExc e = true) ∧
    ((attemptLoop api attempts i).ok = true ↔
      api (attemptLoop api attempts i).attemptsMade = .success) ∧
    ((attemptLoop api attempts i).ok = false →
      ∃ e, api (attemptLoop api attempts i).attemptsMade = .fail e ∧
        ((attemptLoop api attempts i).attemptsMade = attempts ∨ retryableExc e = false)) := by
  obtain ⟨n, hn⟩ : ∃ n, attempts - i = n := ⟨_, rfl⟩
  induction n generalizing i with
  | zero =>
    have hieq : i = attempts := by omega
    rw [attemptLoop]
    cases hapi : api i with
    | success =>
      dsimp only
      refine ⟨le_refl _, hia, ?_, ?_, ?_⟩
      · intro j h1 h2
        omega
      · simpa using hapi
      · intro h
        exact absurd h (by simp)
    | fail e =>
      dsimp only
      have hcond : attempts ≤ i ∨ ¬ retryableExc e = true := Or.inl (by omega)
      rw [dif_pos hcond]
      dsimp only
      refine ⟨le_refl _, hia, ?_, ?_, ?_⟩
      · intro j h1 h2
        omega
      · simp [hapi]
      · intro
        exact ⟨e, hapi, Or.inl hieq⟩
  | succ n ihn =>
    rw [attemptLoop]
    cases hapi : api i with
    | success =>
      dsimp only
      refine ⟨le_refl _, hia, ?_, ?_, ?_⟩
      · intro j h1 h2
        omega
      · simpa using hapi
      · intro h
        exact absurd h (by simp)
    | fail e =>
      dsimp only
      by_cases hcond : attempts ≤ i ∨ ¬ retryableExc e = true
      · rw [dif_pos hcond]
        dsimp only
        refine ⟨le_refl _, hia, ?_, ?_, ?_⟩
        · intro j h1 h2
          omega
        · simp [hapi]
        · intro
          refine ⟨e, hapi, ?_⟩
          rcases hcond with h | h
          · exact Or.inl (by omega)
          · exact Or.inr (by simpa using h)
      · rw [dif_neg hcond]
        push_neg at hcond
        obtain ⟨h1, h2⟩ := hcond
        have hstep := ihn (i + 1) (by omega) (by omega) (by omega)
        refine ⟨by omega, hstep.2.1, ?_, hstep.2.2.2.1, hstep.2.2.2.2⟩
        intro j hj1 hj2
        rcases Nat.eq_or_lt_of_le hj1 with hj | hj
        · exact ⟨e, hj ▸ hapi, by simpa using h2⟩
        · exact hstep.2.2.1 j (by omega) hj2

/-- C3: in the enrichment orchestrator's per-item loop a failure is retried
iff it is a connect/read timeout, a connection error, or an HTTP error with
status 429/500/502/503/504; an item makes at most `max(1, retries+1)`
attempts; an API failing twice with 503 then succeeding ends in success
after exactly 3 attempts (default `retries=2`); with an attempt budget of 2
and persistent failures the item fails after exactly 2 attempts; and a
non-retryable failure (`ValueError` for a non-JSON body, a 4xx other than
429, …) ends the item on the spot with no further attempt. -/
theorem retry_orchestrator_spec :
    (∀ (api : Nat → ApiOutcome) (retries : Int),
      1 ≤ (runAttempts api retries).attemptsMade ∧
      (runAttempts api retries).attemptsMade ≤ (max 1 (retries + 1)).toNat ∧
      (∀ j, 1 ≤ j → j < (runAttempts api retries).attemptsMade →
        ∃ e, api j = .fail e ∧ retryableExc e = true) ∧
      ((runAttempts api retries).ok = true ↔
        api (runAttempts api retries).attemptsMade = .success) ∧
      ((runAttempts api retries).ok = false →
        ∃ e, api (runAttempts api retries).attemptsMade = .fail e ∧
          ((runAttempts api retries).attemptsMade = (max 1 (retries + 1)).toNat ∨
            retryableExc e = false))) ∧
    (∀ e, retryableExc e = true ↔
      (e = .readTimeout ∨ e = .connectTimeout ∨ e = .connectionError ∨
        e = .httpError 429 ∨ e = .httpError 500 ∨ e = .httpError 502 ∨
        e = .httpError 503 ∨ e = .httpError 504)) ∧
    runAttempts (fun i => if i ≤ 2 then .fail (.httpError 503) else .success) 2 =
      ⟨true, 3⟩ ∧
    runAttempts (fun _ => .fail (.httpError 503)) 1 = ⟨false, 2⟩ ∧
    runAttempts (fun _ => .fail .valueError) 2 = ⟨false, 1⟩ := by
  refine ⟨?_, ?_, ?_, ?_, ?_⟩
  · intro api retries
    have hb : 1 ≤ (max 1 (retries + 1)).toNat := by
      rcases le_total 1 (retries + 1) with h | h
      · rw [max_eq_right h]
        omega
      · rw [max_eq_left h]
        rfl
    exact attemptLoop_spec api ((max 1 (retries + 1)).toNat) 1 le_rfl hb
  · intro e
    cases e with
    | httpError s =>
      simp only [retryableExc]
      constructor
      · intro h
        rcases of_decide_eq_true h with h | h | h | h | h
        · exact Or.inr (Or.inr (Or.inr (Or.inl (by rw [h]))))
        · exact Or.inr (Or.inr (Or.inr (Or.inr (Or.inl (by rw [h])))))
        · exact Or.inr (Or.inr (Or.inr (Or.inr (Or.inr (Or.inl (by rw [h]))))))
        · exact Or.inr (Or.inr (Or.inr (Or.inr (Or.inr (Or.inr (Or.inl (by rw [h])))))))
        · exact Or.inr (Or.inr (Or.inr (Or.inr (Or.inr (Or.inr (Or.inr (by rw [h])))))))
      · intro h
        rcases h with h | h | h | h | h | h | h | h
        all_goals cases h
        all_goals decide
    | readTimeout => simp [retryableExc]
    | connectTimeout => simp [retryableExc]
    | connectionError => simp [retryableExc]
    | valueError => simp [retryableExc]
    | otherError => simp [retryableExc]
  · simp only [runAttempts]
    norm_num
    rw [attemptLoop, attemptLoop, attemptLoop]
    simp [retryableExc]
  · simp only [runAttempts]
    norm_num
    rw [attemptLoop, attemptLoop]
    simp [retryableExc]
  · simp only [runAttempts]
    norm_num
    rw [attemptLoop]
    simp [retryableExc]

/-- Witness for C3: the characterization applied to the always-`ValueError`
API with two retries, and the retryability test at a concrete error. -/
theorem retry_orchestrator_spec_witness :
    1 ≤ (runAttempts (fun _ => .fail .valueError) 2).attemptsMade ∧
    (retryableExc .readTimeout = true ↔
      (GemExc.readTimeout = .readTimeout ∨ GemExc.readTimeout = .connectTimeout ∨
        GemExc.readTimeout = .connectionError ∨ GemExc.readTimeout = .httpError 429 ∨
        GemExc.readTimeout = .httpError 500 ∨ GemExc.readTimeout = .httpError 502 ∨
        GemExc.readTimeout = .httpError 503 ∨ GemExc.readTimeout = .httpError 504)) :=
  ⟨(retry_orchestrator_spec.1 (fun _ => .fail .valueError) 2).1,
    retry_orchestrator_spec.2.1 .readTimeout⟩

theorem getCell_setCell_self (r : Row) (i : Nat) (v : PyVal) :
    getCell (setCell r i v) i = v := by
  unfold getCell setCell
  by_cases h : i < r.length
  · rw [if_pos h]
    rw [List.getD_eq_getElem?_getD, List.getElem?_set_self (by simpa using h)]
    rfl
  · rw [if_neg h]
    push_neg at h
    rw [List.getD_eq_getElem?_getD]
    rw [show r ++ List.replicate (i - r.length) PyVal.vNone ++ [v] =
      (r ++ List.replicate (i - r.length) PyVal.vNone) ++ [v] by simp]
    have hlen : (r ++ List.replicate (i - r.length) PyVal.vNone).length = i := by
      simp
      omega
    rw [List.getElem?_append_right (by omega), hlen]
    simp

theorem getCell_setCell_ne (r : Row) {i j : Nat} (h : i ≠ j) (v : PyVal) :
    getCell (setCell r i v) j = getCell r j := by
  unfold getCell setCell
  by_cases hi : i < r.length
  · rw [if_pos hi, List.getD_eq_getElem?_getD, List.getD_eq_getElem?_getD,
      List.getElem?_set_ne (by simpa using h)]
  · rw [if_neg hi]
    push_neg at hi
    rw [List.getD_eq_getElem?_getD, List.getD_eq_getElem?_getD,
      show r ++ List.replicate (i - r.length) PyVal.vNone ++ [v] =
        (r ++ List.replicate (i - r.length) PyVal.vNone) ++ [v] by simp]
    by_cases hj : j < r.length
    · rw [List.getElem?_append_left (by simp; omega),
        List.getElem?_append_left (by simpa using hj)]
    · push_neg at hj
      have hrj : r[j]? = none := List.getElem?_eq_none (by simpa using hj)
      rw [hrj]
      by_cases hj2 : j < i
      · rw [List.getElem?_append_left (by simp; omega),
          List.getElem?_append_right (by simpa using hj),
          List.getElem?_replicate]
        rw [if_pos (by omega)]
        rfl
      · rw [List.getElem?_eq_none (by simp; omega)]

theorem headerIdxAux_some_spec {base : Nat} {t : List (List Char)} {k : List Char} {j : Nat}
    (h : headerIdxAux base t k = some j) :
    base ≤ j ∧ j - base < t.length ∧ t.getD (j - base) [] = k := by
  induction t generalizing base with
  | nil => simp [headerIdxAux] at h
  | cons x xs ih =>
    rw [headerIdxAux] at h
    cases hrec : headerIdxAux (base + 1) xs k with
    | some j2 =>
      rw [hrec] at h
      have hj : j2 = j := by
        simpa using h
      subst hj
      obtain ⟨h1, h2, h3⟩ := ih hrec
      refine ⟨by omega, by simp only [List.length_cons]; omega, ?_⟩
      have hd : j2 - base = (j2 - (base + 1)) + 1 := by omega
      rw [hd]
      simp only [List.getD_cons_succ]
      exact h3
    | none =>
      rw [hrec] at h
      by_cases hx : x = k
      · rw [if_pos hx] at h
        have hj : base = j := by simpa using h
        subst hj
        refine ⟨le_refl _, by simp only [List.length_cons]; omega, ?_⟩
        rw [Nat.sub_self]
        simpa using hx
      · rw [if_neg hx] at h
        exact absurd h (by simp)

theorem headerIdxAux_isSome {base : Nat} {t : List (List Char)} {k : List Char}
    (h : k ∈ t) : (headerIdxAux base t k).isSome = true := by
  induction t generalizing base with
  | nil => simp at h
  | cons x xs ih =>
    rw [headerIdxAux]
    cases hrec : headerIdxAux (base + 1) xs k with
    | some j => simp
    | none =>
      rcases List.mem_cons.mp h with h1 | h1
      · rw [if_pos h1.symm]
        simp
      · have := @ih (base + 1) h1
        rw [hrec] at this
        simp at this

/-- Under a duplicate-free header, the dict lookup of the i-th name is i. -/
theorem headerIdx_getD {header : List (List Char)} (hnd : header.Nodup)
    {i : Nat} (hi : i < header.length) :
    headerIdx header (header.getD i []) = some i := by
  have hmem : header.getD i [] ∈ header := by
    rw [List.getD_eq_getElem?_getD, List.getElem?_eq_getElem hi]
    exact List.getElem_mem hi
  have hsome := @headerIdxAux_isSome 0 _ _ hmem
  cases hj : headerIdx header (header.getD i []) with
  | none =>
    unfold headerIdx at hj
    rw [hj] at hsome
    simp at hsome
  | some j =>
    obtain ⟨h1, h2, h3⟩ := headerIdxAux_some_spec hj
    simp only [Nat.sub_zero] at h2 h3
    have : j = i := by
      have hji : header.getD j [] = header.getD i [] := h3
      rw [List.getD_eq_getElem?_getD, List.getD_eq_getElem?_getD,
        List.getElem?_eq_getElem h2, List.getElem?_eq_getElem hi] at hji
      simp only [Option.getD_some] at hji
      exact List.Nodup.getElem_inj_iff hnd |>.mp hji
    rw [this]

/-- A key the lookup resolves to column i names the i-th header column. -/
theorem headerIdx_some_spec {header : List (List Char)} {k : List Char} {i : Nat}
    (h : headerIdx header k = some i) : i < header.length ∧ header.getD i [] = k := by
  obtain ⟨h1, h2, h3⟩ := headerIdxAux_some_spec h
  rw [Nat.sub_zero] at h2 h3
  exact ⟨h2, h3⟩

theorem getD_set_self {ws : List Row} {r : Nat} (hr : r < ws.length) (x : Row) :
    (ws.set r x).getD r [] = x := by
  rw [List.getD_eq_getElem?_getD, List.getElem?_set_self (by simpa using hr)]
  rfl

theorem getD_set_ne {ws : List Row} {q r : Nat} (h : r ≠ q) (x : Row) :
    (ws.set r x).getD q [] = ws.getD q [] := by
  rw [List.getD_eq_getElem?_getD, List.getD_eq_getElem?_getD, List.getElem?_set_ne h]

/-- Field-by-field characterization of the merge loop: the sheet keeps its
shape, rows other than the target are untouched, and each header column of
the target row receives the (unique) matching payload value exactly when
`writableInto` allows it, keeping its old value otherwise. -/
theorem mergeFields_spec (header : List (List Char)) (hnd : header.Nodup)
    (row : AssocRow) (ow : Bool) :
    ∀ (ws : List Row) (r : Nat), r < ws.length → (row.map Prod.fst).Nodup →
    (mergeFields ws header r row ow).length = ws.length ∧
    (∀ q, q ≠ r → (mergeFields ws header r row ow).getD q [] = ws.getD q []) ∧
    (∀ i, i < header.length →
      getCell ((mergeFields ws header r row ow).getD r []) i =
        (match row.find? (fun kv => kv.1 = header.getD i []) with
         | some kv =>
           if writableInto ow (getCell (ws.getD r []) i) kv.2 then kv.2
           else getCell (ws.getD r []) i
         | none => getCell (ws.getD r []) i)) := by
  induction row with
  | nil =>
    intro ws r hr hnd2
    exact ⟨rfl, fun q hq => rfl, fun i hi => rfl⟩
  | cons kv rest ih =>
    intro ws r hr hnd2
    rw [List.map_cons, List.nodup_cons] at hnd2
    obtain ⟨hkv, hnd3⟩ := hnd2
    have hunfold : mergeFields ws header r (kv :: rest) ow =
        mergeFields (mergeFields ws header r [kv] ow) header r rest ow := by
      simp [mergeFields]
    rw [hunfold]
    cases hidx : headerIdx header kv.1 with
    | none =>
      have hws1 : mergeFields ws header r [kv] ow = ws := by
        simp [mergeFields, hidx]
      rw [hws1]
      obtain ⟨ihl, ihq, ihc⟩ := ih ws r hr hnd3
      refine ⟨ihl, ihq, fun i hi => ?_⟩
      rw [ihc i hi]
      have hne : ¬ (kv.1 = header.getD i []) := by
        intro he
        rw [he] at hidx
        rw [headerIdx_getD hnd hi] at hidx
        exact Option.noConfusion hidx
      rw [List.find?_cons_of_neg _ (by simpa using hne)]
    | some idx =>
      obtain ⟨hidxlt, hidxname⟩ := headerIdx_some_spec hidx
      by_cases hw : writableInto ow (getCell (ws.getD r []) idx) kv.2 = true
      · have hws1 : mergeFields ws header r [kv] ow =
            ws.set r (setCell (ws.getD r []) idx kv.2) := by
          unfold writableInto at hw
          simp only [decide_eq_true_eq] at hw
          obtain ⟨hw1, hw2, hw3⟩ := hw
          simp only [mergeFields, List.foldl_cons, List.foldl_nil, hidx]
          rw [if_neg hw1, if_neg (by simpa using hw2)]
          rw [List.getD_eq_getElem?_getD] at hw3
          rcases hw3 with hw3 | hw3
          · rw [if_neg (by simp [hw3])]
          · rw [if_neg (by simp [hw3])]
        rw [hws1]
        have hlen1 : (ws.set r (setCell (ws.getD r []) idx kv.2)).length = ws.length := by
          simp
        obtain ⟨ihl, ihq, ihc⟩ := ih _ r (by rw [hlen1]; exact hr) hnd3
        refine ⟨by rw [ihl, hlen1], ?_, ?_⟩
        · intro q hq
          rw [ihq q hq, getD_set_ne (fun he => hq he.symm)]
        · intro i hi
          rw [ihc i hi]
          by_cases hii : i = idx
          · subst hii
            have hname : kv.1 = header.getD i [] := hidxname.symm
            rw [List.find?_cons_of_pos _ (by simpa using hname)]
            have hfind : rest.find? (fun kv2 => kv2.1 = header.getD i []) = none := by
              rw [List.find?_eq_none]
              intro x hx
              simp only [decide_eq_true_eq]
              intro hxe
              exact hkv (by rw [← hname] at hxe; exact hxe ▸ List.mem_map_of_mem Prod.fst hx)
            rw [hfind, getD_set_self hr, getCell_setCell_self]
            dsimp only
            rw [if_pos hw]
          · have hne : ¬ (kv.1 = header.getD i []) := by
              intro he
              rw [he] at hidx
              rw [headerIdx_getD hnd hi] at hidx
              exact hii (Option.some.inj hidx)
            rw [List.find?_cons_of_neg _ (by simpa using hne)]
            rw [getD_set_self hr, getCell_setCell_ne _ (fun he => hii he.symm)]
      · have hws1 : mergeFields ws header r [kv] ow = ws := by
          unfold writableInto at hw
          simp only [decide_eq_true_eq, not_and, not_or] at hw
          simp only [mergeFields, List.foldl_cons, List.foldl_nil, hidx]
          by_cases h1 : kv.2 = .vNone
          · rw [if_pos h1]
          · rw [if_neg h1]
            by_cases h2 : isBlankStr kv.2 = true
            · rw [if_pos h2]
            · rw [if_neg h2]
              have h3 := hw h1 (by simpa using h2)
              rw [if_pos h3]
        rw [hws1]
        obtain ⟨ihl, ihq, ihc⟩ := ih ws r hr hnd3
        refine ⟨ihl, ihq, fun i hi => ?_⟩
        rw [ihc i hi]
        by_cases hii : i = idx
        · subst hii
          have hname : kv.1 = header.getD i [] := hidxname.symm
          rw [List.find?_cons_of_pos _ (by simpa using hname)]
          have hfind : rest.find? (fun kv2 => kv2.1 = header.getD i []) = none := by
            rw [List.find?_eq_none]
            intro x hx
            simp only [decide_eq_true_eq]
            intro hxe
            exact hkv (by rw [← hname] at hxe; exact hxe ▸ List.mem_map_of_mem Prod.fst hx)
          rw [hfind]
          dsimp only
          rw [if_neg hw]
        · have hne : ¬ (kv.1 = header.getD i []) := by
            intro he
            rw [he] at hidx
            rw [headerIdx_getD hnd hi] at hidx
            exact hii (Option.some.inj hidx)
          rw [List.find?_cons_of_neg _ (by simpa using hne)]

theorem findRowAux_some_spec {keyIdx : Nat} {keyVal : List Char} {base : Nat}
    {rows : List Row} {ridx : Nat}
    (h : findRowAux keyIdx keyVal base rows = some ridx) :
    base ≤ ridx ∧ ridx - base < rows.length ∧
    rowMatches (rows.getD (ridx - base) []) keyIdx keyVal = true ∧
    (∀ q, q < ridx - base → rowMatches (rows.getD q []) keyIdx keyVal = false) := by
  induction rows generalizing base with
  | nil => simp [findRowAux] at h
  | cons r rest ih =>
    rw [findRowAux] at h
    by_cases hm : rowMatches r keyIdx keyVal = true
    · rw [if_pos hm] at h
      have hb : base = ridx := by simpa using h
      subst hb
      refine ⟨le_refl _, by simp only [Nat.sub_self, List.length_cons]; omega, ?_, ?_⟩
      · rw [Nat.sub_self]
        simpa using hm
      · intro q hq
        omega
    · rw [if_neg hm] at h
      obtain ⟨h1, h2, h3, h4⟩ := ih h
      have hd : ridx - base = (ridx - (base + 1)) + 1 := by omega
      refine ⟨by omega, by simp only [List.length_cons]; omega, ?_, ?_⟩
      · rw [hd]
        simpa using h3
      · intro q hq
        cases q with
        | zero => simpa using (Bool.not_eq_true _).mp hm
        | succ q2 =>
          have := h4 q2 (by omega)
          simpa using this

theorem findRowAux_none_spec {keyIdx : Nat} {keyVal : List Char} {base : Nat}
    {rows : List Row}
    (h : findRowAux keyIdx keyVal base rows = none) :
    ∀ q, q < rows.length → rowMatches (rows.getD q []) keyIdx keyVal = false := by
  induction rows generalizing base with
  | nil => intro q hq; simp at hq
  | cons r rest ih =>
    rw [findRowAux] at h
    by_cases hm : rowMatches r keyIdx keyVal = true
    · rw [if_pos hm] at h
      exact absurd h (by simp)
    · rw [if_neg hm] at h
      intro q hq
      cases q with
      | zero => simpa using (Bool.not_eq_true _).mp hm
      | succ q2 =>
        have := ih h q2 (by simpa using hq)
        simpa using this

theorem findRowAux_intro {keyIdx : Nat} {keyVal : List Char} {base : Nat}
    {rows : List Row} {p : Nat}
    (hlt : p < rows.length)
    (hm : rowMatches (rows.getD p []) keyIdx keyVal = true)
    (hprev : ∀ q, q < p → rowMatches (rows.getD q []) keyIdx keyVal = false) :
    findRowAux keyIdx keyVal base rows = some (base + p) := by
  induction rows generalizing base p with
  | nil => simp at hlt
  | cons r rest ih =>
    rw [findRowAux]
    cases p with
    | zero =>
      rw [if_pos (by simpa using hm)]
      simp
    | succ p2 =>
      have h0 := hprev 0 (by omega)
      rw [if_neg (by simpa using h0)]
      have := @ih (base + 1) p2 (by simpa using hlt) (by simpa using hm)
        (fun q hq => by simpa using hprev (q + 1) (by omega))
      rw [this]
      congr 1
      omega

theorem find_row_by_key_some_spec {ws : List Row} {keyIdx : Nat} {keyVal : List Char}
    {ridx : Nat} (h : find_row_by_key ws keyIdx keyVal = some ridx) :
    ridx < ws.length ∧ rowMatches (ws.getD ridx []) keyIdx keyVal = true ∧
    (∀ q, q < ridx → rowMatches (ws.getD q []) keyIdx keyVal = false) := by
  obtain ⟨h1, h2, h3, h4⟩ := findRowAux_some_spec h
  rw [Nat.sub_zero] at h2 h3
  exact ⟨h2, h3, fun q hq => h4 q (by omega)⟩

theorem find_row_by_key_none_spec {ws : List Row} {keyIdx : Nat} {keyVal : List Char}
    (h : find_row_by_key ws keyIdx keyVal = none) :
    ∀ q, q < ws.length → rowMatches (ws.getD q []) keyIdx keyVal = false :=
  findRowAux_none_spec h

theorem find_row_by_key_intro {ws : List Row} {keyIdx : Nat} {keyVal : List Char}
    {p : Nat} (hlt : p < ws.length)
    (hm : rowMatches (ws.getD p []) keyIdx keyVal = true)
    (hprev : ∀ q, q < p → rowMatches (ws.getD q []) keyIdx keyVal = false) :
    find_row_by_key ws keyIdx keyVal = some p := by
  have := @findRowAux_intro _ _ 0 _ _ hlt hm hprev
  simpa using this

theorem find_row_by_key_lt {ws : List Row} {keyIdx : Nat} {keyVal : List Char} {ridx : Nat}
    (h : find_row_by_key ws keyIdx keyVal = some ridx) : ridx < ws.length :=
  (find_row_by_key_some_spec h).1

theorem find?_assoc_of_mem_nodup {row : AssocRow} (hnd : (row.map Prod.fst).Nodup)
    {k : List Char} {v : PyVal} (hm : (k, v) ∈ row) :
    row.find? (fun kv => kv.1 = k) = some (k, v) := by
  induction row with
  | nil => simp at hm
  | cons kv rest ih =>
    rw [List.map_cons, List.nodup_cons] at hnd
    rcases List.mem_cons.mp hm with h | h
    · subst h
      exact List.find?_cons_of_pos _ (by simp)
    · have hne : ¬ (kv.1 = k) := by
        intro he
        exact hnd.1 (he ▸ (List.mem_map_of_mem Prod.fst h : (k, v).1 ∈ _))
      rw [List.find?_cons_of_neg _ (by simpa using hne)]
      exact ih hnd.2 h

theorem find?_assoc_of_not_mem {row : AssocRow} {k : List Char}
    (hm : ∀ v, (k, v) ∉ row) :
    row.find? (fun kv => kv.1 = k) = none := by
  rw [List.find?_eq_none]
  intro kv hkv
  simp only [decide_eq_true_eq]
  intro he
  exact hm kv.2 (by rw [← he]; exact hkv)

/-- C2: upserting a key that already has a record merges field-by-field:
a present field's cell can change only when overwrite is on or the existing
value is empty; an empty (None or blank-string) incoming value never changes
the cell, regardless of overwrite; fields absent from the payload keep their
values, and all other rows are untouched. -/
theorem upsert_seen_key_spec
    (ws : List Row) (header : List (List Char)) (keyCol keyVal : List Char)
    (row : AssocRow) (ow : Bool) (keyIdx ridx : Nat) (ws2 : List Row)
    (hnd : header.Nodup) (hrownd : (row.map Prod.fst).Nodup)
    (hki : headerIdx header keyCol = some keyIdx)
    (hfound : find_row_by_key ws keyIdx keyVal = some ridx)
    (hup : upsert_row ws header keyCol keyVal row ow = some ws2) :
    ws2.length = ws.length ∧
    (∀ q, q ≠ ridx → ws2.getD q [] = ws.getD q []) ∧
    (∀ i, i < header.length →
      ((∀ v, (header.getD i [], v) ∉ row) →
        getCell (ws2.getD ridx []) i = getCell (ws.getD ridx []) i) ∧
      (∀ v, (header.getD i [], v) ∈ row →
        (getCell (ws2.getD ridx []) i ≠ getCell (ws.getD ridx []) i →
          (ow = true ∨ cellEmpty (getCell (ws.getD ridx []) i) = true)) ∧
        ((v = .vNone ∨ isBlankStr v = true) →
          getCell (ws2.getD ridx []) i = getCell (ws.getD ridx []) i) ∧
        getCell (ws2.getD ridx []) i =
          (if writableInto ow (getCell (ws.getD ridx []) i) v then v
           else getCell (ws.getD ridx []) i))) := by
  have hridx := find_row_by_key_lt hfound
  have hws2 : ws2 = mergeFields ws header ridx row ow := by
    simp only [upsert_row, hki, hfound] at hup
    exact (Option.some.inj hup).symm
  subst hws2
  obtain ⟨hl, hq, hc⟩ := mergeFields_spec header hnd row ow ws ridx hridx hrownd
  refine ⟨hl, hq, fun i hi => ?_⟩
  have hci := hc i hi
  constructor
  · intro habs
    rw [hci, find?_assoc_of_not_mem habs]
  · intro v hv
    have heq : getCell ((mergeFields ws header ridx row ow).getD ridx []) i =
        (if writableInto ow (getCell (ws.getD ridx []) i) v = true then v
         else getCell (ws.getD ridx []) i) := by
      rw [hci, find?_assoc_of_mem_nodup hrownd hv]
    refine ⟨?_, ?_, heq⟩
    · intro hchg
      by_cases hwv : writableInto ow (getCell (ws.getD ridx []) i) v = true
      · unfold writableInto at hwv
        simp only [decide_eq_true_eq] at hwv
        exact hwv.2.2
      · rw [heq, if_neg hwv] at hchg
        exact absurd rfl hchg
    · intro hemp
      have hwv : ¬ writableInto ow (getCell (ws.getD ridx []) i) v = true := by
        unfold writableInto
        simp only [decide_eq_true_eq, not_and, not_or]
        intro hn hb
        rcases hemp with he | he
        · exact absurd he hn
        · exact absurd he (by simpa using hb)
      rw [heq, if_neg hwv]

/-- Witness for C2 at a concrete sheet: one existing record keyed `k`, a
non-overwriting upsert of field `f`. -/
theorem upsert_seen_key_spec_witness :
    ([[PyVal.vStr "k".toList, PyVal.vStr "Y".toList]] : List Row).length =
      ([[PyVal.vStr "k".toList, PyVal.vStr "X".toList]] : List Row).length ∧
    (∀ q, q ≠ 0 →
      ([[PyVal.vStr "k".toList, PyVal.vStr "Y".toList]] : List Row).getD q [] =
        ([[PyVal.vStr "k".toList, PyVal.vStr "X".toList]] : List Row).getD q []) ∧
    (∀ i, i < (["url".toList, "f".toList] : List (List Char)).length →
      ((∀ v, ((["url".toList, "f".toList] : List (List Char)).getD i [], v) ∉
          ([("f".toList, PyVal.vStr "Y".toList)] : AssocRow)) →
        getCell (([[PyVal.vStr "k".toList, PyVal.vStr "Y".toList]] : List Row).getD 0 []) i =
          getCell (([[PyVal.vStr "k".toList, PyVal.vStr "X".toList]] : List Row).getD 0 []) i) ∧
      (∀ v, ((["url".toList, "f".toList] : List (List Char)).getD i [], v) ∈
          ([("f".toList, PyVal.vStr "Y".toList)] : AssocRow) →
        (getCell (([[PyVal.vStr "k".toList, PyVal.vStr "Y".toList]] : List Row).getD 0 []) i ≠
            getCell (([[PyVal.vStr "k".toList, PyVal.vStr "X".toList]] : List Row).getD 0 []) i →
          (true = true ∨
            cellEmpty (getCell (([[PyVal.vStr "k".toList, PyVal.vStr "X".toList]] : List Row).getD 0 []) i) = true)) ∧
        ((v = .vNone ∨ isBlankStr v = true) →
          getCell (([[PyVal.vStr "k".toList, PyVal.vStr "Y".toList]] : List Row).getD 0 []) i =
            getCell (([[PyVal.vStr "k".toList, PyVal.vStr "X".toList]] : List Row).getD 0 []) i) ∧
        getCell (([[PyVal.vStr "k".toList, PyVal.vStr "Y".toList]] : List Row).getD 0 []) i =
          (if writableInto true
              (getCell (([[PyVal.vStr "k".toList, PyVal.vStr "X".toList]] : List Row).getD 0 []) i) v
           then v
           else getCell (([[PyVal.vStr "k".toList, PyVal.vStr "X".toList]] : List Row).getD 0 []) i))) :=
  upsert_seen_key_spec
    [[PyVal.vStr "k".toList, PyVal.vStr "X".toList]]
    ["url".toList, "f".toList] "url".toList "k".toList
    [("f".toList, PyVal.vStr "Y".toList)] true 0 0
    [[PyVal.vStr "k".toList, PyVal.vStr "Y".toList]]
    (by decide) (by decide) (by decide) (by decide) (by decide)

theorem set_getD_self {α : Type} (l : List α) (d : α) : ∀ i, l.set i (l.getD i d) = l := by
  induction l with
  | nil => intro i; rfl
  | cons x t ih =>
    intro i
    cases i with
    | zero => rfl
    | succ j =>
      show x :: t.set j (t.getD j d) = x :: t
      rw [ih j]

theorem setCell_same {r : Row} {i : Nat} {v : PyVal} (hv : ¬ v = .vNone)
    (h : getCell r i = v) : setCell r i v = r := by
  unfold setCell
  by_cases hi : i < r.length
  · rw [if_pos hi, ← h]
    exact set_getD_self r .vNone i
  · exfalso
    apply hv
    rw [← h]
    unfold getCell
    rw [List.getD_eq_getElem?_getD, List.getElem?_eq_none (by omega)]
    rfl

/-- Field-by-field characterization of `append_row_first_truly_empty`'s
write step: rows other than the target keep their value and each header
column of the target receives the (unique) matching payload value. -/
theorem writeFields_spec (header : List (List Char)) (hnd : header.Nodup)
    (row : AssocRow) :
    ∀ (ws : List Row) (r : Nat), r < ws.length → (row.map Prod.fst).Nodup →
    (writeFields ws header r row).length = ws.length ∧
    (∀ q, q ≠ r → (writeFields ws header r row).getD q [] = ws.getD q []) ∧
    (∀ i, i < header.length →
      getCell ((writeFields ws header r row).getD r []) i =
        (match row.find? (fun kv => kv.1 = header.getD i []) with
         | some kv => kv.2
         | none => getCell (ws.getD r []) i)) := by
  induction row with
  | nil =>
    intro ws r hr hnd2
    exact ⟨rfl, fun q hq => rfl, fun i hi => rfl⟩
  | cons kv rest ih =>
    intro ws r hr hnd2
    rw [List.map_cons, List.nodup_cons] at hnd2
    obtain ⟨hkv, hnd3⟩ := hnd2
    have hunfold : writeFields ws header r (kv :: rest) =
        writeFields (writeFields ws header r [kv]) header r rest := by
      simp [writeFields]
    rw [hunfold]
    cases hidx : headerIdx header kv.1 with
    | none =>
      have hws1 : writeFields ws header r [kv] = ws := by
        simp [writeFields, hidx]
      rw [hws1]
      obtain ⟨ihl, ihq, ihc⟩ := ih ws r hr hnd3
      refine ⟨ihl, ihq, fun i hi => ?_⟩
      rw [ihc i hi]
      have hne : ¬ (kv.1 = header.getD i []) := by
        intro he
        rw [he, headerIdx_getD hnd hi] at hidx
        exact Option.noConfusion hidx
      rw [List.find?_cons_of_neg _ (by simpa using hne)]
    | some idx =>
      obtain ⟨hidxlt, hidxname⟩ := headerIdx_some_spec hidx
      have hws1 : writeFields ws header r [kv] =
          ws.set r (setCell (ws.getD r []) idx kv.2) := by
        simp [writeFields, hidx]
      rw [hws1]
      have hlen1 : (ws.set r (setCell (ws.getD r []) idx kv.2)).length = ws.length := by
        simp
      obtain ⟨ihl, ihq, ihc⟩ := ih _ r (by rw [hlen1]; exact hr) hnd3
      refine ⟨by rw [ihl, hlen1], ?_, ?_⟩
      · intro q hq
        rw [ihq q hq, getD_set_ne (fun he => hq he.symm)]
      · intro i hi
        rw [ihc i hi]
        by_cases hii : i = idx
        · subst hii
          have hname : kv.1 = header.getD i [] := hidxname.symm
          rw [List.find?_cons_of_pos _ (by simpa using hname)]
          have hfind : rest.find? (fun kv2 => kv2.1 = header.getD i []) = none := by
            rw [List.find?_eq_none]
            intro x hx
            simp only [decide_eq_true_eq]
            intro hxe
            exact hkv (by rw [← hname] at hxe; exact hxe ▸ List.mem_map_of_mem Prod.fst hx)
          rw [hfind, getD_set_self hr, getCell_setCell_self]
        · have hne : ¬ (kv.1 = header.getD i []) := by
            intro he
            rw [he, headerIdx_getD hnd hi] at hidx
            exact hii (Option.some.inj hidx)
          rw [List.find?_cons_of_neg _ (by simpa using hne)]
          rw [getD_set_self hr, getCell_setCell_ne _ (fun he => hii he.symm)]

/-- When every payload step is a no-op (skipped, or rewriting the value the
cell already holds), the merge loop leaves the sheet exactly as it was. -/
theorem mergeFields_id (header : List (List Char)) (row : AssocRow) (ow : Bool) :
    ∀ (ws : List Row) (r : Nat),
    (∀ kv ∈ row, ∀ i, headerIdx header kv.1 = some i →
      kv.2 = .vNone ∨ isBlankStr kv.2 = true ∨
      (¬ow = true ∧ ¬ cellEmpty (getCell (ws.getD r []) i) = true) ∨
      getCell (ws.getD r []) i = kv.2) →
    mergeFields ws header r row ow = ws := by
  induction row with
  | nil => intro ws r hcond; rfl
  | cons kv rest ih =>
    intro ws r hcond
    have hstep : mergeFields ws header r [kv] ow = ws := by
      simp only [mergeFields, List.foldl_cons, List.foldl_nil]
      cases hidx : headerIdx header kv.1 with
      | none => rfl
      | some i =>
        dsimp only
        have hc := hcond kv (List.mem_cons_self _ _) i hidx
        by_cases h1 : kv.2 = .vNone
        · rw [if_pos h1]
        · rw [if_neg h1]
          by_cases h2 : isBlankStr kv.2 = true
          · rw [if_pos h2]
          · rw [if_neg h2]
            rcases hc with hc | hc | hc | hc
            · exact absurd hc h1
            · exact absurd hc h2
            · rw [if_pos hc]
            · by_cases h3 : ¬ow = true ∧ ¬ cellEmpty (getCell (ws.getD r []) i) = true
              · rw [if_pos h3]
              · rw [if_neg h3]
                rw [setCell_same h1 hc, set_getD_self]
    have hunfold : mergeFields ws header r (kv :: rest) ow =
        mergeFields (mergeFields ws header r [kv] ow) header r rest ow := by
      simp [mergeFields]
    rw [hunfold, hstep]
    exact ih ws r (fun kv2 hm i hidx => hcond kv2 (List.mem_cons_of_mem _ hm) i hidx)

theorem subst_map_find_self {row : AssocRow} {k : List Char} (v : PyVal)
    (hany : ∃ kv ∈ row, kv.1 = k) :
    (row.map (fun kv => if kv.1 = k then (k, v) else kv)).find?
      (fun kv => kv.1 = k) = some (k, v) := by
  induction row with
  | nil =>
    obtain ⟨x, hx, _⟩ := hany
    simp at hx
  | cons kv rest ih =>
    rw [List.map_cons]
    by_cases hk : kv.1 = k
    · rw [if_pos hk]
      exact List.find?_cons_of_pos _ (by simp)
    · rw [if_neg hk]
      rw [List.find?_cons_of_neg _ (by simpa using hk)]
      apply ih
      rcases hany with ⟨x, hx, hxk⟩
      rcases List.mem_cons.mp hx with h | h
      · exact absurd (h ▸ hxk) hk
      · exact ⟨x, h, hxk⟩

theorem subst_map_find_other {row : AssocRow} {k : List Char} (v : PyVal)
    {f : List Char} (hf : ¬ f = k) :
    (row.map (fun kv => if kv.1 = k then (k, v) else kv)).find?
      (fun kv => kv.1 = f) = row.find? (fun kv => kv.1 = f) := by
  induction row with
  | nil => rfl
  | cons kv rest ih =>
    rw [List.map_cons]
    by_cases hk : kv.1 = k
    · rw [if_pos hk]
      rw [List.find?_cons_of_neg _ (by simp only [decide_eq_true_eq]; exact fun he => hf he.symm)]
      rw [List.find?_cons_of_neg _ (by simp only [decide_eq_true_eq]; rw [hk]; exact fun he => hf he.symm)]
      exact ih
    · rw [if_neg hk]
      by_cases hkf : kv.1 = f
      · rw [List.find?_cons_of_pos _ (by simpa using hkf),
          List.find?_cons_of_pos _ (by simpa using hkf)]
      · rw [List.find?_cons_of_neg _ (by simpa using hkf),
          List.find?_cons_of_neg _ (by simpa using hkf)]
        exact ih

theorem append_single_find_self {row : AssocRow} {k : List Char} (v : PyVal)
    (hnone : ∀ kv ∈ row, ¬ kv.1 = k) :
    (row ++ [(k, v)]).find? (fun kv => kv.1 = k) = some (k, v) := by
  induction row with
  | nil => exact List.find?_cons_of_pos _ (by simp)
  | cons kv rest ih =>
    rw [List.cons_append]
    rw [List.find?_cons_of_neg _ (by simpa using hnone kv (List.mem_cons_self _ _))]
    exact ih (fun kv2 hm => hnone kv2 (List.mem_cons_of_mem _ hm))

theorem append_single_find_other {row : AssocRow} {k : List Char} (v : PyVal)
    {f : List Char} (hf : ¬ f = k) :
    (row ++ [(k, v)]).find? (fun kv => kv.1 = f) = row.find? (fun kv => kv.1 = f) := by
  induction row with
  | nil =>
    rw [List.nil_append]
    rw [List.find?_cons_of_neg _ (by simp only [decide_eq_true_eq]; exact fun he => hf he.symm)]
  | cons kv rest ih =>
    rw [List.cons_append]
    by_cases hkf : kv.1 = f
    · rw [List.find?_cons_of_pos _ (by simpa using hkf),
        List.find?_cons_of_pos _ (by simpa using hkf)]
    · rw [List.find?_cons_of_neg _ (by simpa using hkf),
        List.find?_cons_of_neg _ (by simpa using hkf)]
      exact ih

theorem setAssoc_find_self (row : AssocRow) (k : List Char) (v : PyVal) :
    (setAssoc row k v).find? (fun kv => kv.1 = k) = some (k, v) := by
  unfold setAssoc
  by_cases hany : row.any (fun kv => kv.1 = k) = true
  · rw [if_pos hany]
    apply subst_map_find_self
    rcases List.any_eq_true.mp hany with ⟨x, hx, hxk⟩
    exact ⟨x, hx, of_decide_eq_true hxk⟩
  · rw [if_neg hany]
    apply append_single_find_self
    intro kv hm he
    exact hany (List.any_eq_true.mpr ⟨kv, hm, decide_eq_true he⟩)

theorem setAssoc_find_other (row : AssocRow) (k : List Char) (v : PyVal)
    {f : List Char} (hf : ¬ f = k) :
    (setAssoc row k v).find? (fun kv => kv.1 = f) = row.find? (fun kv => kv.1 = f) := by
  unfold setAssoc
  by_cases hany : row.any (fun kv => kv.1 = k) = true
  · rw [if_pos hany]
    exact subst_map_find_other v hf
  · rw [if_neg hany]
    exact append_single_find_other v hf

theorem setAssoc_keys_nodup {row : AssocRow} (hnd : (row.map Prod.fst).Nodup)
    (k : List Char) (v : PyVal) : ((setAssoc row k v).map Prod.fst).Nodup := by
  unfold setAssoc
  by_cases hany : row.any (fun kv => kv.1 = k) = true
  · rw [if_pos hany]
    have hmap : (row.map (fun kv => if kv.1 = k then (k, v) else kv)).map Prod.fst =
        row.map Prod.fst := by
      rw [List.map_map]
      apply List.map_congr_left
      intro kv hm
      by_cases hk : kv.1 = k
      · simp [hk]
      · simp [hk]
    rw [hmap]
    exact hnd
  · rw [if_neg hany]
    rw [List.map_append, List.nodup_append]
    refine ⟨hnd, by simp, ?_⟩
    intro a ha
    simp only [List.map_cons, List.map_nil, List.mem_singleton]
    intro hak
    subst hak
    rcases List.mem_map.mp ha with ⟨kv, hkv, hk1⟩
    exact hany (List.any_eq_true.mpr ⟨kv, hkv, decide_eq_true hk1⟩)

theorem rowMatches_congr {r r2 : Row} {ki : Nat} {kv : List Char}
    (h : getCell r2 ki = getCell r ki) : rowMatches r2 ki kv = rowMatches r ki kv := by
  unfold rowMatches
  rw [h]

theorem rowMatches_of_cell {r : Row} {ki : Nat} {keyVal : List Char}
    (h : getCell r ki = .vStr keyVal) (ht : pyStrip keyVal = keyVal) :
    rowMatches r ki keyVal = true := by
  unfold rowMatches
  rw [h]
  exact decide_eq_true ht

theorem getD_append_left {ws : List Row} {q : Nat} (h : q < ws.length) (x : Row) :
    (ws ++ [x]).getD q [] = ws.getD q [] := by
  rw [List.getD_eq_getElem?_getD, List.getD_eq_getElem?_getD,
    List.getElem?_append_left h]

/-- C5 counterexample: with the untrimmed key `" x"`, `find_row_by_key`
compares `str(cell).strip()` — which never has leading whitespace — against
`" x"`, so it can never see the appended record; the same upsert applied
twice appends two rows where once appends one. -/
theorem upsert_idempotent_counterexample :
    (upsert_row [] ["url".toList, "f".toList] "url".toList " x".toList
        [("f".toList, PyVal.vStr "Y".toList)] false).bind
      (fun ws2 => upsert_row ws2 ["url".toList, "f".toList] "url".toList " x".toList
        [("f".toList, PyVal.vStr "Y".toList)] false) ≠
    upsert_row [] ["url".toList, "f".toList] "url".toList " x".toList
      [("f".toList, PyVal.vStr "Y".toList)] false := by
  decide

/-- C5 (amended): applying the same upsert twice yields the same sheet as
applying it once, for every sheet, payload and overwrite flag, provided the
key value is whitespace-trimmed and any key-column entry of the payload is
either exactly the key value or empty.  (The counterexample above shows the
trimming proviso is needed; a payload that rewrites the key column to a
string merely *stripping* to the key value similarly breaks idempotence.) -/
theorem upsert_idempotent_amended
    (ws : List Row) (header : List (List Char)) (keyCol keyVal : List Char)
    (row : AssocRow) (ow : Bool)
    (hnd : header.Nodup) (hrownd : (row.map Prod.fst).Nodup)
    (htrim : pyStrip keyVal = keyVal)
    (hkey : ∀ v, (keyCol, v) ∈ row → v = .vStr keyVal ∨ v = .vNone ∨ isBlankStr v = true) :
    (upsert_row ws header keyCol keyVal row ow).bind
      (fun ws2 => upsert_row ws2 header keyCol keyVal row ow) =
    upsert_row ws header keyCol keyVal row ow := by
  cases hki : headerIdx header keyCol with
  | none => simp [upsert_row, hki]
  | some keyIdx =>
    obtain ⟨hkilt, hkiname⟩ := headerIdx_some_spec hki
    cases hfound : find_row_by_key ws keyIdx keyVal with
    | some ridx =>
      obtain ⟨hridx, hmatch, hprev⟩ := find_row_by_key_some_spec hfound
      have h1 : upsert_row ws header keyCol keyVal row ow =
          some (mergeFields ws header ridx row ow) := by
        simp only [upsert_row, hki, hfound]
      obtain ⟨hl, hq, hc⟩ := mergeFields_spec header hnd row ow ws ridx hridx hrownd
      have hcell : ∀ i, i < header.length → ∀ v, (header.getD i [], v) ∈ row →
          getCell ((mergeFields ws header ridx row ow).getD ridx []) i =
            (if writableInto ow (getCell (ws.getD ridx []) i) v = true then v
             else getCell (ws.getD ridx []) i) := by
        intro i hi v hv
        rw [hc i hi, find?_assoc_of_mem_nodup hrownd hv]
      have hm2 : rowMatches ((mergeFields ws header ridx row ow).getD ridx []) keyIdx
          keyVal = true := by
        cases hfk : row.find? (fun kv => kv.1 = keyCol) with
        | none =>
          have hnomem : ∀ v, (keyCol, v) ∉ row := by
            intro v hv
            have := find?_assoc_of_mem_nodup hrownd hv
            rw [this] at hfk
            exact Option.noConfusion hfk
          have hun : getCell ((mergeFields ws header ridx row ow).getD ridx []) keyIdx =
              getCell (ws.getD ridx []) keyIdx := by
            rw [hc keyIdx hkilt, hkiname, hfk]
          rw [rowMatches_congr hun]
          exact hmatch
        | some kv =>
          have hkvmem := List.mem_of_find?_eq_some hfk
          have hkvkey : kv.1 = keyCol := by
            have := List.find?_some hfk
            simpa using this
          have hkvmem2 : (keyCol, kv.2) ∈ row := by
            rw [← hkvkey]
            exact hkvmem
          have hcel := hcell keyIdx hkilt kv.2 (by rw [hkiname]; exact hkvmem2)
          by_cases hwv : writableInto ow (getCell (ws.getD ridx []) keyIdx) kv.2 = true
          · rw [if_pos hwv] at hcel
            rcases hkey kv.2 hkvmem2 with hv | hv | hv
            · exact rowMatches_of_cell (by rw [hcel, hv]) htrim
            · exfalso
              unfold writableInto at hwv
              simp only [decide_eq_true_eq] at hwv
              exact hwv.1 hv
            · exfalso
              unfold writableInto at hwv
              simp only [decide_eq_true_eq] at hwv
              exact hwv.2.1 (by simpa using hv)
          · rw [if_neg hwv] at hcel
            rw [rowMatches_congr hcel]
            exact hmatch
      have hfind2 : find_row_by_key (mergeFields ws header ridx row ow) keyIdx keyVal =
          some ridx := by
        apply find_row_by_key_intro (by rw [hl]; exact hridx) hm2
        intro q hq2
        rw [rowMatches_congr (by rw [hq q (by omega)])]
        exact hprev q hq2
      have hid : mergeFields (mergeFields ws header ridx row ow) header ridx row ow =
          mergeFields ws header ridx row ow := by
        apply mergeFields_id
        intro kv hkvm i hkvidx
        obtain ⟨hilt, hiname⟩ := headerIdx_some_spec hkvidx
        have hkvmem2 : (header.getD i [], kv.2) ∈ row := by
          rw [hiname]
          exact hkvm
        have hcel := hcell i hilt kv.2 hkvmem2
        by_cases hwv : writableInto ow (getCell (ws.getD ridx []) i) kv.2 = true
        · rw [if_pos hwv] at hcel
          exact Or.inr (Or.inr (Or.inr hcel))
        · rw [if_neg hwv] at hcel
          unfold writableInto at hwv
          simp only [decide_eq_true_eq, not_and, not_or] at hwv
          by_cases h1v : kv.2 = .vNone
          · exact Or.inl h1v
          · by_cases h2v : isBlankStr kv.2 = true
            · exact Or.inr (Or.inl h2v)
            · have h3v := hwv h1v (by simpa using h2v)
              refine Or.inr (Or.inr (Or.inl ⟨by simpa using h3v.1, ?_⟩))
              rw [hcel]
              simpa using h3v.2
      rw [h1]
      rw [Option.some_bind]
      simp only [upsert_row, hki, hfind2, hid]
    | none =>
      have hnone := find_row_by_key_none_spec hfound
      have h1 : upsert_row ws header keyCol keyVal row ow =
          some (append_row_first_truly_empty ws header
            (setAssoc row keyCol (.vStr keyVal))).1 := by
        simp only [upsert_row, hki, hfound]
      have hrow2nd := setAssoc_keys_nodup hrownd keyCol (.vStr keyVal)
      -- Uniform treatment of the reuse and append targets.
      have main : ∀ (base : List Row) (p : Nat), p < base.length →
          (∀ q, q < base.length → q ≠ p → rowMatches (base.getD q []) keyIdx keyVal = false) →
          (upsert_row (writeFields base header p (setAssoc row keyCol (.vStr keyVal)))
              header keyCol keyVal row ow) =
            some (writeFields base header p (setAssoc row keyCol (.vStr keyVal))) := by
        intro base p hp hothers
        obtain ⟨hwl, hwq, hwc⟩ := writeFields_spec header hnd _ base p hp hrow2nd
        have hkcell : getCell ((writeFields base header p
            (setAssoc row keyCol (.vStr keyVal))).getD p []) keyIdx = .vStr keyVal := by
          rw [hwc keyIdx hkilt, hkiname, setAssoc_find_self]
        have hm2 : rowMatches ((writeFields base header p
            (setAssoc row keyCol (.vStr keyVal))).getD p []) keyIdx keyVal = true :=
          rowMatches_of_cell hkcell htrim
        have hfind2 : find_row_by_key (writeFields base header p
            (setAssoc row keyCol (.vStr keyVal))) keyIdx keyVal = some p := by
          apply find_row_by_key_intro (by rw [hwl]; exact hp) hm2
          intro q hq2
          rw [rowMatches_congr (by rw [hwq q (by omega)])]
          exact hothers q (by omega) (by omega)
        have hid : mergeFields (writeFields base header p
            (setAssoc row keyCol (.vStr keyVal))) header p row ow =
            writeFields base header p (setAssoc row keyCol (.vStr keyVal)) := by
          apply mergeFields_id
          intro kv hkvm i hkvidx
          obtain ⟨hilt, hiname⟩ := headerIdx_some_spec hkvidx
          by_cases hkc : kv.1 = keyCol
          · have hcel : getCell ((writeFields base header p
                (setAssoc row keyCol (.vStr keyVal))).getD p []) i = .vStr keyVal := by
              rw [hwc i hilt, hiname, hkc, setAssoc_find_self]
            rcases hkey kv.2 (by rw [← hkc]; exact hkvm) with hv | hv | hv
            · exact Or.inr (Or.inr (Or.inr (by rw [hcel, hv])))
            · exact Or.inl hv
            · exact Or.inr (Or.inl hv)
          · have hcel : getCell ((writeFields base header p
                (setAssoc row keyCol (.vStr keyVal))).getD p []) i = kv.2 := by
              rw [hwc i hilt, hiname, setAssoc_find_other row keyCol _ hkc,
                find?_assoc_of_mem_nodup hrownd hkvm]
            exact Or.inr (Or.inr (Or.inr hcel))
        simp only [upsert_row, hki, hfind2, hid]
      rw [h1]
      rw [Option.some_bind]
      unfold append_row_first_truly_empty
      cases happ : (List.range ws.length).find?
          (fun r => rowTrulyEmpty header (ws.getD r [])) with
      | some p =>
        have hp : p < ws.length := by
          have := List.mem_of_find?_eq_some happ
          simpa using this
        exact main ws p hp (fun q hq hqp => hnone q hq)
      | none =>
        refine main (ws ++ [[]]) ws.length (by simp) ?_
        intro q hq hqp
        have hq2 : q < ws.length := by
          simp only [List.length_append, List.length_cons, List.length_nil] at hq
          omega
        rw [getD_append_left hq2]
        exact hnone q hq2

/-- Witness for C5 (amended) at a concrete store: upserting `f := Y` under
trimmed key `k` twice equals doing it once. -/
theorem upsert_idempotent_amended_witness :
    (upsert_row [] ["url".toList, "f".toList] "url".toList "k".toList
        [("f".toList, PyVal.vStr "Y".toList)] false).bind
      (fun ws2 => upsert_row ws2 ["url".toList, "f".toList] "url".toList "k".toList
        [("f".toList, PyVal.vStr "Y".toList)] false) =
    upsert_row [] ["url".toList, "f".toList] "url".toList "k".toList
      [("f".toList, PyVal.vStr "Y".toList)] false :=
  upsert_idempotent_amended [] ["url".toList, "f".toList] "url".toList "k".toList
    [("f".toList, PyVal.vStr "Y".toList)] false
    (by decide) (by decide) (by decide)
    (by
      intro v hv
      have h : "url".toList = "f".toList := congrArg Prod.fst (List.mem_singleton.mp hv)
      exact absurd h (by decide))

theorem orderedInsert_filter_self (key : RawRow → Int) (a : RawRow) (l : List RawRow) :
    (List.orderedInsert (fun x y => key x ≤ key y) a l).filter
        (fun r => key r = key a) =
      a :: l.filter (fun r => key r = key a) := by
  induction l with
  | nil => simp [List.orderedInsert]
  | cons b t ih =>
    rw [List.orderedInsert]
    by_cases hle : key a ≤ key b
    · rw [if_pos hle]
      rw [List.filter_cons, if_pos (by simp)]
    · rw [if_neg hle]
      have hbne : ¬ (key b = key a) := by omega
      rw [List.filter_cons, if_neg (by simpa using hbne)]
      rw [List.filter_cons, if_neg (by simpa using hbne)]
      exact ih

theorem orderedInsert_filter_ne (key : RawRow → Int) {a : RawRow} {k : Int}
    (hne : ¬ key a = k) (l : List RawRow) :
    (List.orderedInsert (fun x y => key x ≤ key y) a l).filter (fun r => key r = k) =
      l.filter (fun r => key r = k) := by
  induction l with
  | nil => simp [List.orderedInsert, hne]
  | cons b t ih =>
    rw [List.orderedInsert]
    by_cases hle : key a ≤ key b
    · rw [if_pos hle]
      rw [List.filter_cons, if_neg (by simpa using hne)]
    · rw [if_neg hle]
      rw [List.filter_cons, List.filter_cons]
      by_cases hb : key b = k
      · rw [if_pos (by simpa using hb), if_pos (by simpa using hb), ih]
      · rw [if_neg (by simpa using hb), if_neg (by simpa using hb), ih]

/-- Stability of the sort, in filter form: the rows holding any fixed
position key appear in the sorted output exactly in their input order. -/
theorem insertionSort_filter_key (key : RawRow → Int) (k : Int) :
    ∀ l : List RawRow,
      ((List.insertionSort (fun x y => key x ≤ key y) l).filter (fun r => key r = k)) =
        l.filter (fun r => key r = k) := by
  intro l
  induction l with
  | nil => rfl
  | cons x t ih =>
    rw [List.insertionSort]
    by_cases hx : key x = k
    · have h1 := orderedInsert_filter_self key x (List.insertionSort (fun x y => key x ≤ key y) t)
      rw [hx] at h1
      rw [h1, ih, List.filter_cons, if_pos (by simpa using hx)]
    · rw [orderedInsert_filter_ne key hx, ih, List.filter_cons, if_neg (by simpa using hx)]

theorem enumFrom_snd_mem {α : Type} {p : Nat × α} :
    ∀ {l : List α} {n : Nat}, p ∈ List.enumFrom n l → p.2 ∈ l := by
  intro l
  induction l with
  | nil => intro n h; simp [List.enumFrom] at h
  | cons x t ih =>
    intro n h
    rw [List.enumFrom] at h
    rcases List.mem_cons.mp h with h1 | h1
    · rw [h1]
      exact List.mem_cons_self _ _
    · exact List.mem_cons_of_mem _ (ih h1)

theorem renumberFrom_positions :
    ∀ (rows : List CleanRow) (n : Nat),
      ((List.enumFrom n rows).map
          (fun p => ({ p.2 with position := (toString (p.1 + 1)).toList } : CleanRow))).map
        (fun r => r.position) =
      (List.range' n rows.length).map (fun i => (toString (i + 1)).toList) := by
  intro rows
  induction rows with
  | nil => intro n; rfl
  | cons r t ih =>
    intro n
    rw [List.enumFrom]
    simp only [List.length_cons, List.range'_succ, List.map_cons]
    rw [ih (n + 1)]

theorem renumber_positions (rows : List CleanRow) :
    (renumber rows).map (fun r => r.position) =
      (List.range rows.length).map (fun i => (toString (i + 1)).toList) := by
  unfold renumber List.enum
  rw [renumberFrom_positions rows 0, List.range_eq_range']

theorem renumberFrom_keys :
    ∀ (rows : List CleanRow) (n : Nat),
      ((List.enumFrom n rows).map
          (fun p => ({ p.2 with position := (toString (p.1 + 1)).toList } : CleanRow))).map
        (fun r => r.url_key) =
      rows.map (fun r => r.url_key) := by
  intro rows
  induction rows with
  | nil => intro n; rfl
  | cons r t ih =>
    intro n
    rw [List.enumFrom]
    simp only [List.map_cons]
    rw [ih (n + 1)]

theorem renumber_keys (rows : List CleanRow) :
    (renumber rows).map (fun r => r.url_key) = rows.map (fun r => r.url_key) :=
  renumberFrom_keys rows 0

theorem renumber_length (rows : List CleanRow) :
    (renumber rows).length = rows.length := by
  unfold renumber
  rw [List.length_map, List.enum_length]

theorem renumber_mem {rows : List CleanRow} {r : CleanRow} (h : r ∈ renumber rows) :
    ∃ r0 ∈ rows, r.url = r0.url ∧ r.url_key = r0.url_key := by
  unfold renumber at h
  rcases List.mem_map.mp h with ⟨p, hp, hr⟩
  refine ⟨p.2, enumFrom_snd_mem hp, ?_, ?_⟩
  · rw [← hr]
  · rw [← hr]

/-- Full accounting for the keep/drop loop, with the running state
generalized. -/
theorem cleanLoop_spec (topN : Nat) :
    ∀ (rows : List RawRow) (seen : List (List Char)) (acc : List CleanRow) (dm0 dd0 : Nat)
      (kept : List CleanRow) (dm dd : Nat),
    cleanLoop topN rows seen acc dm0 dd0 = some (kept, dm, dd) →
    acc.length < topN →
    (∀ r ∈ acc, normalize_url_key (pyStrip r.url) = some r.url_key ∧
      r.url_key ≠ [] ∧ r.url_key ∈ seen) →
    (acc.map (fun r => r.url_key)).Nodup →
    ∃ consumed rest newk,
      rows = consumed ++ rest ∧
      kept = acc.reverse ++ newk ∧
      dm = dm0 + consumed.countP droppedMissing ∧
      dm0 + dd0 + consumed.length = dm + dd + newk.length ∧
      (rest ≠ [] → acc.length + newk.length = topN) ∧
      acc.length + newk.length ≤ topN ∧
      (∀ r ∈ newk, normalize_url_key (pyStrip r.url) = some r.url_key ∧ r.url_key ≠ []) ∧
      (kept.map (fun r => r.url_key)).Nodup := by
  intro rows
  induction rows with
  | nil =>
    intro seen acc dm0 dd0 kept dm dd hrun hlt hinv hnd
    rw [cleanLoop] at hrun
    have hinj := Option.some.inj hrun
    rw [Prod.mk.injEq, Prod.mk.injEq] at hinj
    obtain ⟨h1, h2, h3⟩ := hinj
    refine ⟨[], [], [], rfl, ?_, ?_, ?_, ?_, ?_, ?_, ?_⟩
    · rw [← h1]
      simp
    · rw [← h2]
      simp
    · rw [← h2, ← h3]
      simp
    · intro h
      exact absurd rfl h
    · simpa using hlt.le
    · intro r hr
      simp at hr
    · rw [← h1]
      simpa using hnd
  | cons rr rest0 ih =>
    intro seen acc dm0 dd0 kept dm dd hrun hlt hinv hnd
    rw [cleanLoop] at hrun
    by_cases hraw : pyStrip rr.url = []
    · rw [if_pos hraw] at hrun
      obtain ⟨consumed, rest, newk, hc1, hc2, hc3, hc4, hc5, hc6, hc7, hc8⟩ :=
        ih seen acc (dm0 + 1) dd0 kept dm dd hrun hlt hinv hnd
      have hdmt : droppedMissing rr = true := by
        unfold droppedMissing
        exact decide_eq_true (Or.inl hraw)
      refine ⟨rr :: consumed, rest, newk, by rw [hc1, List.cons_append], hc2, ?_, ?_, hc5, hc6, hc7, hc8⟩
      · rw [List.countP_cons_of_pos droppedMissing consumed hdmt, hc3]
        omega
      · simp only [List.length_cons]
        omega
    · rw [if_neg hraw] at hrun
      cases hnk : normalize_url_key (pyStrip rr.url) with
      | none =>
        rw [hnk] at hrun
        exact absurd hrun (by simp)
      | some k =>
        rw [hnk] at hrun
        dsimp only at hrun
        by_cases hke : k = []
        · rw [if_pos hke] at hrun
          obtain ⟨consumed, rest, newk, hc1, hc2, hc3, hc4, hc5, hc6, hc7, hc8⟩ :=
            ih seen acc (dm0 + 1) dd0 kept dm dd hrun hlt hinv hnd
          have hdmt : droppedMissing rr = true := by
            unfold droppedMissing
            refine decide_eq_true (Or.inr ?_)
            rw [hnk, hke]
          refine ⟨rr :: consumed, rest, newk, by rw [hc1, List.cons_append], hc2, ?_, ?_, hc5, hc6, hc7, hc8⟩
          · rw [List.countP_cons_of_pos droppedMissing consumed hdmt, hc3]
            omega
          · simp only [List.length_cons]
            omega
        · rw [if_neg hke] at hrun
          have hdmf : droppedMissing rr = false := by
            unfold droppedMissing
            apply decide_eq_false
            rw [not_or]
            refine ⟨hraw, ?_⟩
            rw [hnk]
            intro hcon
            exact hke (Option.some.inj hcon)
          by_cases hseen : seen.contains k = true
          · rw [if_pos hseen] at hrun
            obtain ⟨consumed, rest, newk, hc1, hc2, hc3, hc4, hc5, hc6, hc7, hc8⟩ :=
              ih seen acc dm0 (dd0 + 1) kept dm dd hrun hlt hinv hnd
            refine ⟨rr :: consumed, rest, newk, by rw [hc1, List.cons_append], hc2, ?_, ?_, hc5, hc6, hc7, hc8⟩
            · rw [List.countP_cons_of_neg droppedMissing consumed (by simp [hdmf]), hc3]
            · simp only [List.length_cons]
              omega
          · rw [if_neg hseen] at hrun
            by_cases hstop : topN ≤ (⟨rr.position, rr.url, k, rr.tag⟩ :: acc :
                List CleanRow).length
            · rw [if_pos hstop] at hrun
              have hinj := Option.some.inj hrun
              rw [Prod.mk.injEq, Prod.mk.injEq] at hinj
              obtain ⟨h1, h2, h3⟩ := hinj
              rw [← h1, ← h2, ← h3]
              simp only [List.length_cons] at hstop
              refine ⟨[rr], rest0, [⟨rr.position, rr.url, k, rr.tag⟩], rfl, ?_, ?_, ?_,
                ?_, ?_, ?_, ?_⟩
              · rw [List.reverse_cons]
              · rw [List.countP_cons_of_neg droppedMissing [] (by simp [hdmf]), List.countP_nil]
                omega
              · simp only [List.length_cons, List.length_nil]
              · intro
                simp only [List.length_cons, List.length_nil]
                omega
              · simp only [List.length_cons, List.length_nil]
                omega
              · intro r hr
                rw [List.mem_singleton.mp hr]
                exact ⟨hnk, hke⟩
              · rw [List.reverse_cons, List.map_append, List.map_reverse]
                rw [List.nodup_append]
                refine ⟨by simpa using hnd, by simp, ?_⟩
                intro a ha
                simp only [List.map_cons, List.map_nil, List.mem_singleton]
                intro hak
                have ha2 : ∃ r0 ∈ acc, r0.url_key = a := by simpa using ha
                obtain ⟨r0, hr0, hkey0⟩ := ha2
                have := (hinv r0 hr0).2.2
                rw [hkey0] at this
                subst hak
                exact hseen (List.elem_eq_true_of_mem this)
            · rw [if_neg hstop] at hrun
              simp only [List.length_cons, not_le] at hstop
              obtain ⟨consumed, rest, newk, hc1, hc2, hc3, hc4, hc5, hc6, hc7, hc8⟩ :=
                ih (k :: seen) (⟨rr.position, rr.url, k, rr.tag⟩ :: acc) dm0 dd0 kept dm dd
                  hrun (by simpa using hstop)
                  (by
                    intro r hr
                    rcases List.mem_cons.mp hr with h1 | h1
                    · rw [h1]
                      exact ⟨hnk, hke, List.mem_cons_self _ _⟩
                    · obtain ⟨ha, hb, hcx⟩ := hinv r h1
                      exact ⟨ha, hb, List.mem_cons_of_mem _ hcx⟩)
                  (by
                    rw [List.map_cons, List.nodup_cons]
                    refine ⟨?_, hnd⟩
                    intro hmem
                    rcases List.mem_map.mp hmem with ⟨r0, hr0, hkey0⟩
                    have := (hinv r0 hr0).2.2
                    rw [hkey0] at this
                    exact hseen (List.elem_eq_true_of_mem this))
              refine ⟨rr :: consumed, rest, ⟨rr.position, rr.url, k, rr.tag⟩ :: newk,
                by rw [hc1, List.cons_append], ?_, ?_, ?_, ?_, ?_, ?_, hc8⟩
              · rw [hc2, List.reverse_cons, List.append_assoc]
                rfl
              · rw [List.countP_cons_of_neg droppedMissing consumed (by simp [hdmf]), hc3]
              · simp only [List.length_cons]
                omega
              · intro hne
                have := hc5 hne
                simp only [List.length_cons] at this ⊢
                omega
              · simp only [List.length_cons] at hc6 ⊢
                omega
              · intro r hr
                rcases List.mem_cons.mp hr with h1 | h1
                · rw [h1]
                  exact ⟨hnk, hke⟩
                · exact ⟨(hc7 r h1).1, (hc7 r h1).2⟩

/-- C4 (amended). `clean_bing_export` on one `(run_id, query)` group: the rows
are stably sorted by position ascending (`pos_val`, non-numeric positions sort
last); at most `top_n` rows are kept; the survivors carry their non-empty
canonical key, keys are pairwise distinct, and positions are renumbered
`str(1)..str(M)`; but the two drop counters only account for a prefix
`consumed` of the sorted rows: once the `top_n`-th row is kept the loop
breaks, and the rows after the cutoff are dropped without ever being examined
or counted in `dropped_missing_url` / `dropped_duplicate_url`, contrary to the
claim that every empty-key or duplicate row of the group is counted. -/
theorem clean_bing_export_group_spec (rows : List RawRow) (topN : Nat)
    (kept : List CleanRow) (dm dd : Nat) (htop : 1 ≤ topN)
    (h : cleanGroup rows topN = some (kept, dm, dd)) :
    List.Sorted (fun a b => pos_val a ≤ pos_val b)
        (List.insertionSort (fun a b => pos_val a ≤ pos_val b) rows) ∧
    (∀ k : Int,
      (List.insertionSort (fun a b => pos_val a ≤ pos_val b) rows).filter
          (fun r => pos_val r = k) = rows.filter (fun r => pos_val r = k)) ∧
    kept.length ≤ topN ∧
    kept.map (fun r => r.position) =
      (List.range kept.length).map (fun i => (toString (i + 1)).toList) ∧
    (kept.map (fun r => r.url_key)).Nodup ∧
    (∀ r ∈ kept, normalize_url_key (pyStrip r.url) = some r.url_key ∧ r.url_key ≠ []) ∧
    ∃ consumed rest,
      List.insertionSort (fun a b => pos_val a ≤ pos_val b) rows = consumed ++ rest ∧
      dm = consumed.countP droppedMissing ∧
      consumed.length = dm + dd + kept.length ∧
      (rest ≠ [] → kept.length = topN) := by
  unfold cleanGroup at h
  dsimp only at h
  cases hloop : cleanLoop topN
      (List.insertionSort (fun a b => pos_val a ≤ pos_val b) rows) [] [] 0 0 with
  | none =>
    rw [hloop] at h
    exact absurd h (by simp)
  | some res =>
    rw [hloop] at h
    obtain ⟨k0, dm0, dd0⟩ := res
    rw [Option.map_some'] at h
    have hinj := Option.some.inj h
    dsimp only at hinj
    rw [Prod.mk.injEq, Prod.mk.injEq] at hinj
    obtain ⟨h1, h2, h3⟩ := hinj
    obtain ⟨consumed, rest, newk, hc1, hc2, hc3, hc4, hc5, hc6, hc7, hc8⟩ :=
      cleanLoop_spec topN _ [] [] 0 0 k0 dm0 dd0 hloop
        (by simpa using htop) (by intro r hr; simp at hr) (by simp)
    have hk0 : k0 = newk := by simpa using hc2
    have hlen : kept.length = newk.length := by
      rw [← h1, renumber_length, hk0]
    haveI : IsTotal RawRow (fun a b => pos_val a ≤ pos_val b) :=
      ⟨fun a b => le_total _ _⟩
    haveI : IsTrans RawRow (fun a b => pos_val a ≤ pos_val b) :=
      ⟨fun _ _ _ hab hbc => le_trans hab hbc⟩
    refine ⟨List.sorted_insertionSort _ _, ?_, ?_, ?_, ?_, ?_,
      consumed, rest, hc1, ?_, ?_, ?_⟩
    · intro k
      exact insertionSort_filter_key pos_val k rows
    · rw [hlen]
      simpa using hc6
    · rw [← h1, hk0, renumber_length, renumber_positions]
    · rw [← h1, hk0, renumber_keys]
      rw [hk0] at hc8
      exact hc8
    · intro r hr
      rw [← h1, hk0] at hr
      obtain ⟨r0, hr0, hu, hk⟩ := renumber_mem hr
      rw [hu, hk]
      exact hc7 r0 hr0
    · rw [← h2, hc3]
      omega
    · rw [← h2, ← h3, hlen]
      omega
    · intro hne
      have := hc5 hne
      simp only [List.length_nil, Nat.zero_add] at this
      omega

/-- C4 counterexample to the claim as written: with `top_n = 1`, the group
`[row with url http://a.com at position 1, row with blank url at position 2]`
keeps the first row and then breaks; the second row has a blank url (it
satisfies the missing-url drop test), yet `dropped_missing_url` stays `0`
because the loop never reaches it. -/
theorem clean_bing_export_count_counterexample :
    cleanGroup [⟨"1".toList, "http://a.com".toList, 0⟩, ⟨"2".toList, [], 1⟩] 1 =
      some ([⟨"1".toList, "http://a.com".toList, "a.com/".toList, 0⟩], 0, 0) ∧
    droppedMissing ⟨"2".toList, [], 1⟩ = true := by
  decide

/-- Witness for C4 at a concrete two-row group given out of position order. -/
theorem clean_bing_export_group_spec_witness :
    ((1 : Nat) ≤ 30 ∧
      cleanGroup
          [⟨"2".toList, "http://b.com".toList, 0⟩, ⟨"1".toList, "HTTP://a.com/".toList, 1⟩]
          30 =
        some ([⟨"1".toList, "HTTP://a.com/".toList, "a.com/".toList, 1⟩,
               ⟨"2".toList, "http://b.com".toList, "b.com/".toList, 0⟩], 0, 0)) ∧
    (([⟨"1".toList, "HTTP://a.com/".toList, "a.com/".toList, 1⟩,
       ⟨"2".toList, "http://b.com".toList, "b.com/".toList, 0⟩] : List CleanRow).map
        (fun r => r.url_key)).Nodup :=
  ⟨⟨by decide, by decide⟩,
    (clean_bing_export_group_spec
      [⟨"2".toList, "http://b.com".toList, 0⟩, ⟨"1".toList, "HTTP://a.com/".toList, 1⟩] 30
      [⟨"1".toList, "HTTP://a.com/".toList, "a.com/".toList, 1⟩,
       ⟨"2".toList, "http://b.com".toList, "b.com/".toList, 0⟩] 0 0
      (by decide) (by decide)).2.2.2.2.1⟩

/-- A list whose head fails the predicate is unchanged by `dropWhile`. -/
theorem dropWhile_eq_self_of_head_fail (p : Char → Bool) (l : List Char)
    (h : ∀ c, l.head? = some c → p c = false) : l.dropWhile p = l := by
  cases l with
  | nil => rfl
  | cons x xs => exact List.dropWhile_cons_of_neg (by simp [h x rfl])

/-- Python `str.strip()` is idempotent. -/
theorem pyStrip_idem (l : List Char) : pyStrip (pyStrip l) = pyStrip l := by
  have h1 : (pyStrip l).dropWhile isPySpace = pyStrip l := by
    apply dropWhile_eq_self_of_head_fail
    intro c hc
    unfold pyStrip at hc
    rw [List.head?_reverse] at hc
    have hne : (l.dropWhile isPySpace).reverse.dropWhile isPySpace ≠ [] := by
      intro h0
      rw [h0] at hc
      simp at hc
    have hsuf : (l.dropWhile isPySpace).reverse.dropWhile isPySpace <:+
        (l.dropWhile isPySpace).reverse := List.dropWhile_suffix isPySpace
    obtain ⟨pre, hp⟩ := hsuf
    have hlast : (l.dropWhile isPySpace).reverse.getLast? =
        ((l.dropWhile isPySpace).reverse.dropWhile isPySpace).getLast? := by
      nth_rewrite 1 [← hp]
      rw [List.getLast?_append, hc]
      rfl
    rw [List.getLast?_reverse] at hlast
    rw [hc] at hlast
    have h2 := List.head?_dropWhile_not isPySpace l
    rw [hlast] at h2
    exact h2
  show (((pyStrip l).dropWhile isPySpace).reverse.dropWhile isPySpace).reverse = pyStrip l
  rw [h1]
  have h3 : (pyStrip l).reverse.dropWhile isPySpace = (pyStrip l).reverse := by
    apply dropWhile_eq_self_of_head_fail
    intro c hc
    rw [List.head?_reverse] at hc
    unfold pyStrip at hc
    rw [List.getLast?_reverse] at hc
    have h2 := List.head?_dropWhile_not isPySpace (l.dropWhile isPySpace).reverse
    rw [hc] at h2
    exact h2
  rw [h3, List.reverse_reverse]

/-- `safe_str` is idempotent. -/
theorem safe_str_idem (l : List Char) : safe_str (safe_str l) = safe_str l := by
  unfold safe_str
  dsimp only
  by_cases h : lowerL (pyStrip l) = "nan".toList
  · rw [if_pos h]
    decide
  · rw [if_neg h]
    rw [pyStrip_idem, if_neg h]

/-- `safe_str` applied to an already `safe_str`-ed cell value is a no-op. -/
theorem safe_str_safeStrPy (v : PyVal) : safe_str (safeStrPy v) = safeStrPy v := by
  cases v with
  | vNone => decide
  | vStr s => exact safe_str_idem _
  | vInt n => exact safe_str_idem _

/-- Reading the `url` field of a success audit entry. -/
theorem jget_ok_url (u : List Char) (resp : Json) :
    jget [("url".toList, Json.jstr u), ("ok".toList, Json.jbool true),
      ("response".toList, resp)] ("url".toList) = some (Json.jstr u) := by
  unfold jget
  simp only [List.foldl_cons, List.foldl_nil]
  simp

/-- Reading the `ok` field of a success audit entry. -/
theorem jget_ok_ok (u : List Char) (resp : Json) :
    jget [("url".toList, Json.jstr u), ("ok".toList, Json.jbool true),
      ("response".toList, resp)] ("ok".toList) = some (Json.jbool true) := by
  unfold jget
  simp only [List.foldl_cons, List.foldl_nil]
  simp

/-- Reading the `url` field of a failure audit entry. -/
theorem jget_err_url (u : List Char) (err : List (List Char × Json)) :
    jget [("url".toList, Json.jstr u), ("ok".toList, Json.jbool false),
      ("error".toList, Json.jobj err)] ("url".toList) = some (Json.jstr u) := by
  unfold jget
  simp only [List.foldl_cons, List.foldl_nil]
  simp

/-- Reading the `ok` field of a failure audit entry. -/
theorem jget_err_ok (u : List Char) (err : List (List Char × Json)) :
    jget [("url".toList, Json.jstr u), ("ok".toList, Json.jbool false),
      ("error".toList, Json.jobj err)] ("ok".toList) = some (Json.jbool false) := by
  unfold jget
  simp only [List.foldl_cons, List.foldl_nil]
  simp

/-- Extracting a JSON string with `safe_str`. -/
theorem safeStrJson_jstr (u : List Char) :
    safeStrJson (some (Json.jstr u)) = safe_str u := rfl

/-- One resume-log fold step never removes a url from either set. -/
theorem loadStep_mem (acc : List (List Char) × List (List Char)) (line : Option Json)
    (x : List Char) :
    (x ∈ acc.1 → x ∈ (loadStep acc line).1) ∧ (x ∈ acc.2 → x ∈ (loadStep acc line).2) := by
  unfold loadStep
  cases line with
  | none => exact ⟨id, id⟩
  | some j =>
    cases j with
    | jnull => exact ⟨id, id⟩
    | jbool b => exact ⟨id, id⟩
    | jstr s => exact ⟨id, id⟩
    | jint n => exact ⟨id, id⟩
    | jarr xs => exact ⟨id, id⟩
    | jobj kvs =>
      dsimp only
      by_cases hu : safeStrJson (jget kvs ("url".toList)) = []
      · rw [if_pos hu]
        exact ⟨id, id⟩
      · rw [if_neg hu]
        cases hok : jget kvs ("ok".toList) with
        | none => exact ⟨id, id⟩
        | some jv =>
          cases jv with
          | jnull => exact ⟨id, id⟩
          | jstr s => exact ⟨id, id⟩
          | jint n => exact ⟨id, id⟩
          | jarr xs => exact ⟨id, id⟩
          | jobj kvs2 => exact ⟨id, id⟩
          | jbool b =>
            cases b with
            | true =>
              dsimp only
              refine ⟨fun hx => ?_, fun hx => hx⟩
              by_cases hmem : safeStrJson (jget kvs ("url".toList)) ∈ acc.1
              · rw [if_pos hmem]
                exact hx
              · rw [if_neg hmem]
                exact List.mem_append_left _ hx
            | false =>
              dsimp only
              refine ⟨fun hx => hx, fun hx => ?_⟩
              by_cases hmem : safeStrJson (jget kvs ("url".toList)) ∈ acc.2
              · rw [if_pos hmem]
                exact hx
              · rw [if_neg hmem]
                exact List.mem_append_left _ hx

/-- Folding the rest of the log keeps every url already collected. -/
theorem foldl_loadStep_mem (x : List Char) :
    ∀ (lines : List (Option Json)) (acc : List (List Char) × List (List Char)),
      (x ∈ acc.1 → x ∈ (List.foldl loadStep acc lines).1) ∧
      (x ∈ acc.2 → x ∈ (List.foldl loadStep acc lines).2) := by
  intro lines
  induction lines with
  | nil => intro acc; exact ⟨id, id⟩
  | cons l ls ih =>
    intro acc
    rw [List.foldl_cons]
    exact ⟨fun hx => (ih _).1 ((loadStep_mem acc l x).1 hx),
           fun hx => (ih _).2 ((loadStep_mem acc l x).2 hx)⟩

/-- Folding a success audit entry puts its url into the ok set. -/
theorem loadStep_okEntry (acc : List (List Char) × List (List Char)) (u : List Char)
    (resp : Json) (hne : safe_str u ≠ []) :
    safe_str u ∈ (loadStep acc (some (okEntry u resp))).1 := by
  unfold loadStep okEntry
  dsimp only
  rw [jget_ok_url, safeStrJson_jstr, if_neg hne, jget_ok_ok]
  dsimp only
  by_cases hmem : safe_str u ∈ acc.1
  · rw [if_pos hmem]
    exact hmem
  · rw [if_neg hmem]
    exact List.mem_append_right _ (List.mem_singleton.mpr rfl)

/-- Folding a failure audit entry puts its url into the failed set. -/
theorem loadStep_errEntry (acc : List (List Char) × List (List Char)) (u : List Char)
    (err : List (List Char × Json)) (hne : safe_str u ≠ []) :
    safe_str u ∈ (loadStep acc (some (errEntry u err))).2 := by
  unfold loadStep errEntry
  dsimp only
  rw [jget_err_url, safeStrJson_jstr, if_neg hne, jget_err_ok]
  dsimp only
  by_cases hmem : safe_str u ∈ acc.2
  · rw [if_pos hmem]
    exact hmem
  · rw [if_neg hmem]
    exact List.mem_append_right _ (List.mem_singleton.mpr rfl)

/-- A success entry anywhere in the log lands in the ok set. -/
theorem loadProcessed_ok_mem (u : List Char) (resp : Json) (hne : safe_str u ≠ []) :
    ∀ (lines : List (Option Json)) (acc : List (List Char) × List (List Char)),
      some (okEntry u resp) ∈ lines →
      safe_str u ∈ (List.foldl loadStep acc lines).1 := by
  intro lines
  induction lines with
  | nil =>
    intro acc h
    simp at h
  | cons l ls ih =>
    intro acc h
    rw [List.foldl_cons]
    rcases List.mem_cons.mp h with h1 | h1
    · rw [← h1]
      exact (foldl_loadStep_mem (safe_str u) ls _).1 (loadStep_okEntry acc u resp hne)
    · exact ih _ h1

/-- A failure entry anywhere in the log lands in the failed set. -/
theorem loadProcessed_fail_mem (u : List Char) (err : List (List Char × Json))
    (hne : safe_str u ≠ []) :
    ∀ (lines : List (Option Json)) (acc : List (List Char) × List (List Char)),
      some (errEntry u err) ∈ lines →
      safe_str u ∈ (List.foldl loadStep acc lines).2 := by
  intro lines
  induction lines with
  | nil =>
    intro acc h
    simp at h
  | cons l ls ih =>
    intro acc h
    rw [List.foldl_cons]
    rcases List.mem_cons.mp h with h1 | h1
    · rw [← h1]
      exact (foldl_loadStep_mem (safe_str u) ls _).2 (loadStep_errEntry acc u err hne)
    · exact ih _ h1

/-- C7: re-running the orchestrator against the same audit log with neither
`--overwrite` nor `--retry-failures` set, a row whose url was previously
logged — with `ok: true` or `ok: false` — is never processed: the pre-API
decision of the main loop on the sets `load_processed_urls_from_jsonl`
rebuilt from that log is always a skip. -/
theorem resume_skips_logged (lines : List (Option Json)) (onlyUrls : List (List Char))
    (row : SheetRow) (resp : Json) (err : List (List Char × Json))
    (hlog : some (okEntry (safeStrPy row.urlCell) resp) ∈ lines ∨
            some (errEntry (safeStrPy row.urlCell) err) ∈ lines) :
    rowAction false false (loadProcessed lines).1 (loadProcessed lines).2 onlyUrls row ≠
      RowAction.process := by
  unfold rowAction
  dsimp only
  by_cases hu : safeStrPy row.urlCell = []
  · rw [if_pos hu]
    simp
  · rw [if_neg hu]
    have hne : safe_str (safeStrPy row.urlCell) ≠ [] := by
      rw [safe_str_safeStrPy]
      exact hu
    by_cases honly : onlyUrls ≠ [] ∧ safeStrPy row.urlCell ∉ onlyUrls
    · rw [if_pos honly]
      simp
    · rw [if_neg honly]
      by_cases hcp : ¬ row.contentPathOk = true
      · rw [if_pos hcp]
        simp
      · rw [if_neg hcp]
        by_cases hty : safeStrPy row.existingType = []
        · rw [if_neg (fun hc => hc.2 hty)]
          rcases hlog with hok | hfail
          · have hmem : safeStrPy row.urlCell ∈ (loadProcessed lines).1 := by
              have hm := loadProcessed_ok_mem (safeStrPy row.urlCell) resp hne lines
                ([], []) hok
              rw [safe_str_safeStrPy] at hm
              exact hm
            rw [if_pos ⟨by decide, hmem⟩]
            simp
          · have hmem : safeStrPy row.urlCell ∈ (loadProcessed lines).2 := by
              have hm := loadProcessed_fail_mem (safeStrPy row.urlCell) err hne lines
                ([], []) hfail
              rw [safe_str_safeStrPy] at hm
              exact hm
            by_cases hok1 : safeStrPy row.urlCell ∈ (loadProcessed lines).1
            · rw [if_pos ⟨by decide, hok1⟩]
              simp
            · rw [if_neg (fun hc => hok1 hc.2)]
              rw [if_pos ⟨by decide, by decide, hmem⟩]
              simp
        · rw [if_pos ⟨by decide, hty⟩]
          simp

/-- Witness for C7: one previously successful url and the row that carries it. -/
theorem resume_skips_logged_witness :
    rowAction false false
        (loadProcessed [some (okEntry "u".toList Json.jnull)]).1
        (loadProcessed [some (okEntry "u".toList Json.jnull)]).2 []
        ⟨PyVal.vStr "u".toList, true, PyVal.vNone⟩ ≠ RowAction.process :=
  resume_skips_logged [some (okEntry "u".toList Json.jnull)] []
    ⟨PyVal.vStr "u".toList, true, PyVal.vNone⟩ Json.jnull []
    (Or.inl (List.mem_singleton.mpr rfl))

/-- C9 (amended): every audit entry the orchestrator appends is a JSON object
whose fields are exactly `url`, `ok` and `response` (success) or `url`, `ok`
and `error` (failure), the error object starting with `type` and `message`;
no entry carries a `timestamp` field, contrary to the claim. -/
theorem audit_entry_fields (url : List Char) (resp : Json) (etype emsg : List Char)
    (hs : Option Int) (bs : Option (List Char)) :
    jsonKeys (okEntry url resp) = ["url".toList, "ok".toList, "response".toList] ∧
    jsonKeys (errEntry url (errFields etype emsg hs bs)) =
      ["url".toList, "ok".toList, "error".toList] ∧
    (jsonKeys (Json.jobj (errFields etype emsg hs bs))).take 2 =
      ["type".toList, "message".toList] ∧
    "timestamp".toList ∉ jsonKeys (okEntry url resp) ∧
    "timestamp".toList ∉ jsonKeys (errEntry url (errFields etype emsg hs bs)) := by
  refine ⟨rfl, rfl, ?_, ?_, ?_⟩
  · cases hs <;> cases bs <;> rfl
  · rw [show jsonKeys (okEntry url resp) =
      ["url".toList, "ok".toList, "response".toList] from rfl]
    decide
  · rw [show jsonKeys (errEntry url (errFields etype emsg hs bs)) =
      ["url".toList, "ok".toList, "error".toList] from rfl]
    decide

/-- C9 counterexample to the claim as written: a concrete success entry and a
concrete failure entry, neither of which has a `timestamp` key. -/
theorem audit_no_timestamp_counterexample :
    jsonKeys (okEntry "u".toList Json.jnull) =
      ["url".toList, "ok".toList, "response".toList] ∧
    "timestamp".toList ∉ jsonKeys (okEntry "u".toList Json.jnull) ∧
    jsonKeys (errEntry "u".toList (errFields "E".toList "m".toList none none)) =
      ["url".toList, "ok".toList, "error".toList] ∧
    "timestamp".toList ∉
      jsonKeys (errEntry "u".toList (errFields "E".toList "m".toList none none)) := by
  decide

/-- Percent-decoding never lengthens a string. -/
theorem unquoteAscii_length_le : ∀ l, (unquoteAscii l).length ≤ l.length := by
  intro l
  induction l using unquoteAscii.induct with
  | case1 => simp [unquoteAscii]
  | case2 a b rest2 ha hb hB hA hlt ih =>
    rw [unquoteAscii, hA, hB]
    dsimp only
    rw [if_pos hlt]
    simp only [List.length_cons]
    omega
  | case3 a b rest2 ha hb hB hA hge ih =>
    rw [unquoteAscii, hA, hB]
    dsimp only
    rw [if_neg hge]
    simp only [List.length_cons] at ih ⊢
    omega
  | case4 a b rest2 hmatch ih =>
    rw [unquoteAscii]
    cases hA : hexVal a with
    | none =>
      cases hB : hexVal b with
      | none =>
        dsimp only
        simp only [List.length_cons] at ih ⊢
        omega
      | some vb =>
        dsimp only
        simp only [List.length_cons] at ih ⊢
        omega
    | some va =>
      cases hB : hexVal b with
      | none =>
        dsimp only
        simp only [List.length_cons] at ih ⊢
        omega
      | some vb => exact (hmatch va vb hA hB).elim
  | case5 c rest hne ih =>
    rw [unquoteAscii]
    · simp only [List.length_cons]
      omega
    · exact hne

/-- Plus-then-percent decoding never lengthens a string. -/
theorem unquotePlus_length_le (l : List Char) : (unquotePlus l).length ≤ l.length := by
  unfold unquotePlus
  calc (unquoteAscii (l.map fun c => if c = '+' then ' ' else c)).length
      ≤ (l.map fun c => if c = '+' then ' ' else c).length := unquoteAscii_length_le _
    _ = l.length := List.length_map _ _

/-- Each value produced by `parse_qsl` is no longer than the query string. -/
theorem parse_qsl_mem_length {qs k v : List Char} (h : (k, v) ∈ parse_qsl qs) :
    v.length ≤ qs.length := by
  unfold parse_qsl at h
  rcases List.mem_filterMap.mp h with ⟨nv, hnv, hmk⟩
  by_cases hne : nv = []
  · rw [if_pos hne] at hmk
    exact absurd hmk (by simp)
  · rw [if_neg hne] at hmk
    have hlen := splitSep_mem_length_le hnv
    cases hbk : breakFirst '=' nv with
    | mk name ov =>
      cases ov with
      | none =>
        rw [hbk] at hmk
        dsimp only at hmk
        have hv : v = [] := by
          have := Option.some.inj hmk
          rw [Prod.mk.injEq] at this
          exact this.2.symm
        rw [hv]
        simp
      | some value =>
        rw [hbk] at hmk
        dsimp only at hmk
        have hv : v = unquotePlus value := by
          have := Option.some.inj hmk
          rw [Prod.mk.injEq] at this
          exact this.2.symm
        have hvl := breakFirst_some_length hbk
        have := unquotePlus_length_le value
        rw [hv]
        omega

/-- A `dict(pairs)` hit comes from a pair of the list. -/
theorem dictGetLast_mem {kvs : List (List Char × List Char)} {k v : List Char} :
    ∀ {acc : Option (List Char)},
      kvs.foldl (fun acc kv => if kv.1 = k then some kv.2 else acc) acc = some v →
      (k, v) ∈ kvs ∨ acc = some v := by
  induction kvs with
  | nil =>
    intro acc h
    exact Or.inr h
  | cons kv rest ih =>
    intro acc h
    rw [List.foldl_cons] at h
    rcases ih h with h1 | h1
    · exact Or.inl (List.mem_cons_of_mem _ h1)
    · by_cases hk : kv.1 = k
      · rw [if_pos hk] at h1
        have hv := Option.some.inj h1
        left
        have : kv = (k, v) := by
          rw [Prod.ext_iff]
          exact ⟨hk, hv⟩
        rw [← this]
        exact List.mem_cons_self _ _
      · rw [if_neg hk] at h1
        exact Or.inr h1

/-- Base64 decoding never produces more bytes than it reads characters. -/
theorem a2bBase64_length_le :
    ∀ (l : List Char) (qp lc pads : Nat) (out : List Nat),
      a2bBase64 l qp lc pads = some out → out.length ≤ l.length := by
  intro l
  induction l with
  | nil =>
    intro qp lc pads out h
    rw [a2bBase64] at h
    by_cases hq : qp = 0
    · rw [if_pos hq] at h
      have := Option.some.inj h
      rw [← this]
      simp
    · rw [if_neg hq] at h
      exact absurd h (by simp)
  | cons c rest ih =>
    intro qp lc pads out h
    rw [a2bBase64] at h
    by_cases hc : c = '='
    · rw [if_pos hc] at h
      by_cases hp : 2 ≤ qp ∧ 4 ≤ qp + (pads + 1)
      · rw [if_pos hp] at h
        have := Option.some.inj h
        rw [← this]
        simp
      · rw [if_neg hp] at h
        have := ih _ _ _ _ h
        simp only [List.length_cons]
        omega
    · rw [if_neg hc] at h
      cases hv : b64Val c with
      | none =>
        rw [hv] at h
        have := ih _ _ _ _ h
        simp only [List.length_cons]
        omega
      | some v =>
        rw [hv] at h
        dsimp only at h
        match hqp : qp with
        | 0 =>
          have := ih _ _ _ _ h
          simp only [List.length_cons]
          omega
        | 1 =>
          rcases Option.map_eq_some'.mp h with ⟨out2, hout2, hcons⟩
          have := ih _ _ _ _ hout2
          rw [← hcons]
          simp only [List.length_cons]
          omega
        | 2 =>
          rcases Option.map_eq_some'.mp h with ⟨out2, hout2, hcons⟩
          have := ih _ _ _ _ hout2
          rw [← hcons]
          simp only [List.length_cons]
          omega
        | n + 3 =>
          rcases Option.map_eq_some'.mp h with ⟨out2, hout2, hcons⟩
          have := ih _ _ _ _ hout2
          rw [← hcons]
          simp only [List.length_cons]
          omega

/-- UTF-8 replace-decoding never produces more characters than bytes. -/
theorem utf8DecodeReplaceFuel_length_le :
    ∀ (fuel : Nat) (bs : List Nat), (utf8DecodeReplaceFuel fuel bs).length ≤ bs.length := by
  intro fuel
  induction fuel with
  | zero =>
    intro bs
    cases bs with
    | nil => simp [show utf8DecodeReplaceFuel 0 [] = [] from rfl]
    | cons b rest => simp [show utf8DecodeReplaceFuel 0 (b :: rest) = [] from rfl]
  | succ f ih =>
    intro bs
    cases bs with
    | nil =>
      rw [show utf8DecodeReplaceFuel (f + 1) [] = [] from rfl]
      simp
    | cons b rest =>
      rw [utf8DecodeReplaceFuel.eq_def]
      dsimp only
      by_cases h1 : b < 0x80
      · rw [if_pos h1]
        have := ih rest
        simp only [List.length_cons]
        omega
      · rw [if_neg h1]
        by_cases h2 : 0xC2 ≤ b ∧ b ≤ 0xDF
        · rw [if_pos h2]
          cases rest with
          | nil => simp
          | cons b2 rest2 =>
            dsimp only
            by_cases h3 : isCont b2 = true
            · rw [if_pos h3]
              have := ih rest2
              simp only [List.length_cons]
              omega
            · rw [if_neg h3]
              have := ih (b2 :: rest2)
              simp only [List.length_cons] at this ⊢
              omega
        · rw [if_neg h2]
          by_cases h4 : 0xE0 ≤ b ∧ b ≤ 0xEF
          · rw [if_pos h4]
            match rest with
            | [] =>
              dsimp only
              have := ih ([] : List Nat)
              simp only [List.length_cons] at this ⊢
              omega
            | [b2] =>
              dsimp only
              have := ih [b2]
              simp only [List.length_cons] at this ⊢
              omega
            | b2 :: b3 :: rest3 =>
              dsimp only
              by_cases h5 : isCont b2 = true ∧ isCont b3 = true ∧
                  (b ≠ 0xE0 ∨ 0xA0 ≤ b2) ∧ (b ≠ 0xED ∨ b2 < 0xA0)
              · rw [if_pos h5]
                have := ih rest3
                simp only [List.length_cons]
                omega
              · rw [if_neg h5]
                have := ih (b2 :: b3 :: rest3)
                simp only [List.length_cons] at this ⊢
                omega
          · rw [if_neg h4]
            by_cases h6 : 0xF0 ≤ b ∧ b ≤ 0xF4
            · rw [if_pos h6]
              match rest with
              | [] =>
                dsimp only
                have := ih ([] : List Nat)
                simp only [List.length_cons] at this ⊢
                omega
              | [b2] =>
                dsimp only
                have := ih [b2]
                simp only [List.length_cons] at this ⊢
                omega
              | [b2, b3] =>
                dsimp only
                have := ih [b2, b3]
                simp only [List.length_cons] at this ⊢
                omega
              | b2 :: b3 :: b4 :: rest4 =>
                dsimp only
                by_cases h7 : isCont b2 = true ∧ isCont b3 = true ∧ isCont b4 = true ∧
                    (b ≠ 0xF0 ∨ 0x90 ≤ b2) ∧ (b ≠ 0xF4 ∨ b2 < 0x90)
                · rw [if_pos h7]
                  have := ih rest4
                  simp only [List.length_cons]
                  omega
                · rw [if_neg h7]
                  have := ih (b2 :: b3 :: b4 :: rest4)
                  simp only [List.length_cons] at this ⊢
                  omega
            · rw [if_neg h6]
              have := ih rest
              simp only [List.length_cons]
              omega

/-- `urlsplit` splits the url: netloc, path and query are disjoint pieces. -/
theorem urlsplitE_lengths {url0 : List Char} {parts : UrlParts}
    (h : urlsplitE url0 = some parts) :
    parts.netloc.length + parts.path.length + parts.query.length ≤ url0.length := by
  unfold urlsplitE at h
  dsimp only at h
  set url1 := url0.filter (fun c => ¬(c = '\t' ∨ c = '\r' ∨ c = '\n')) with hurl1
  have hfl : url1.length ≤ url0.length := List.length_filter_le _ _
  set u2 := (splitScheme url1).2 with hu2
  have hsp : u2.length ≤ url1.length := by
    rw [hu2]
    unfold splitScheme
    cases hbk : breakFirst ':' url1 with
    | mk pre opost =>
      cases opost with
      | none => dsimp only; omega
      | some post =>
        dsimp only
        by_cases hcond : pre ≠ [] ∧ (pre.headD ' ').isAlpha = true ∧
            pre.all schemeChar = true
        · rw [if_pos hcond]
          dsimp only
          have := breakFirst_some_length hbk
          omega
        · rw [if_neg hcond]
  have hnil : ([] : List Char).length = 0 := rfl
  by_cases hpre : ("//".toList).isPrefixOf u2 = true
  · rw [if_pos hpre] at h
    dsimp only at h
    set A := (u2.drop 2).takeWhile (fun c => ¬ netlocDelim c = true) with hA
    set B := (u2.drop 2).dropWhile (fun c => ¬ netlocDelim c = true) with hB
    have hAB : A.length + B.length = (u2.drop 2).length := by
      rw [hA, hB, ← List.length_append, List.takeWhile_append_dropWhile]
    have hdrop : (u2.drop 2).length ≤ u2.length := by
      rw [List.length_drop]
      omega
    by_cases hbr : ('[' ∈ A ∧ ']' ∉ A) ∨ (']' ∈ A ∧ '[' ∉ A)
    · rw [if_pos hbr] at h
      exact absurd h (by simp)
    · rw [if_neg hbr] at h
      cases hf : breakFirst '#' B with
      | mk fa fob =>
        rw [hf] at h
        have hfa : fa.length ≤ B.length := by
          cases fob with
          | none =>
            exact le_of_eq (congrArg List.length (breakFirst_none_eq hf).1)
          | some fb =>
            have := breakFirst_some_length hf
            omega
        cases fob with
        | none =>
          dsimp only at h
          cases hq : breakFirst '?' fa with
          | mk qa qob =>
            rw [hq] at h
            have hqa : qa.length + (match qob with
                | none => 0
                | some qb => qb.length) ≤ fa.length := by
              cases qob with
              | none =>
                have hl := congrArg List.length (breakFirst_none_eq hq).1
                dsimp only
                omega
              | some qb =>
                have := breakFirst_some_length hq
                dsimp only
                omega
            cases qob with
            | none =>
              dsimp only at h hqa
              have hinj := Option.some.inj h
              rw [← hinj]
              dsimp only
              omega
            | some qb =>
              dsimp only at h hqa
              have hinj := Option.some.inj h
              rw [← hinj]
              dsimp only
              omega
        | some fb =>
          dsimp only at h
          cases hq : breakFirst '?' fa with
          | mk qa qob =>
            rw [hq] at h
            have hqa : qa.length + (match qob with
                | none => 0
                | some qb => qb.length) ≤ fa.length := by
              cases qob with
              | none =>
                have hl := congrArg List.length (breakFirst_none_eq hq).1
                dsimp only
                omega
              | some qb =>
                have := breakFirst_some_length hq
                dsimp only
                omega
            cases qob with
            | none =>
              dsimp only at h hqa
              have hinj := Option.some.inj h
              rw [← hinj]
              dsimp only
              omega
            | some qb =>
              dsimp only at h hqa
              have hinj := Option.some.inj h
              rw [← hinj]
              dsimp only
              omega
  · rw [if_neg hpre] at h
    dsimp only at h
    cases hf : breakFirst '#' u2 with
    | mk fa fob =>
      rw [hf] at h
      have hfa : fa.length ≤ u2.length := by
        cases fob with
        | none =>
          exact le_of_eq (congrArg List.length (breakFirst_none_eq hf).1)
        | some fb =>
          have := breakFirst_some_length hf
          omega
      cases fob with
      | none =>
        dsimp only at h
        cases hq : breakFirst '?' fa with
        | mk qa qob =>
          rw [hq] at h
          have hqa : qa.length + (match qob with
              | none => 0
              | some qb => qb.length) ≤ fa.length := by
            cases qob with
            | none =>
              have hl := congrArg List.length (breakFirst_none_eq hq).1
              dsimp only
              omega
            | some qb =>
              have := breakFirst_some_length hq
              dsimp only
              omega
          cases qob with
          | none =>
            dsimp only at h hqa
            have hinj := Option.some.inj h
            rw [← hinj]
            dsimp only
            omega
          | some qb =>
            dsimp only at h hqa
            have hinj := Option.some.inj h
            rw [← hinj]
            dsimp only
            omega
      | some fb =>
        dsimp only at h
        cases hq : breakFirst '?' fa with
        | mk qa qob =>
          rw [hq] at h
          have hqa : qa.length + (match qob with
              | none => 0
              | some qb => qb.length) ≤ fa.length := by
            cases qob with
            | none =>
              have hl := congrArg List.length (breakFirst_none_eq hq).1
              dsimp only
              omega
            | some qb =>
              have := breakFirst_some_length hq
              dsimp only
              omega
          cases qob with
          | none =>
            dsimp only at h hqa
            have hinj := Option.some.inj h
            rw [← hinj]
            dsimp only
            omega
          | some qb =>
            dsimp only at h hqa
            have hinj := Option.some.inj h
            rw [← hinj]
            dsimp only
            omega

/-- The fuel of `normalizeFuel` is irrelevant above the input length: the
click-redirect recursion strictly shrinks its argument (the encoded
destination sits inside the query string), so the recursion always
terminates and any two sufficient fuels agree. -/
theorem normalizeFuel_stable :
    ∀ (n : Nat) (raw : List Char) (f g : Nat),
      raw.length ≤ n → raw.length < f → raw.length < g →
      normalizeFuel f raw = normalizeFuel g raw := by
  intro n
  induction n with
  | zero =>
    intro raw f g hn hf hg
    have hraw : raw = [] := List.length_eq_zero.mp (Nat.le_zero.mp hn)
    subst hraw
    cases f with
    | zero => simp at hf
    | succ f2 =>
      cases g with
      | zero => simp at hg
      | succ g2 => rfl
  | succ m ih =>
    intro raw f g hn hf hg
    cases f with
    | zero => exact absurd hf (by omega)
    | succ f2 =>
      cases g with
      | zero => exact absurd hg (by omega)
      | succ g2 =>
        rw [normalizeFuel]
        rw [normalizeFuel]
        by_cases hraw0 : raw = []
        · rw [if_pos hraw0, if_pos hraw0]
        · rw [if_neg hraw0, if_neg hraw0]
          dsimp only
          by_cases hurl0 : pyStrip raw = []
          · rw [if_pos hurl0, if_pos hurl0]
          · rw [if_neg hurl0, if_neg hurl0]
            set url2 := (if containsSub ("://".toList) (pyStrip raw) = true then pyStrip raw
              else "https://".toList ++ pyStrip raw) with hurl2eq
            have hurl2len : url2.length ≤ (pyStrip raw).length + 8 := by
              rw [hurl2eq]
              by_cases hcs : containsSub ("://".toList) (pyStrip raw) = true
              · rw [if_pos hcs]
                omega
              · rw [if_neg hcs]
                rw [List.length_append]
                have h8 : ("https://".toList).length = 8 := rfl
                omega
            cases hsplit : urlsplitE url2 with
            | none => rfl
            | some parts =>
              dsimp only
              by_cases hbing : ("bing.com".toList).isSuffixOf
                  (if ("www.".toList).isPrefixOf (lowerL parts.netloc) = true then
                    (lowerL parts.netloc).drop 4
                  else lowerL parts.netloc) = true ∧
                  ("/ck/a".toList).isPrefixOf parts.path = true
              · rw [if_pos hbing, if_pos hbing]
                set uu := pyStrip ((dictGetLast (parse_qsl parts.query) ("u".toList)).getD [])
                  with huu
                by_cases ha1 : ("a1".toList).isPrefixOf uu = true
                · rw [if_pos ha1, if_pos ha1]
                  set b64 := uu.drop 2 with hb64
                  set pad := List.replicate ((4 - b64.length % 4) % 4) '=' with hpad
                  cases hdec : urlsafeB64decodeBytes (b64 ++ pad) with
                  | none => rfl
                  | some bytes =>
                    dsimp only
                    by_cases hhttp : ("http".toList).isPrefixOf (utf8DecodeReplace bytes) = true
                    · rw [if_pos hhttp, if_pos hhttp]
                      have hu2le : 2 ≤ uu.length := by
                        have := (List.isPrefixOf_iff_prefix.mp ha1).length_le
                        simpa using this
                      have huval : uu.length ≤ parts.query.length := by
                        cases hv : dictGetLast (parse_qsl parts.query) ("u".toList) with
                        | none =>
                          rw [hv] at huu
                          simp only [Option.getD_none] at huu
                          rw [show pyStrip [] = [] from rfl] at huu
                          rw [huu] at ha1
                          exact absurd ha1 (by decide)
                        | some v =>
                          rw [hv] at huu
                          simp only [Option.getD_some] at huu
                          have hmemv : ("u".toList, v) ∈ parse_qsl parts.query := by
                            unfold dictGetLast at hv
                            rcases dictGetLast_mem hv with h1 | h1
                            · exact h1
                            · exact absurd h1 (by simp)
                          have hvlen := parse_qsl_mem_length hmemv
                          have := pyStrip_length_le v
                          rw [huu]
                          omega
                      have hsplitlen := urlsplitE_lengths hsplit
                      have hnetloc : 8 ≤ parts.netloc.length := by
                        obtain ⟨hsuf, hck⟩ := hbing
                        have hll : (lowerL parts.netloc).length = parts.netloc.length :=
                          List.length_map _ _
                        by_cases hwww : ("www.".toList).isPrefixOf (lowerL parts.netloc) = true
                        · rw [if_pos hwww] at hsuf
                          have h8 := (List.isSuffixOf_iff_suffix.mp hsuf).length_le
                          simp only [List.length_drop] at h8
                          have : ("bing.com".toList).length = 8 := rfl
                          omega
                        · rw [if_neg hwww] at hsuf
                          have h8 := (List.isSuffixOf_iff_suffix.mp hsuf).length_le
                          have : ("bing.com".toList).length = 8 := rfl
                          omega
                      have hpath : 5 ≤ parts.path.length := by
                        have h5 := (List.isPrefixOf_iff_prefix.mp hbing.2).length_le
                        have : ("/ck/a".toList).length = 5 := rfl
                        omega
                      have hbytes : bytes.length ≤ (b64 ++ pad).length :=
                        a2bBase64_length_le _ 0 0 0 bytes hdec
                      have hdecoded : (utf8DecodeReplace bytes).length ≤ bytes.length :=
                        utf8DecodeReplaceFuel_length_le bytes.length bytes
                      have happlen : (b64 ++ pad).length = b64.length + pad.length :=
                        List.length_append _ _
                      have hpadlen : pad.length ≤ 3 := by
                        rw [hpad, List.length_replicate]
                        omega
                      have hb64len : b64.length = uu.length - 2 := by
                        rw [hb64, List.length_drop]
                      have hstrip := pyStrip_length_le raw
                      have hlt : (utf8DecodeReplace bytes).length < raw.length := by
                        omega
                      have hrec := ih (utf8DecodeReplace bytes) f2 g2
                        (by omega) (by omega) (by omega)
                      rw [hrec]
                    · rw [if_neg hhttp, if_neg hhttp]
                · rw [if_neg ha1, if_neg ha1]
              · rw [if_neg hbing, if_neg hbing]

/-- Stripping only removes characters. -/
theorem pyStrip_subset {c : Char} {l : List Char} (h : c ∈ pyStrip l) : c ∈ l := by
  unfold pyStrip at h
  rw [List.mem_reverse] at h
  have h1 := List.dropWhile_subset isPySpace h
  rw [List.mem_reverse] at h1
  exact List.dropWhile_subset isPySpace h1

/-- The remainder after scheme splitting is made of url characters. -/
theorem splitScheme_snd_subset {c : Char} {url : List Char}
    (h : c ∈ (splitScheme url).2) : c ∈ url := by
  unfold splitScheme at h
  cases hbk : breakFirst ':' url with
  | mk pre opost =>
    rw [hbk] at h
    cases opost with
    | none => exact h
    | some post =>
      dsimp only at h
      by_cases hcond : pre ≠ [] ∧ (pre.headD ' ').isAlpha = true ∧ pre.all schemeChar = true
      · rw [if_pos hcond] at h
        dsimp only at h
        have := (breakFirst_some_eq hbk).1
        rw [this]
        exact List.mem_append_right _ (List.mem_cons_of_mem _ h)
      · rw [if_neg hcond] at h
        exact h

/-- Without square brackets in the input, `urlsplit` cannot raise. -/
theorem urlsplitE_isSome {url0 : List Char} (h1 : '[' ∉ url0) (h2 : ']' ∉ url0) :
    (urlsplitE url0).isSome = true := by
  unfold urlsplitE
  dsimp only
  set url1 := url0.filter (fun c => ¬(c = '\t' ∨ c = '\r' ∨ c = '\n')) with hurl1
  have hsub1 : ∀ c, c ∈ url1 → c ∈ url0 := by
    intro c hc
    rw [hurl1] at hc
    exact List.mem_of_mem_filter hc
  set u2 := (splitScheme url1).2 with hu2
  have hsub2 : ∀ c, c ∈ u2 → c ∈ url0 := by
    intro c hc
    rw [hu2] at hc
    exact hsub1 c (splitScheme_snd_subset hc)
  by_cases hpre : ("//".toList).isPrefixOf u2 = true
  · rw [if_pos hpre]
    dsimp only
    set A := (u2.drop 2).takeWhile (fun c => ¬ netlocDelim c = true) with hA
    have hsubA : ∀ c, c ∈ A → c ∈ url0 := by
      intro c hc
      rw [hA] at hc
      have := List.takeWhile_subset (fun c => ¬ netlocDelim c = true) hc
      exact hsub2 c (List.drop_subset 2 u2 this)
    have hbr : ¬ (('[' ∈ A ∧ ']' ∉ A) ∨ (']' ∈ A ∧ '[' ∉ A)) := by
      rw [not_or]
      constructor
      · intro hc
        exact h1 (hsubA '[' hc.1)
      · intro hc
        exact h2 (hsubA ']' hc.1)
    rw [if_neg hbr]
    rfl
  · rw [if_neg hpre]
    dsimp only
    have hbr : ¬ (('[' ∈ ([] : List Char) ∧ ']' ∉ ([] : List Char)) ∨
        (']' ∈ ([] : List Char) ∧ '[' ∉ ([] : List Char))) := by
      simp
    rw [if_neg hbr]
    rfl

/-- Without square brackets in the input, the canonicalizer returns a value. -/
theorem normalizeFuel_isSome {raw : List Char} (h1 : '[' ∉ raw) (h2 : ']' ∉ raw) :
    ∀ {fuel : Nat}, 0 < fuel → (normalizeFuel fuel raw).isSome = true := by
  intro fuel hfpos
  cases fuel with
  | zero => omega
  | succ f2 =>
    rw [normalizeFuel]
    by_cases hraw0 : raw = []
    · rw [if_pos hraw0]
      rfl
    · rw [if_neg hraw0]
      dsimp only
      by_cases hurl0 : pyStrip raw = []
      · rw [if_pos hurl0]
        rfl
      · rw [if_neg hurl0]
        set url2 := (if containsSub ("://".toList) (pyStrip raw) = true then pyStrip raw
          else "https://".toList ++ pyStrip raw) with hurl2eq
        have hb1 : '[' ∉ url2 := by
          rw [hurl2eq]
          by_cases hcs : containsSub ("://".toList) (pyStrip raw) = true
          · rw [if_pos hcs]
            intro hc
            exact h1 (pyStrip_subset hc)
          · rw [if_neg hcs]
            intro hc
            rcases List.mem_append.mp hc with hc1 | hc1
            · exact absurd hc1 (by decide)
            · exact h1 (pyStrip_subset hc1)
        have hb2 : ']' ∉ url2 := by
          rw [hurl2eq]
          by_cases hcs : containsSub ("://".toList) (pyStrip raw) = true
          · rw [if_pos hcs]
            intro hc
            exact h2 (pyStrip_subset hc)
          · rw [if_neg hcs]
            intro hc
            rcases List.mem_append.mp hc with hc1 | hc1
            · exact absurd hc1 (by decide)
            · exact h2 (pyStrip_subset hc1)
        cases hsplit : urlsplitE url2 with
        | none =>
          have hs := urlsplitE_isSome hb1 hb2
          rw [hsplit] at hs
          exact absurd hs (by simp)
        | some parts =>
          dsimp only
          by_cases hbing : ("bing.com".toList).isSuffixOf
              (if ("www.".toList).isPrefixOf (lowerL parts.netloc) = true then
                (lowerL parts.netloc).drop 4
              else lowerL parts.netloc) = true ∧
              ("/ck/a".toList).isPrefixOf parts.path = true
          · rw [if_pos hbing]
            by_cases ha1 : ("a1".toList).isPrefixOf
                (pyStrip ((dictGetLast (parse_qsl parts.query) ("u".toList)).getD [])) = true
            · rw [if_pos ha1]
              cases hdec : urlsafeB64decodeBytes
                  (((pyStrip ((dictGetLast (parse_qsl parts.query)
                      ("u".toList)).getD [])).drop 2) ++
                    List.replicate ((4 - ((pyStrip ((dictGetLast (parse_qsl parts.query)
                      ("u".toList)).getD [])).drop 2).length % 4) % 4) '=') with
              | none => rfl
              | some bytes =>
                dsimp only
                by_cases hhttp : ("http".toList).isPrefixOf (utf8DecodeReplace bytes) = true
                · rw [if_pos hhttp]
                  cases hrec : normalizeFuel f2 (utf8DecodeReplace bytes) with
                  | none => rfl
                  | some k => rfl
                · rw [if_neg hhttp]
                  rfl
            · rw [if_neg ha1]
              rfl
          · rw [if_neg hbing]
            rfl

/-- C6 (amended): the canonicalizer is deterministic and its click-redirect
recursion always terminates — any two fuel values above the input length give
the same result — and on any input without square brackets it returns a
value; but it is not total as claimed: `urlsplit` sits outside the
`try/except`, so a bracket mismatch in the authority (e.g. the input `"["`)
raises an uncaught `ValueError` instead of returning `""`. -/
theorem normalize_total_spec (raw : List Char) (f g : Nat)
    (hf : raw.length < f) (hg : raw.length < g) :
    normalizeFuel f raw = normalizeFuel g raw ∧
    ('[' ∉ raw → ']' ∉ raw → (normalize_url_key raw).isSome = true) :=
  ⟨normalizeFuel_stable raw.length raw f g le_rfl hf hg,
   fun h1 h2 => by
    unfold normalize_url_key
    exact normalizeFuel_isSome h1 h2 (by omega)⟩

/-- C6 counterexample: on the input `"["` both canonicalizers hit the
unguarded `urlsplit` bracket check and raise (`none` here) instead of
returning `""`. -/
theorem normalize_raises_counterexample :
    normalize_url_key "[".toList = none ∧ ingest_normalize_url_key "[".toList = none := by
  decide

/-- Witness for C6 at the input `"a"` with fuels `2` and `9`. -/
theorem normalize_total_spec_witness :
    (normalizeFuel 2 "a".toList = normalizeFuel 9 "a".toList) ∧
    ('[' ∉ "a".toList → ']' ∉ "a".toList →
      (normalize_url_key "a".toList).isSome = true) :=
  normalize_total_spec "a".toList 2 9 (by decide) (by decide)

/-- Unfolding one step of `intercalate`. -/
theorem intercalate_cons (a x : List Char) (xs : List (List Char)) :
    List.intercalate a (x :: xs) =
      x ++ (if xs = [] then [] else a ++ List.intercalate a xs) := by
  cases xs <;> simp [List.intercalate, List.intersperse]

/-- A map that fixes every member is the identity. -/
theorem map_eq_self_of_mem {f : Char → Char} :
    ∀ {l : List Char}, (∀ c ∈ l, f c = c) → l.map f = l := by
  intro l
  induction l with
  | nil => intro h; rfl
  | cons x xs ih =>
    intro h
    rw [List.map_cons, h x (List.mem_cons_self _ _), ih (fun c hc => h c (List.mem_cons_of_mem _ hc))]

/-- A list of non-matching characters is unchanged by `dropWhile`. -/
theorem dropWhile_eq_self_of_all_fail (p : Char → Bool) (l : List Char)
    (h : ∀ c ∈ l, p c = false) : l.dropWhile p = l :=
  dropWhile_eq_self_of_head_fail p l (fun c hc => h c (List.mem_of_mem_head? hc))

/-- Stripping a string with no whitespace is the identity. -/
theorem pyStrip_eq_self {l : List Char} (h : ∀ c ∈ l, isPySpace c = false) :
    pyStrip l = l := by
  unfold pyStrip
  rw [dropWhile_eq_self_of_all_fail isPySpace l h]
  rw [dropWhile_eq_self_of_all_fail isPySpace l.reverse
    (fun c hc => h c (List.mem_reverse.mp hc))]
  exact List.reverse_reverse l

/-- The six Python whitespace characters. -/
theorem isPySpace_cases {c : Char} (h : isPySpace c = true) :
    c = ' ' ∨ c = '\t' ∨ c = '\n' ∨ c = '\r' ∨ c = '\x0b' ∨ c = '\x0c' := by
  unfold isPySpace at h
  simp only [Bool.or_eq_true, decide_eq_true_eq] at h
  tauto

/-- Characters of a rendered parameter list. -/
theorem renderParams_chars :
    ∀ {ps : List (List Char × List Char)},
      (∀ kv ∈ ps, kv.1.all alwaysSafe = true ∧ kv.2.all alwaysSafe = true) →
      ∀ {c : Char}, c ∈ renderParams ps →
      alwaysSafe c = true ∨ c = '&' ∨ c = '=' := by
  intro ps
  induction ps with
  | nil =>
    intro _ c hc
    simp [renderParams, List.intercalate] at hc
  | cons kv rest ih =>
    intro hsafe c hc
    unfold renderParams at hc
    rw [List.map_cons, intercalate_cons] at hc
    rcases List.mem_append.mp hc with hc1 | hc1
    · rcases List.mem_append.mp hc1 with hc2 | hc2
      · exact Or.inl (List.all_eq_true.mp (hsafe kv (List.mem_cons_self _ _)).1 c hc2)
      · rcases List.mem_cons.mp hc2 with hc3 | hc3
        · exact Or.inr (Or.inr hc3)
        · exact Or.inl (List.all_eq_true.mp (hsafe kv (List.mem_cons_self _ _)).2 c hc3)
    · by_cases hrest : rest.map (fun kv => kv.1 ++ '=' :: kv.2) = []
      · rw [if_pos hrest] at hc1
        simp at hc1
      · rw [if_neg hrest] at hc1
        rcases List.mem_append.mp hc1 with hc2 | hc2
        · rcases List.mem_singleton.mp hc2 with rfl
          exact Or.inr (Or.inl rfl)
        · exact ih (fun kv2 h2 => hsafe kv2 (List.mem_cons_of_mem _ h2)) hc2

/-- Characters of the tail of a rendered URL (everything after `scheme://`). -/
theorem renderTail_chars {www : Bool} {host path : List Char} {slash : Bool}
    {ps : List (List Char × List Char)}
    (hhost : host.all hostChar = true)
    (hpath : path.all pathChar = true)
    (hps : ∀ kv ∈ ps, kv.1.all alwaysSafe = true ∧ kv.2.all alwaysSafe = true)
    {c : Char}
    (h : c ∈ (if www then "www.".toList else []) ++ host ++ path ++
      (if slash then ['/'] else []) ++ renderQuery ps) :
    hostChar c = true ∨ pathChar c = true ∨ alwaysSafe c = true ∨
      c = '?' ∨ c = '&' ∨ c = '=' ∨ c = '/' ∨ c = 'w' ∨ c = '.' := by
  rcases List.mem_append.mp h with h1 | h1
  · rcases List.mem_append.mp h1 with h2 | h2
    · rcases List.mem_append.mp h2 with h3 | h3
      · rcases List.mem_append.mp h3 with h4 | h4
        · cases www with
          | true =>
            rw [show ("www.".toList) = 'w' :: 'w' :: 'w' :: '.' :: [] from rfl] at h4
            simp at h4
            rcases h4 with rfl | rfl
            · exact Or.inr (Or.inr (Or.inr (Or.inr (Or.inr (Or.inr (Or.inr (Or.inl rfl)))))))
            · exact Or.inr (Or.inr (Or.inr (Or.inr (Or.inr (Or.inr (Or.inr (Or.inr rfl)))))))
          | false => simp at h4
        · exact Or.inl (List.all_eq_true.mp hhost c h4)
      · exact Or.inr (Or.inl (List.all_eq_true.mp hpath c h3))
    · cases slash with
      | true =>
        rcases List.mem_singleton.mp h2 with rfl
        exact Or.inr (Or.inr (Or.inr (Or.inr (Or.inr (Or.inr (Or.inl rfl))))))
      | false => simp at h2
  · unfold renderQuery at h1
    by_cases hps0 : ps = []
    · rw [if_pos hps0] at h1
      simp at h1
    · rw [if_neg hps0] at h1
      rcases List.mem_cons.mp h1 with rfl | h2
      · exact Or.inr (Or.inr (Or.inr (Or.inl rfl)))
      · rcases renderParams_chars hps h2 with h3 | h3 | h3
        · exact Or.inr (Or.inr (Or.inl h3))
        · exact Or.inr (Or.inr (Or.inr (Or.inr (Or.inl h3))))
        · exact Or.inr (Or.inr (Or.inr (Or.inr (Or.inr (Or.inl h3)))))

/-- A quote-safe character is unchanged by `quote_plus`. -/
theorem quotePlusChar_safe {c : Char} (h : alwaysSafe c = true) :
    quotePlusChar c = [c] := by
  unfold quotePlusChar
  rw [if_pos h]

/-- `quote_plus` of a safe string is the identity. -/
theorem quotePlus_eq_self : ∀ {l : List Char}, (∀ c ∈ l, alwaysSafe c = true) →
    quotePlus l = l := by
  intro l
  induction l with
  | nil => intro h; rfl
  | cons x xs ih =>
    intro h
    unfold quotePlus at ih ⊢
    rw [List.flatMap_cons, quotePlusChar_safe (h x (List.mem_cons_self _ _)),
      ih (fun c hc => h c (List.mem_cons_of_mem _ hc))]
    rfl

/-- Percent-decoding a percent-free string is the identity. -/
theorem unquoteAscii_eq_self : ∀ {l : List Char}, '%' ∉ l → unquoteAscii l = l := by
  intro l
  induction l with
  | nil => intro h; rfl
  | cons c rest ih =>
    intro h
    simp only [List.mem_cons, not_or] at h
    rw [unquoteAscii]
    · rw [ih h.2]
    · intro a b r2 hc _
      exact h.1 hc.symm

/-- Plus-percent decoding of a plus- and percent-free string is the identity. -/
theorem unquotePlus_eq_self {l : List Char} (hplus : '+' ∉ l) (hpct : '%' ∉ l) :
    unquotePlus l = l := by
  unfold unquotePlus
  have hmap : l.map (fun c => if c = '+' then ' ' else c) = l :=
    map_eq_self_of_mem (fun c hc => if_neg (fun he : c = '+' => hplus (he ▸ hc)))
  rw [hmap]
  exact unquoteAscii_eq_self hpct

/-- A `filterMap` that keeps every member unchanged is the identity. -/
theorem filterMap_eq_self_of {α : Type} (h : α → Option α) :
    ∀ l : List α, (∀ x ∈ l, h x = some x) → l.filterMap h = l := by
  intro l
  induction l with
  | nil => intro _; rfl
  | cons x xs ih =>
    intro hx
    rw [List.filterMap_cons, hx x (List.mem_cons_self _ _),
      ih (fun y hy => hx y (List.mem_cons_of_mem _ hy))]

/-- `parse_qsl` inverts `renderParams` on safe parameter lists. -/
theorem parse_qsl_render {ps : List (List Char × List Char)}
    (hsafe : ∀ kv ∈ ps, kv.1.all alwaysSafe = true ∧ kv.2.all alwaysSafe = true) :
    parse_qsl (renderParams ps) = ps := by
  by_cases hps0 : ps = []
  · subst hps0
    rfl
  · unfold parse_qsl renderParams
    have hfree : ∀ p ∈ ps.map (fun kv => kv.1 ++ '=' :: kv.2), '&' ∉ p := by
      intro p hp
      rcases List.mem_map.mp hp with ⟨kv, hkv, rfl⟩
      intro hmem
      rcases List.mem_append.mp hmem with h1 | h1
      · exact absurd (List.all_eq_true.mp (hsafe kv hkv).1 _ h1) (by decide)
      · rcases List.mem_cons.mp h1 with h2 | h2
        · exact absurd h2 (by decide)
        · exact absurd (List.all_eq_true.mp (hsafe kv hkv).2 _ h2) (by decide)
    rw [splitSep_intercalate (by
      intro hmap
      exact hps0 (by simpa using hmap)) hfree]
    rw [List.filterMap_map]
    apply filterMap_eq_self_of
    intro kv hkv
    dsimp only [Function.comp]
    have hne : kv.1 ++ '=' :: kv.2 ≠ [] := by simp
    rw [if_neg hne]
    have heq : '=' ∉ kv.1 := fun hmem =>
      absurd (List.all_eq_true.mp (hsafe kv hkv).1 _ hmem) (by decide)
    rw [breakFirst_append heq]
    dsimp only
    have h1 : '+' ∉ kv.1 := fun hm =>
      absurd (List.all_eq_true.mp (hsafe kv hkv).1 _ hm) (by decide)
    have h2 : '%' ∉ kv.1 := fun hm =>
      absurd (List.all_eq_true.mp (hsafe kv hkv).1 _ hm) (by decide)
    have h3 : '+' ∉ kv.2 := fun hm =>
      absurd (List.all_eq_true.mp (hsafe kv hkv).2 _ hm) (by decide)
    have h4 : '%' ∉ kv.2 := fun hm =>
      absurd (List.all_eq_true.mp (hsafe kv hkv).2 _ hm) (by decide)
    rw [unquotePlus_eq_self h1 h2, unquotePlus_eq_self h3 h4]

/-- `urlencode` renders a safe parameter list verbatim. -/
theorem urlencode_render {ps : List (List Char × List Char)}
    (hsafe : ∀ kv ∈ ps, kv.1.all alwaysSafe = true ∧ kv.2.all alwaysSafe = true) :
    urlencode ps = renderParams ps := by
  unfold urlencode renderParams
  congr 1
  induction ps with
  | nil => rfl
  | cons kv rest ih =>
    rw [List.map_cons, List.map_cons]
    rw [quotePlus_eq_self (List.all_eq_true.mp (hsafe kv (List.mem_cons_self _ _)).1),
      quotePlus_eq_self (List.all_eq_true.mp (hsafe kv (List.mem_cons_self _ _)).2)]
    rw [ih (fun kv2 h2 => hsafe kv2 (List.mem_cons_of_mem _ h2))]

/-- A nonempty parameter list renders to a nonempty string. -/
theorem renderParams_ne_nil {kv : List Char × List Char}
    {rest : List (List Char × List Char)} : renderParams (kv :: rest) ≠ [] := by
  unfold renderParams
  rw [List.map_cons, intercalate_cons]
  simp

/-- `urlsplit`'s scheme split on an explicitly schemed URL. -/
theorem splitScheme_render {sn rest : List Char} (hne : sn ≠ [])
    (halpha : (sn.headD ' ').isAlpha = true) (hall : sn.all schemeChar = true)
    (hcolon : ':' ∉ sn) :
    splitScheme (sn ++ ':' :: rest) = (lowerL sn, rest) := by
  unfold splitScheme
  rw [breakFirst_append hcolon]
  dsimp only
  rw [if_pos ⟨hne, halpha, hall⟩]

/-- Splitting an append at the boundary where the predicate first fails. -/
theorem takeWhile_dropWhile_split {a b : List Char} (p : Char → Bool)
    (ha : ∀ c ∈ a, p c = true)
    (hb : ∀ d, b.head? = some d → p d = false) :
    (a ++ b).takeWhile p = a ∧ (a ++ b).dropWhile p = b := by
  constructor
  · rw [List.takeWhile_append_of_pos ha]
    cases b with
    | nil => simp
    | cons d t =>
      rw [List.takeWhile_cons_of_neg (by simp [hb d rfl])]
      simp
  · rw [List.dropWhile_append_of_pos ha]
    exact dropWhile_eq_self_of_head_fail p b hb

/-- ASCII lowering of a character either fixes it or shifts an upper-case
letter down by 32. -/
theorem toLower_toNat (c : Char) : (Char.toLower c).toNat = c.toNat ∨
    ((Char.toLower c).toNat = c.toNat + 32 ∧ 65 ≤ c.toNat ∧ c.toNat ≤ 90) := by
  unfold Char.toLower
  dsimp only
  by_cases h : c.toNat ≥ 65 ∧ c.toNat ≤ 90
  · rw [if_pos h]
    right
    refine ⟨?_, h.1, h.2⟩
    unfold Char.ofNat
    rw [dif_pos (Or.inl (by omega) : (c.toNat + 32).isValidChar)]
    rfl
  · rw [if_neg h]
    left
    rfl

/-- Lowering never produces a slash from a non-slash. -/
theorem toLower_ne_slash {c : Char} (h : c ≠ '/') : Char.toLower c ≠ '/' := by
  intro hcon
  have h1 := congrArg Char.toNat hcon
  have h2 : ('/' : Char).toNat = 47 := rfl
  rcases toLower_toNat c with h3 | ⟨h3, h4, h5⟩
  · have h6 : c.toNat = 47 := by omega
    have h7 := (Char.ofNat_toNat c).symm
    rw [h6] at h7
    rw [h7] at h
    exact h (by decide)
  · omega

/-- Stripping the two leading slashes of a `urlunsplit` result. -/
theorem lstripSlash_double {host X : List Char} (hne : host ≠ [])
    (hall : host.all hostChar = true) :
    lstripSlash ('/' :: '/' :: (lowerL host ++ X)) = lowerL host ++ X := by
  unfold lstripSlash
  rw [List.dropWhile_cons_of_pos (by decide), List.dropWhile_cons_of_pos (by decide)]
  cases host with
  | nil => exact absurd rfl hne
  | cons h0 t =>
    unfold lowerL
    rw [List.map_cons, List.cons_append]
    have h0c : hostChar h0 = true := List.all_eq_true.mp hall h0 (List.mem_cons_self _ _)
    have h0ne : h0 ≠ '/' := fun he => absurd (he ▸ h0c) (by decide)
    rw [List.dropWhile_cons_of_neg (by simpa using toLower_ne_slash h0ne)]

/-- The three netloc-delimiting characters. -/
theorem netlocDelim_cases {c : Char} (h : netlocDelim c = true) :
    c = '/' ∨ c = '?' ∨ c = '#' := by
  unfold netlocDelim at h
  simp only [Bool.or_eq_true, decide_eq_true_eq] at h
  tauto

/-- Evaluation of `urlsplit` on a rendered structured URL. -/
theorem urlsplitE_render (sn : List Char) (www : Bool) (host path : List Char)
    (slash : Bool) (ps : List (List Char × List Char))
    (hsn : sn = "http".toList ∨ sn = "https".toList)
    (hwf : wfParts host path ps) :
    urlsplitE (sn ++ ':' :: '/' :: '/' ::
        (((if www then "www.".toList else []) ++ host) ++
          (path ++ (if slash then ['/'] else []) ++ renderQuery ps))) =
      some ⟨lowerL sn, (if www then "www.".toList else []) ++ host,
        path ++ (if slash then ['/'] else []),
        (if ps = [] then [] else renderParams ps), []⟩ := by
  obtain ⟨hhne, hhostall, hwww, hbing, hpathwf, hps⟩ := hwf
  have hpathall : path.all pathChar = true := by
    rcases hpathwf with rfl | h
    · rfl
    · exact h.2.2
  set W := (if www then "www.".toList else []) with hWdef
  set S := (if slash then ['/'] else []) with hSdef
  set Q := renderQuery ps with hQdef
  have hWmem : ∀ {c : Char}, c ∈ W → c = 'w' ∨ c = '.' := by
    intro c hc
    rw [hWdef] at hc
    cases www with
    | true =>
      rw [if_pos rfl] at hc
      rw [show ("www.".toList) = 'w' :: 'w' :: 'w' :: '.' :: [] from rfl] at hc
      simpa using hc
    | false => simp at hc
  have hSmem : ∀ {c : Char}, c ∈ S → c = '/' := by
    intro c hc
    rw [hSdef] at hc
    cases slash with
    | true => simpa using hc
    | false => simp at hc
  have hQmem : ∀ {c : Char}, c ∈ Q →
      alwaysSafe c = true ∨ c = '&' ∨ c = '=' ∨ c = '?' := by
    intro c hc
    rw [hQdef] at hc
    unfold renderQuery at hc
    by_cases hps0 : ps = []
    · rw [if_pos hps0] at hc
      simp at hc
    · rw [if_neg hps0] at hc
      rcases List.mem_cons.mp hc with rfl | h2
      · exact Or.inr (Or.inr (Or.inr rfl))
      · rcases renderParams_chars hps h2 with h3 | h3 | h3
        · exact Or.inl h3
        · exact Or.inr (Or.inl h3)
        · exact Or.inr (Or.inr (Or.inl h3))
  have hTmem : ∀ {c : Char}, c ∈ (W ++ host) ++ (path ++ S ++ Q) →
      c = 'w' ∨ c = '.' ∨ hostChar c = true ∨ pathChar c = true ∨ c = '/' ∨
        alwaysSafe c = true ∨ c = '&' ∨ c = '=' ∨ c = '?' := by
    intro c hc
    rcases List.mem_append.mp hc with h1 | h1
    · rcases List.mem_append.mp h1 with h2 | h2
      · rcases hWmem h2 with rfl | rfl
        · exact Or.inl rfl
        · exact Or.inr (Or.inl rfl)
      · exact Or.inr (Or.inr (Or.inl (List.all_eq_true.mp hhostall c h2)))
    · rcases List.mem_append.mp h1 with h2 | h2
      · rcases List.mem_append.mp h2 with h3 | h3
        · exact Or.inr (Or.inr (Or.inr (Or.inl (List.all_eq_true.mp hpathall c h3))))
        · exact Or.inr (Or.inr (Or.inr (Or.inr (Or.inl (hSmem h3)))))
      · rcases hQmem h2 with h3 | h3 | h3 | h3
        · exact Or.inr (Or.inr (Or.inr (Or.inr (Or.inr (Or.inl h3)))))
        · exact Or.inr (Or.inr (Or.inr (Or.inr (Or.inr (Or.inr (Or.inl h3))))))
        · exact Or.inr (Or.inr (Or.inr (Or.inr (Or.inr (Or.inr (Or.inr (Or.inl h3)))))))
        · exact Or.inr (Or.inr (Or.inr (Or.inr (Or.inr (Or.inr (Or.inr (Or.inr h3)))))))
  unfold urlsplitE
  dsimp only
  have hfil : (sn ++ ':' :: '/' :: '/' :: ((W ++ host) ++ (path ++ S ++ Q))).filter
      (fun c => ¬(c = '\t' ∨ c = '\r' ∨ c = '\n')) =
      sn ++ ':' :: '/' :: '/' :: ((W ++ host) ++ (path ++ S ++ Q)) := by
    apply List.filter_eq_self.mpr
    intro c hc
    rw [decide_eq_true_eq]
    intro hd
    rcases List.mem_append.mp hc with h1 | h1
    · rcases hsn with rfl | rfl
      · rcases hd with rfl | rfl | rfl <;> exact absurd h1 (by decide)
      · rcases hd with rfl | rfl | rfl <;> exact absurd h1 (by decide)
    · rcases List.mem_cons.mp h1 with h2 | h1
      · rcases hd with rfl | rfl | rfl <;> exact absurd h2 (by decide)
      · rcases List.mem_cons.mp h1 with h2 | h1
        · rcases hd with rfl | rfl | rfl <;> exact absurd h2 (by decide)
        · rcases List.mem_cons.mp h1 with h2 | h1
          · rcases hd with rfl | rfl | rfl <;> exact absurd h2 (by decide)
          · rcases hd with rfl | rfl | rfl <;>
              (rcases hTmem h1 with h | h | h | h | h | h | h | h | h <;>
                exact absurd h (by decide))
  rw [hfil]
  rw [splitScheme_render (by rcases hsn with rfl | rfl <;> decide)
    (by rcases hsn with rfl | rfl <;> decide) (by rcases hsn with rfl | rfl <;> decide)
    (by rcases hsn with rfl | rfl <;> decide)]
  dsimp only
  have hpre : ("//".toList).isPrefixOf ('/' :: '/' :: ((W ++ host) ++ (path ++ S ++ Q))) =
      true := by
    simp [List.isPrefixOf]
  rw [if_pos hpre]
  dsimp only
  rw [show ('/' :: '/' :: ((W ++ host) ++ (path ++ S ++ Q))).drop 2 =
    (W ++ host) ++ (path ++ S ++ Q) from rfl]
  obtain ⟨htake, hdrop⟩ := @takeWhile_dropWhile_split
    (W ++ host) (path ++ S ++ Q)
    (fun c => ¬ netlocDelim c = true)
    (by
      intro c hc
      rw [decide_eq_true_eq]
      intro hdel
      rcases List.mem_append.mp hc with h1 | h1
      · rcases hWmem h1 with rfl | rfl <;> exact absurd hdel (by decide)
      · have := List.all_eq_true.mp hhostall c h1
        rcases netlocDelim_cases hdel with rfl | rfl | rfl <;>
          exact absurd this (by decide))
    (by
      intro d hd
      cases hpz : path with
      | cons p0 pt =>
        rw [hpz] at hd
        rw [List.cons_append, List.cons_append, List.head?_cons] at hd
        have hd0 := Option.some.inj hd
        rcases hpathwf with hnil | hwf2
        · rw [hpz] at hnil
          exact absurd hnil (by simp)
        · have hp0 : p0 = '/' := by
            have := hwf2.1
            rw [hpz, List.head?_cons] at this
            exact Option.some.inj this
          rw [decide_eq_false_iff_not]
          rw [← hd0, hp0]
          simp [netlocDelim]
      | nil =>
        rw [hpz] at hd
        rw [List.nil_append] at hd
        cases hsl : slash with
        | true =>
          rw [hSdef, hsl, if_pos rfl] at hd
          rw [List.cons_append, List.head?_cons] at hd
          have hd0 := Option.some.inj hd
          rw [decide_eq_false_iff_not, ← hd0]
          simp [netlocDelim]
        | false =>
          rw [hSdef, hsl, if_neg (by simp)] at hd
          rw [List.nil_append] at hd
          rw [hQdef] at hd
          unfold renderQuery at hd
          by_cases hps0 : ps = []
          · rw [if_pos hps0] at hd
            simp at hd
          · rw [if_neg hps0] at hd
            rw [List.head?_cons] at hd
            have hd0 := Option.some.inj hd
            rw [decide_eq_false_iff_not, ← hd0]
            simp [netlocDelim])
  rw [htake, hdrop]
  have hbr : ¬ (('[' ∈ W ++ host ∧ ']' ∉ W ++ host) ∨
      (']' ∈ W ++ host ∧ '[' ∉ W ++ host)) := by
    rw [not_or]
    constructor
    · intro hcon
      rcases List.mem_append.mp hcon.1 with h1 | h1
      · rcases hWmem h1 with h2 | h2 <;> exact absurd h2 (by decide)
      · exact absurd (List.all_eq_true.mp hhostall _ h1) (by decide)
    · intro hcon
      rcases List.mem_append.mp hcon.1 with h1 | h1
      · rcases hWmem h1 with h2 | h2 <;> exact absurd h2 (by decide)
      · exact absurd (List.all_eq_true.mp hhostall _ h1) (by decide)
  rw [if_neg hbr]
  have hnohash : '#' ∉ path ++ S ++ Q := by
    intro hcon
    rcases List.mem_append.mp hcon with h1 | h1
    · rcases List.mem_append.mp h1 with h2 | h2
      · exact absurd (List.all_eq_true.mp hpathall _ h2) (by decide)
      · exact absurd (hSmem h2) (by decide)
    · rcases hQmem h1 with h2 | h2 | h2 | h2 <;> exact absurd h2 (by decide)
  rw [breakFirst_not_mem hnohash]
  dsimp only
  have hnoq : '?' ∉ path ++ S := by
    intro hcon
    rcases List.mem_append.mp hcon with h1 | h1
    · exact absurd (List.all_eq_true.mp hpathall _ h1) (by decide)
    · exact absurd (hSmem h1) (by decide)
  by_cases hps0 : ps = []
  · have hq0 : Q = [] := by
      rw [hQdef]
      unfold renderQuery
      rw [if_pos hps0]
    rw [hq0, List.append_nil]
    rw [breakFirst_not_mem hnoq]
    dsimp only
    rw [if_pos hps0]
  · have hq1 : Q = '?' :: renderParams ps := by
      rw [hQdef]
      unfold renderQuery
      rw [if_neg hps0]
    rw [hq1]
    rw [breakFirst_append hnoq]
    dsimp only
    rw [if_neg hps0]

/-- Evaluation of the shared canonicalizer tail on rendered parts. -/
theorem normalizeTail_render (host path : List Char) (slash : Bool)
    (ps : List (List Char × List Char)) (parts : UrlParts)
    (hpath : parts.path = path ++ (if slash then ['/'] else []))
    (hquery : parts.query = (if ps = [] then [] else renderParams ps))
    (hwf : wfParts host path ps) :
    normalizeTail parts (lowerL host) =
      canonKey host path
        (ps.filter (fun kv => ¬ isTrackingLower (lowerL kv.1) = true)) := by
  obtain ⟨hhne, hhostall, hwww, hbing, hpathwf, hps⟩ := hwf
  have hlny : lowerL host ≠ [] := by
    unfold lowerL
    intro hc
    exact hhne (List.map_eq_nil_iff.mp hc)
  unfold normalizeTail
  dsimp only
  rw [hpath, hquery]
  have hPeq : (if 1 < (if path ++ (if slash then ['/'] else []) = [] then "/".toList
        else path ++ (if slash then ['/'] else [])).length ∧
        (if path ++ (if slash then ['/'] else []) = [] then "/".toList
        else path ++ (if slash then ['/'] else [])).getLast? = some '/' then
      (if path ++ (if slash then ['/'] else []) = [] then "/".toList
        else path ++ (if slash then ['/'] else [])).dropLast
    else (if path ++ (if slash then ['/'] else []) = [] then "/".toList
        else path ++ (if slash then ['/'] else []))) =
      (if path = [] then ['/'] else path) := by
    by_cases hpz : path = []
    · subst hpz
      cases slash with
      | false => decide
      | true => decide
    · have hglast : path.getLast? ≠ some '/' := by
        rcases hpathwf with h | h
        · exact absurd h hpz
        · exact h.2.1
      cases slash with
      | false =>
        rw [show (if (false = true) then (['/'] : List Char) else []) = [] from rfl]
        rw [List.append_nil]
        rw [if_neg hpz]
        rw [if_neg (fun hc => hglast hc.2)]
        rw [if_neg hpz]
      | true =>
        rw [show (if (true = true) then (['/'] : List Char) else []) = ['/'] from rfl]
        have hne2 : path ++ ['/'] ≠ [] := by simp
        rw [if_neg hne2]
        have hlen1 : 1 ≤ path.length := by
          cases path with
          | nil => exact absurd rfl hpz
          | cons a b => simp
        have hcond : 1 < (path ++ ['/']).length ∧ (path ++ ['/']).getLast? = some '/' := by
          constructor
          · rw [List.length_append]
            simp only [List.length_cons, List.length_nil]
            omega
          · rw [List.getLast?_concat]
        rw [if_pos hcond, List.dropLast_concat, if_neg hpz]
  rw [hPeq]
  have hPpre : ("/".toList).isPrefixOf (if path = [] then ['/'] else path) = true := by
    by_cases hpz : path = []
    · rw [if_pos hpz]
      decide
    · rw [if_neg hpz]
      rcases hpathwf with h | h
      · exact absurd h hpz
      · cases path with
        | nil => exact absurd rfl hpz
        | cons p0 pt =>
          have hp0 : p0 = '/' := by
            have := h.1
            rw [List.head?_cons] at this
            exact Option.some.inj this
          subst hp0
          simp [List.isPrefixOf]
  by_cases hps0 : ps = []
  · subst hps0
    rw [show (if ([] : List (List Char × List Char)) = [] then ([] : List Char)
      else renderParams []) = [] from rfl]
    rw [show parse_qsl [] = [] from rfl]
    rw [List.filter_nil]
    rw [show urlencode [] = [] from rfl]
    unfold urlunsplit
    dsimp only
    rw [if_neg (by simp : ¬(([] : List Char) ≠ []))]
    rw [if_neg (by simp : ¬(([] : List Char) ≠ []))]
    rw [if_neg (by simp : ¬(([] : List Char) ≠ []))]
    rw [if_pos (Or.inl hlny)]
    rw [if_neg (fun hc => hc.2 hPpre)]
    rw [show ("//".toList) ++ lowerL host ++ (if path = [] then ['/'] else path) =
      '/' :: '/' :: (lowerL host ++ (if path = [] then ['/'] else path)) from by simp]
    rw [lstripSlash_double hhne hhostall]
    unfold canonKey
    rw [if_pos rfl, List.append_nil]
  · rw [if_neg hps0]
    rw [parse_qsl_render hps]
    have hKsafe : ∀ kv ∈ ps.filter (fun kv => ¬ isTrackingLower (lowerL kv.1) = true),
        kv.1.all alwaysSafe = true ∧ kv.2.all alwaysSafe = true :=
      fun kv hkv => hps kv (List.mem_filter.mp hkv).1
    rw [urlencode_render hKsafe]
    by_cases hk0 : ps.filter (fun kv => ¬ isTrackingLower (lowerL kv.1) = true) = []
    · rw [hk0]
      rw [show renderParams [] = [] from rfl]
      unfold urlunsplit
      dsimp only
      rw [if_neg (by simp : ¬(([] : List Char) ≠ []))]
      rw [if_neg (by simp : ¬(([] : List Char) ≠ []))]
      rw [if_neg (by simp : ¬(([] : List Char) ≠ []))]
      rw [if_pos (Or.inl hlny)]
      rw [if_neg (fun hc => hc.2 hPpre)]
      rw [show ("//".toList) ++ lowerL host ++ (if path = [] then ['/'] else path) =
        '/' :: '/' :: (lowerL host ++ (if path = [] then ['/'] else path)) from by simp]
      rw [lstripSlash_double hhne hhostall]
      unfold canonKey
      rw [if_pos rfl, List.append_nil]
    · have hqne : renderParams (ps.filter
          (fun kv => ¬ isTrackingLower (lowerL kv.1) = true)) ≠ [] := by
        cases hKc : ps.filter (fun kv => ¬ isTrackingLower (lowerL kv.1) = true) with
        | nil => exact absurd hKc hk0
        | cons kv rest =>
          exact renderParams_ne_nil
      unfold urlunsplit
      dsimp only
      rw [if_neg (by simp : ¬(([] : List Char) ≠ []))]
      rw [if_pos hqne]
      rw [if_neg (by simp : ¬(([] : List Char) ≠ []))]
      rw [if_pos (Or.inl hlny)]
      rw [if_neg (fun hc => hc.2 hPpre)]
      rw [show ("//".toList) ++ lowerL host ++ (if path = [] then ['/'] else path) ++
          '?' :: renderParams (ps.filter (fun kv => ¬ isTrackingLower (lowerL kv.1) = true)) =
        '/' :: '/' :: (lowerL host ++ ((if path = [] then ['/'] else path) ++
          '?' :: renderParams (ps.filter (fun kv => ¬ isTrackingLower (lowerL kv.1) = true))))
        from by simp]
      rw [lstripSlash_double hhne hhostall]
      unfold canonKey
      rw [if_neg hk0]
      rw [List.append_assoc]

/-- The `www.`-strip of the canonicalizer on a rendered host. -/
theorem www_strip_eval (www : Bool) (host : List Char)
    (hwww : ¬ ("www.".toList).isPrefixOf (lowerL host) = true) :
    (if ("www.".toList).isPrefixOf (lowerL ((if www then "www.".toList else []) ++ host)) =
        true
     then (lowerL ((if www then "www.".toList else []) ++ host)).drop 4
     else lowerL ((if www then "www.".toList else []) ++ host)) = lowerL host := by
  cases www with
  | true =>
    rw [show (if (true = true) then ("www.".toList) else ([] : List Char)) =
      "www.".toList from rfl]
    rw [show lowerL ("www.".toList ++ host) = "www.".toList ++ lowerL host from by
      unfold lowerL
      rw [List.map_append]
      rw [show List.map Char.toLower ("www.".toList) = "www.".toList from by decide]]
    rw [if_pos (isPrefixOf_append_self _ _)]
    rw [show ("www.".toList ++ lowerL host).drop 4 = lowerL host from by
      rw [show (4 : Nat) = ("www.".toList).length from rfl, List.drop_left]]
  | false =>
    rw [show (if (false = true) then ("www.".toList) else ([] : List Char)) = [] from rfl]
    rw [List.nil_append]
    rw [if_neg hwww]

/-- Master evaluation: `normalize_url_key` on a rendered well-formed URL
produces exactly the canonical key (lower-cased host, `www.` and scheme
removed, `/`-defaulted slash-trimmed path, tracking parameters dropped). -/
theorem normalize_render (scheme : List Char) (www : Bool) (host path : List Char)
    (slash : Bool) (ps : List (List Char × List Char))
    (hs : wfScheme scheme) (hwf : wfParts host path ps) :
    normalize_url_key (renderUrl scheme www host path slash ps) =
      some (canonKey host path
        (ps.filter (fun kv => ¬ isTrackingLower (lowerL kv.1) = true))) := by
  have hwf2 := hwf
  obtain ⟨hhne, hhostall, hwww, hbing, hpathwf, hps⟩ := hwf2
  have hpathall : path.all pathChar = true := by
    rcases hpathwf with rfl | h
    · rfl
    · exact h.2.2
  have hRne : renderUrl scheme www host path slash ps ≠ [] := by
    unfold renderUrl
    intro hc
    have hlen := congrArg List.length hc
    simp only [List.length_append, List.length_nil] at hlen
    exact hhne (List.length_eq_zero.mp (by omega))
  rcases hs with rfl | rfl | rfl
  · have hRmem : ∀ {c : Char}, c ∈ renderUrl [] www host path slash ps →
        hostChar c = true ∨ pathChar c = true ∨ alwaysSafe c = true ∨
          c = '?' ∨ c = '&' ∨ c = '=' ∨ c = '/' ∨ c = 'w' ∨ c = '.' := by
      intro c hc
      unfold renderUrl at hc
      rw [List.nil_append] at hc
      exact renderTail_chars hhostall hpathall hps hc
    have hnospace : ∀ c ∈ renderUrl [] www host path slash ps, isPySpace c = false := by
      intro c hc
      cases hspc : isPySpace c with
      | false => rfl
      | true =>
        exfalso
        rcases isPySpace_cases hspc with rfl | rfl | rfl | rfl | rfl | rfl <;>
          rcases hRmem hc with h | h | h | h | h | h | h | h | h <;>
            exact absurd h (by decide)
    have hstrip := pyStrip_eq_self hnospace
    unfold normalize_url_key
    rw [normalizeFuel]
    rw [if_neg hRne]
    dsimp only
    rw [hstrip]
    rw [if_neg hRne]
    have hcs : containsSub ("://".toList) (renderUrl [] www host path slash ps) = false := by
      apply containsSub_eq_false_of_head_not_mem
        (show ("://".toList) = ':' :: ("://".toList).tail from rfl)
      intro hc
      rcases hRmem hc with h | h | h | h | h | h | h | h | h <;> exact absurd h (by decide)
    rw [if_neg (by rw [hcs]; decide)]
    have hshape : "https://".toList ++ renderUrl [] www host path slash ps =
        "https".toList ++ ':' :: '/' :: '/' ::
          (((if www then "www.".toList else []) ++ host) ++
            (path ++ (if slash then ['/'] else []) ++ renderQuery ps)) := by
      unfold renderUrl
      rw [show ("https://".toList) =
        'h' :: 't' :: 't' :: 'p' :: 's' :: ':' :: '/' :: '/' :: [] from rfl]
      rw [show ("https".toList) = 'h' :: 't' :: 't' :: 'p' :: 's' :: [] from rfl]
      simp [List.append_assoc]
    rw [hshape]
    rw [urlsplitE_render "https".toList www host path slash ps (Or.inr rfl) hwf]
    dsimp only
    rw [www_strip_eval www host hwww]
    rw [if_neg (fun hc => hbing hc.1)]
    rw [normalizeTail_render host path slash ps _ rfl rfl hwf]
  · have hRmem : ∀ {c : Char}, c ∈ renderUrl "http://".toList www host path slash ps →
        c ∈ "http://".toList ∨ (hostChar c = true ∨ pathChar c = true ∨
          alwaysSafe c = true ∨ c = '?' ∨ c = '&' ∨ c = '=' ∨ c = '/' ∨
          c = 'w' ∨ c = '.') := by
      intro c hc
      unfold renderUrl at hc
      rw [List.append_assoc, List.append_assoc, List.append_assoc, List.append_assoc] at hc
      rcases List.mem_append.mp hc with h1 | h1
      · exact Or.inl h1
      · exact Or.inr (renderTail_chars hhostall hpathall hps
          (by simpa only [List.append_assoc] using h1))
    have hnospace : ∀ c ∈ renderUrl "http://".toList www host path slash ps,
        isPySpace c = false := by
      intro c hc
      cases hspc : isPySpace c with
      | false => rfl
      | true =>
        exfalso
        rcases isPySpace_cases hspc with rfl | rfl | rfl | rfl | rfl | rfl <;>
          rcases hRmem hc with h | h | h | h | h | h | h | h | h | h <;>
            exact absurd h (by decide)
    have hstrip := pyStrip_eq_self hnospace
    unfold normalize_url_key
    rw [normalizeFuel]
    rw [if_neg hRne]
    dsimp only
    rw [hstrip]
    rw [if_neg hRne]
    have hcs : containsSub ("://".toList)
        (renderUrl "http://".toList www host path slash ps) = true := by
      rw [show renderUrl "http://".toList www host path slash ps =
        ("http".toList ++ "://".toList) ++
          ((if www then "www.".toList else []) ++ (host ++ (path ++
            ((if slash then ['/'] else []) ++ renderQuery ps)))) from by
        unfold renderUrl
        rw [show ("http://".toList) = "http".toList ++ "://".toList from rfl]
        simp [List.append_assoc]]
      exact containsSub_of_append _ _ _
    rw [if_pos hcs]
    have hshape : renderUrl "http://".toList www host path slash ps =
        "http".toList ++ ':' :: '/' :: '/' ::
          (((if www then "www.".toList else []) ++ host) ++
            (path ++ (if slash then ['/'] else []) ++ renderQuery ps)) := by
      unfold renderUrl
      rw [show ("http://".toList) =
        'h' :: 't' :: 't' :: 'p' :: ':' :: '/' :: '/' :: [] from rfl]
      rw [show ("http".toList) = 'h' :: 't' :: 't' :: 'p' :: [] from rfl]
      simp [List.append_assoc]
    rw [hshape]
    rw [urlsplitE_render "http".toList www host path slash ps (Or.inl rfl) hwf]
    dsimp only
    rw [www_strip_eval www host hwww]
    rw [if_neg (fun hc => hbing hc.1)]
    rw [normalizeTail_render host path slash ps _ rfl rfl hwf]
  · have hRmem : ∀ {c : Char}, c ∈ renderUrl "https://".toList www host path slash ps →
        c ∈ "https://".toList ∨ (hostChar c = true ∨ pathChar c = true ∨
          alwaysSafe c = true ∨ c = '?' ∨ c = '&' ∨ c = '=' ∨ c = '/' ∨
          c = 'w' ∨ c = '.') := by
      intro c hc
      unfold renderUrl at hc
      rw [List.append_assoc, List.append_assoc, List.append_assoc, List.append_assoc] at hc
      rcases List.mem_append.mp hc with h1 | h1
      · exact Or.inl h1
      · exact Or.inr (renderTail_chars hhostall hpathall hps
          (by simpa only [List.append_assoc] using h1))
    have hnospace : ∀ c ∈ renderUrl "https://".toList www host path slash ps,
        isPySpace c = false := by
      intro c hc
      cases hspc : isPySpace c with
      | false => rfl
      | true =>
        exfalso
        rcases isPySpace_cases hspc with rfl | rfl | rfl | rfl | rfl | rfl <;>
          rcases hRmem hc with h | h | h | h | h | h | h | h | h | h <;>
            exact absurd h (by decide)
    have hstrip := pyStrip_eq_self hnospace
    unfold normalize_url_key
    rw [normalizeFuel]
    rw [if_neg hRne]
    dsimp only
    rw [hstrip]
    rw [if_neg hRne]
    have hcs : containsSub ("://".toList)
        (renderUrl "https://".toList www host path slash ps) = true := by
      rw [show renderUrl "https://".toList www host path slash ps =
        ("https".toList ++ "://".toList) ++
          ((if www then "www.".toList else []) ++ (host ++ (path ++
            ((if slash then ['/'] else []) ++ renderQuery ps)))) from by
        unfold renderUrl
        rw [show ("https://".toList) = "https".toList ++ "://".toList from rfl]
        simp [List.append_assoc]]
      exact containsSub_of_append _ _ _
    rw [if_pos hcs]
    have hshape : renderUrl "https://".toList www host path slash ps =
        "https".toList ++ ':' :: '/' :: '/' ::
          (((if www then "www.".toList else []) ++ host) ++
            (path ++ (if slash then ['/'] else []) ++ renderQuery ps)) := by
      unfold renderUrl
      rw [show ("https://".toList) =
        'h' :: 't' :: 't' :: 'p' :: 's' :: ':' :: '/' :: '/' :: [] from rfl]
      rw [show ("https".toList) = 'h' :: 't' :: 't' :: 'p' :: 's' :: [] from rfl]
      simp [List.append_assoc]
    rw [hshape]
    rw [urlsplitE_render "https".toList www host path slash ps (Or.inr rfl) hwf]
    dsimp only
    rw [www_strip_eval www host hwww]
    rw [if_neg (fun hc => hbing hc.1)]
    rw [normalizeTail_render host path slash ps _ rfl rfl hwf]

/-- `renderParams` is injective on quote-safe parameter lists. -/
theorem renderParams_inj {K1 K2 : List (List Char × List Char)}
    (hs1 : ∀ kv ∈ K1, kv.1.all alwaysSafe = true ∧ kv.2.all alwaysSafe = true)
    (hs2 : ∀ kv ∈ K2, kv.1.all alwaysSafe = true ∧ kv.2.all alwaysSafe = true)
    (h : renderParams K1 = renderParams K2) : K1 = K2 := by
  have h2 := congrArg parse_qsl h
  rw [parse_qsl_render hs1, parse_qsl_render hs2] at h2
  exact h2

/-- Canonical keys with the same host and path separate parameter lists. -/
theorem canonKey_inj {host path : List Char} {K1 K2 : List (List Char × List Char)}
    (hs1 : ∀ kv ∈ K1, kv.1.all alwaysSafe = true ∧ kv.2.all alwaysSafe = true)
    (hs2 : ∀ kv ∈ K2, kv.1.all alwaysSafe = true ∧ kv.2.all alwaysSafe = true)
    (h : canonKey host path K1 = canonKey host path K2) : K1 = K2 := by
  unfold canonKey at h
  rw [List.append_assoc, List.append_assoc] at h
  have h1 := List.append_cancel_left h
  have h2 := List.append_cancel_left h1
  by_cases hk1 : K1 = []
  · by_cases hk2 : K2 = []
    · rw [hk1, hk2]
    · rw [if_pos hk1, if_neg hk2] at h2
      exact absurd h2.symm (by simp)
  · by_cases hk2 : K2 = []
    · rw [if_neg hk1, if_pos hk2] at h2
      exact absurd h2 (by simp)
    · rw [if_neg hk1, if_neg hk2] at h2
      exact renderParams_inj hs1 hs2 (by injection h2)

/-- C1: two well-formed URLs over the same host and path that differ only in
scheme, a leading `www.`, a trailing slash, or their query parameters get the
same canonical key exactly when their non-tracking parameters agree: equal
kept parameters give identical keys for any combination of the scheme /
`www.` / trailing-slash variations, and different kept parameters give
different keys. -/
theorem normalize_variants_spec (host path : List Char)
    (s1 s2 : List Char) (w1 w2 sl1 sl2 : Bool)
    (ps1 ps2 : List (List Char × List Char))
    (hs1 : wfScheme s1) (hs2 : wfScheme s2)
    (hwf1 : wfParts host path ps1) (hwf2 : wfParts host path ps2) :
    (ps1.filter (fun kv => ¬ isTrackingLower (lowerL kv.1) = true) =
       ps2.filter (fun kv => ¬ isTrackingLower (lowerL kv.1) = true) →
      normalize_url_key (renderUrl s1 w1 host path sl1 ps1) =
        normalize_url_key (renderUrl s2 w2 host path sl2 ps2)) ∧
    (ps1.filter (fun kv => ¬ isTrackingLower (lowerL kv.1) = true) ≠
       ps2.filter (fun kv => ¬ isTrackingLower (lowerL kv.1) = true) →
      normalize_url_key (renderUrl s1 w1 host path sl1 ps1) ≠
        normalize_url_key (renderUrl s2 w2 host path sl2 ps2)) := by
  constructor
  · intro hfil
    rw [normalize_render s1 w1 host path sl1 ps1 hs1 hwf1,
      normalize_render s2 w2 host path sl2 ps2 hs2 hwf2, hfil]
  · intro hfil
    rw [normalize_render s1 w1 host path sl1 ps1 hs1 hwf1,
      normalize_render s2 w2 host path sl2 ps2 hs2 hwf2]
    intro hcon
    apply hfil
    apply canonKey_inj
      (fun kv hkv => hwf1.2.2.2.2.2 kv (List.mem_filter.mp hkv).1)
      (fun kv hkv => hwf2.2.2.2.2.2 kv (List.mem_filter.mp hkv).1)
    exact Option.some.inj hcon

/-- Witness for C1: `https://www.example.com/a/?utm_source=x&q=1` versus the
bare `example.com/a?q=1`, then a differing non-tracking parameter. -/
theorem normalize_variants_spec_witness :
    normalize_url_key (renderUrl "https://".toList true "example.com".toList
        "/a".toList true
        [("utm_source".toList, "x".toList), ("q".toList, "1".toList)]) =
      normalize_url_key (renderUrl [] false "example.com".toList "/a".toList false
        [("q".toList, "1".toList)]) ∧
    normalize_url_key (renderUrl [] false "example.com".toList "/a".toList false
        [("q".toList, "2".toList)]) ≠
      normalize_url_key (renderUrl [] false "example.com".toList "/a".toList false
        [("q".toList, "1".toList)]) :=
  ⟨(normalize_variants_spec "example.com".toList "/a".toList "https://".toList []
      true false true false
      [("utm_source".toList, "x".toList), ("q".toList, "1".toList)]
      [("q".toList, "1".toList)]
      (by unfold wfScheme; decide) (by unfold wfScheme; decide)
      (by unfold wfParts; decide) (by unfold wfParts; decide)).1 (by decide),
   (normalize_variants_spec "example.com".toList "/a".toList [] []
      false false false false
      [("q".toList, "2".toList)] [("q".toList, "1".toList)]
      (by unfold wfScheme; decide) (by unfold wfScheme; decide)
      (by unfold wfParts; decide) (by unfold wfParts; decide)).2 (by decide)⟩

/-- C10 counterexample: normalize is not idempotent on all inputs — a
double `www.` prefix loses one label per pass, so renormalizing the stored
key changes it. -/
theorem normalize_not_idempotent_counterexample :
    normalize_url_key "https://www.www.example.com/x".toList =
      some "www.example.com/x".toList ∧
    normalize_url_key "www.example.com/x".toList = some "example.com/x".toList := by
  decide

/-- C10 (amended): the canonical key of any well-formed URL whose host is
already lower-case is a fixed point of `normalize_url_key`; renormalizing
such stored keys never changes them.  (Idempotence fails in general: hosts
like `www.www.example.com` lose one `www.` label per pass.) -/
theorem normalize_idempotent_amended (scheme : List Char) (www slash : Bool)
    (host path : List Char) (ps : List (List Char × List Char)) (k : List Char)
    (hs : wfScheme scheme) (hwf : wfParts host path ps)
    (hlower : lowerL host = host)
    (hk : normalize_url_key (renderUrl scheme www host path slash ps) = some k) :
    normalize_url_key k = some k := by
  rw [normalize_render scheme www host path slash ps hs hwf] at hk
  have hkk := Option.some.inj hk
  subst hkk
  have hwf2 := hwf
  obtain ⟨hhne, hhostall, hwww, hbing, hpathwf, hps⟩ := hwf2
  have hKsafe : ∀ kv ∈ ps.filter (fun kv => ¬ isTrackingLower (lowerL kv.1) = true),
      kv.1.all alwaysSafe = true ∧ kv.2.all alwaysSafe = true :=
    fun kv hkv => hps kv (List.mem_filter.mp hkv).1
  have hwfK : wfParts host path
      (ps.filter (fun kv => ¬ isTrackingLower (lowerL kv.1) = true)) :=
    ⟨hhne, hhostall, hwww, hbing, hpathwf, hKsafe⟩
  have hfil : (ps.filter (fun kv => ¬ isTrackingLower (lowerL kv.1) = true)).filter
      (fun kv => ¬ isTrackingLower (lowerL kv.1) = true) =
      ps.filter (fun kv => ¬ isTrackingLower (lowerL kv.1) = true) := by
    rw [List.filter_filter]
    congr 1
    funext kv
    rw [Bool.and_self]
  by_cases hpz : path = []
  · have hshape : canonKey host path
        (ps.filter (fun kv => ¬ isTrackingLower (lowerL kv.1) = true)) =
        renderUrl [] false host [] true
          (ps.filter (fun kv => ¬ isTrackingLower (lowerL kv.1) = true)) := by
      unfold canonKey renderUrl renderQuery
      rw [hlower, if_pos hpz]
      simp [List.append_assoc]
    rw [hshape]
    have hwfK0 : wfParts host []
        (ps.filter (fun kv => ¬ isTrackingLower (lowerL kv.1) = true)) :=
      ⟨hhne, hhostall, hwww, hbing, Or.inl rfl, hKsafe⟩
    rw [normalize_render [] false host [] true _ (Or.inl rfl) hwfK0]
    rw [hfil]
    rw [← hshape, hpz]
  · have hshape : canonKey host path
        (ps.filter (fun kv => ¬ isTrackingLower (lowerL kv.1) = true)) =
        renderUrl [] false host path false
          (ps.filter (fun kv => ¬ isTrackingLower (lowerL kv.1) = true)) := by
      unfold canonKey renderUrl renderQuery
      rw [hlower, if_neg hpz]
      simp [List.append_assoc]
    rw [hshape]
    rw [normalize_render [] false host path false _ (Or.inl rfl) hwfK]
    rw [hfil, ← hshape]

/-- Witness for C10 at `https://www.example.com/a?q=1`. -/
theorem normalize_idempotent_amended_witness :
    normalize_url_key "example.com/a?q=1".toList = some "example.com/a?q=1".toList :=
  normalize_idempotent_amended "https://".toList true false "example.com".toList
    "/a".toList [("q".toList, "1".toList)] "example.com/a?q=1".toList
    (by unfold wfScheme; decide) (by unfold wfParts; decide) (by decide) (by decide)

/-- Every 6-bit value decodes back through the base64 table, and no alphabet
character is the padding character. -/
theorem b64_table : ∀ n, n < 64 → b64Val (b64Char n) = some n ∧ ¬ b64Char n = '=' := by
  decide

/-- Characters emitted by the urlsafe base64 encoder: alphabet or padding. -/
theorem b64urlEncode_chars : ∀ (bs : List Nat), (∀ b ∈ bs, b < 256) →
    ∀ c ∈ b64urlEncode bs, (∃ n, n < 64 ∧ c = b64Char n) ∨ c = '=' := by
  intro bs
  induction bs using b64urlEncode.induct with
  | case1 =>
    intro h c hc
    rw [b64urlEncode] at hc
    exact absurd hc (List.not_mem_nil c)
  | case2 b1 =>
    intro h c hc
    have hb1 : b1 < 256 := h b1 (List.mem_cons_self _ _)
    rw [b64urlEncode] at hc
    simp only [List.mem_cons, List.not_mem_nil, or_false] at hc
    rcases hc with rfl | rfl | rfl | rfl
    · exact Or.inl ⟨b1 / 4, by omega, rfl⟩
    · exact Or.inl ⟨(b1 % 4) * 16, by omega, rfl⟩
    · exact Or.inr rfl
    · exact Or.inr rfl
  | case3 b1 b2 =>
    intro h c hc
    have hb1 : b1 < 256 := h b1 (List.mem_cons_self _ _)
    have hb2 : b2 < 256 := h b2 (List.mem_cons_of_mem _ (List.mem_cons_self _ _))
    rw [b64urlEncode] at hc
    simp only [List.mem_cons, List.not_mem_nil, or_false] at hc
    rcases hc with rfl | rfl | rfl | rfl
    · exact Or.inl ⟨b1 / 4, by omega, rfl⟩
    · exact Or.inl ⟨(b1 % 4) * 16 + b2 / 16, by omega, rfl⟩
    · exact Or.inl ⟨(b2 % 16) * 4, by omega, rfl⟩
    · exact Or.inr rfl
  | case4 b1 b2 b3 rest ih =>
    intro h c hc
    have hb1 : b1 < 256 := h b1 (List.mem_cons_self _ _)
    have hb2 : b2 < 256 := h b2 (List.mem_cons_of_mem _ (List.mem_cons_self _ _))
    have hb3 : b3 < 256 :=
      h b3 (List.mem_cons_of_mem _ (List.mem_cons_of_mem _ (List.mem_cons_self _ _)))
    rw [b64urlEncode] at hc
    simp only [List.mem_cons] at hc
    rcases hc with rfl | rfl | rfl | rfl | hm
    · exact Or.inl ⟨b1 / 4, by omega, rfl⟩
    · exact Or.inl ⟨(b1 % 4) * 16 + b2 / 16, by omega, rfl⟩
    · exact Or.inl ⟨(b2 % 16) * 4 + b3 / 64, by omega, rfl⟩
    · exact Or.inl ⟨b3 % 64, by omega, rfl⟩
    · exact ih (fun b hb => h b (List.mem_cons_of_mem _ (List.mem_cons_of_mem _
        (List.mem_cons_of_mem _ hb)))) c hm

/-- Base64 encoding never shortens the byte list. -/
theorem b64urlEncode_length_ge : ∀ bs : List Nat, bs.length ≤ (b64urlEncode bs).length := by
  intro bs
  induction bs using b64urlEncode.induct with
  | case1 => rw [b64urlEncode]; exact le_rfl
  | case2 b1 => rw [b64urlEncode]; simp
  | case3 b1 b2 => rw [b64urlEncode]; simp
  | case4 b1 b2 b3 rest ih =>
    rw [b64urlEncode]
    simp only [List.length_cons]
    omega

/-- Base64 encoding always emits whole quads. -/
theorem b64urlEncode_mod4 : ∀ bs : List Nat, (b64urlEncode bs).length % 4 = 0 := by
  intro bs
  induction bs using b64urlEncode.induct with
  | case1 => rw [b64urlEncode]; rfl
  | case2 b1 => rw [b64urlEncode]; simp
  | case3 b1 b2 => rw [b64urlEncode]; simp
  | case4 b1 b2 b3 rest ih =>
    rw [b64urlEncode]
    simp only [List.length_cons]
    omega

/-- Decoding a urlsafe-base64 encoding of a byte list recovers the bytes. -/
theorem b64_roundtrip : ∀ (bs : List Nat), (∀ b ∈ bs, b < 256) →
    a2bBase64 (b64urlEncode bs) 0 0 0 = some bs := by
  intro bs
  induction bs using b64urlEncode.induct with
  | case1 => intro h; rfl
  | case2 b1 =>
    intro h
    have hb1 : b1 < 256 := h b1 (List.mem_cons_self _ _)
    rw [b64urlEncode]
    rw [a2bBase64, if_neg (b64_table (b1 / 4) (by omega)).2,
      (b64_table (b1 / 4) (by omega)).1]
    dsimp only
    rw [a2bBase64, if_neg (b64_table ((b1 % 4) * 16) (by omega)).2,
      (b64_table ((b1 % 4) * 16) (by omega)).1]
    dsimp only
    rw [a2bBase64, if_pos rfl, if_neg (by decide)]
    rw [a2bBase64, if_pos rfl, if_pos (by decide)]
    simp only [Option.map_some', Option.some.injEq, List.cons.injEq, and_true]
    omega
  | case3 b1 b2 =>
    intro h
    have hb1 : b1 < 256 := h b1 (List.mem_cons_self _ _)
    have hb2 : b2 < 256 := h b2 (List.mem_cons_of_mem _ (List.mem_cons_self _ _))
    rw [b64urlEncode]
    rw [a2bBase64, if_neg (b64_table (b1 / 4) (by omega)).2,
      (b64_table (b1 / 4) (by omega)).1]
    dsimp only
    rw [a2bBase64, if_neg (b64_table ((b1 % 4) * 16 + b2 / 16) (by omega)).2,
      (b64_table ((b1 % 4) * 16 + b2 / 16) (by omega)).1]
    dsimp only
    rw [a2bBase64, if_neg (b64_table ((b2 % 16) * 4) (by omega)).2,
      (b64_table ((b2 % 16) * 4) (by omega)).1]
    dsimp only
    rw [a2bBase64, if_pos rfl, if_pos (by decide)]
    simp only [Option.map_some', Option.some.injEq, List.cons.injEq, and_true]
    omega
  | case4 b1 b2 b3 rest ih =>
    intro h
    have hb1 : b1 < 256 := h b1 (List.mem_cons_self _ _)
    have hb2 : b2 < 256 := h b2 (List.mem_cons_of_mem _ (List.mem_cons_self _ _))
    have hb3 : b3 < 256 :=
      h b3 (List.mem_cons_of_mem _ (List.mem_cons_of_mem _ (List.mem_cons_self _ _)))
    have hrest := ih (fun b hb => h b (List.mem_cons_of_mem _ (List.mem_cons_of_mem _
      (List.mem_cons_of_mem _ hb))))
    rw [b64urlEncode]
    rw [a2bBase64, if_neg (b64_table (b1 / 4) (by omega)).2,
      (b64_table (b1 / 4) (by omega)).1]
    dsimp only
    rw [a2bBase64, if_neg (b64_table ((b1 % 4) * 16 + b2 / 16) (by omega)).2,
      (b64_table ((b1 % 4) * 16 + b2 / 16) (by omega)).1]
    dsimp only
    rw [a2bBase64, if_neg (b64_table ((b2 % 16) * 4 + b3 / 64) (by omega)).2,
      (b64_table ((b2 % 16) * 4 + b3 / 64) (by omega)).1]
    dsimp only
    rw [a2bBase64, if_neg (b64_table (b3 % 64) (by omega)).2,
      (b64_table (b3 % 64) (by omega)).1]
    dsimp only
    rw [hrest]
    simp only [Option.map_some', Option.some.injEq, List.cons.injEq, eq_self_iff_true, and_true]
    omega

/-- UTF-8 encoding of an all-ASCII character list is the list of code points. -/
theorem utf8Bytes_ascii : ∀ {l : List Char}, (∀ c ∈ l, c.toNat < 128) →
    utf8Bytes l = l.map Char.toNat := by
  intro l
  induction l with
  | nil => intro h; rfl
  | cons c rest ih =>
    intro h
    have hc : c.toNat < 128 := h c (List.mem_cons_self _ _)
    have hrest := ih (fun d hd => h d (List.mem_cons_of_mem _ hd))
    rw [show utf8Bytes (c :: rest) = utf8EncodeNat c.toNat ++ utf8Bytes rest from by
      unfold utf8Bytes; rw [List.flatMap_cons]]
    rw [show utf8EncodeNat c.toNat = [c.toNat] from by
      unfold utf8EncodeNat; rw [if_pos hc]]
    rw [hrest, List.map_cons]
    rfl

/-- UTF-8 replace-decoding the code points of an all-ASCII character list
recovers the characters. -/
theorem utf8Decode_ascii : ∀ {l : List Char}, (∀ c ∈ l, c.toNat < 128) →
    utf8DecodeReplaceFuel l.length (l.map Char.toNat) = l := by
  intro l
  induction l with
  | nil => intro h; rfl
  | cons c rest ih =>
    intro h
    have hc : c.toNat < 128 := h c (List.mem_cons_self _ _)
    rw [List.map_cons, List.length_cons, utf8DecodeReplaceFuel.eq_def]
    dsimp only
    rw [if_pos hc]
    rw [ih (fun d hd => h d (List.mem_cons_of_mem _ hd))]
    rw [Char.ofNat_toNat]

/-- Round trip: UTF-8 encode then replace-decode an all-ASCII string. -/
theorem utf8Roundtrip {l : List Char} (h : ∀ c ∈ l, c.toNat < 128) :
    utf8DecodeReplace (utf8Bytes l) = l := by
  unfold utf8DecodeReplace
  rw [utf8Bytes_ascii h, List.length_map]
  exact utf8Decode_ascii h

/-- The base64 alphabet avoids every character the URL pipeline treats
specially: whitespace, the characters `urlsplit` removes, and the `#`, `?`,
`&`, `+`, `%` delimiters. -/
theorem b64Char_class : ∀ n, n < 64 →
    isPySpace (b64Char n) = false ∧
    ¬(b64Char n = '\t' ∨ b64Char n = '\r' ∨ b64Char n = '\n') ∧
    ¬ b64Char n = '#' ∧ ¬ b64Char n = '?' ∧ ¬ b64Char n = '&' ∧
    ¬ b64Char n = '+' ∧ ¬ b64Char n = '%' := by
  decide

/-- Character classes of a base64 output character (alphabet or padding),
in the form the normalization walkthrough consumes. -/
theorem b64out_class {c : Char}
    (hmem : (∃ n, n < 64 ∧ c = b64Char n) ∨ c = '=') :
    isPySpace c = false ∧
    ¬(c = '\t' ∨ c = '\r' ∨ c = '\n') ∧
    ¬ c = '#' ∧ ¬ c = '?' ∧ ¬ c = '&' ∧ ¬ c = '+' ∧ ¬ c = '%' := by
  rcases hmem with ⟨n, hn, rfl⟩ | rfl
  · exact b64Char_class n hn
  · decide

/-- Evaluation of `urlsplit` on a Bing click-redirect URL whose query tail
consists of base64 output characters. -/
theorem urlsplitE_ck (enc : List Char)
    (hmem : ∀ c ∈ enc, (∃ n, n < 64 ∧ c = b64Char n) ∨ c = '=') :
    urlsplitE ("https".toList ++ ':' :: '/' :: '/' ::
        ("www.bing.com".toList ++
          ("/ck/a".toList ++ '?' :: ("p=1&u=a1".toList ++ enc)))) =
      some ⟨"https".toList, "www.bing.com".toList, "/ck/a".toList,
        "p=1&u=a1".toList ++ enc, []⟩ := by
  unfold urlsplitE
  dsimp only
  have hfil : ("https".toList ++ ':' :: '/' :: '/' ::
      ("www.bing.com".toList ++ ("/ck/a".toList ++ '?' :: ("p=1&u=a1".toList ++ enc)))).filter
      (fun c => ¬(c = '\t' ∨ c = '\r' ∨ c = '\n')) =
      "https".toList ++ ':' :: '/' :: '/' ::
        ("www.bing.com".toList ++ ("/ck/a".toList ++ '?' :: ("p=1&u=a1".toList ++ enc))) := by
    apply List.filter_eq_self.mpr
    intro c hc
    rw [decide_eq_true_eq]
    rcases List.mem_append.mp hc with h1 | h1
    · intro hd
      rcases hd with rfl | rfl | rfl <;> exact absurd h1 (by decide)
    · rcases List.mem_cons.mp h1 with rfl | h1
      · decide
      · rcases List.mem_cons.mp h1 with rfl | h1
        · decide
        · rcases List.mem_cons.mp h1 with rfl | h1
          · decide
          · rcases List.mem_append.mp h1 with h2 | h2
            · intro hd
              rcases hd with rfl | rfl | rfl <;> exact absurd h2 (by decide)
            · rcases List.mem_append.mp h2 with h3 | h3
              · intro hd
                rcases hd with rfl | rfl | rfl <;> exact absurd h3 (by decide)
              · rcases List.mem_cons.mp h3 with rfl | h3
                · decide
                · rcases List.mem_append.mp h3 with h4 | h4
                  · intro hd
                    rcases hd with rfl | rfl | rfl <;> exact absurd h4 (by decide)
                  · exact (b64out_class (hmem c h4)).2.1
  rw [hfil]
  rw [splitScheme_render (by decide) (by decide) (by decide) (by decide)]
  dsimp only
  have hpre : ("//".toList).isPrefixOf ('/' :: '/' ::
      ("www.bing.com".toList ++ ("/ck/a".toList ++ '?' :: ("p=1&u=a1".toList ++ enc)))) =
      true := by
    simp [List.isPrefixOf]
  rw [if_pos hpre]
  dsimp only
  rw [show ('/' :: '/' ::
      ("www.bing.com".toList ++ ("/ck/a".toList ++ '?' :: ("p=1&u=a1".toList ++ enc)))).drop 2 =
    "www.bing.com".toList ++ ("/ck/a".toList ++ '?' :: ("p=1&u=a1".toList ++ enc)) from rfl]
  obtain ⟨htake, hdrop⟩ := @takeWhile_dropWhile_split
    ("www.bing.com".toList)
    ("/ck/a".toList ++ '?' :: ("p=1&u=a1".toList ++ enc))
    (fun c => ¬ netlocDelim c = true)
    (by decide)
    (by
      intro d hd
      rw [show ("/ck/a".toList ++ '?' :: ("p=1&u=a1".toList ++ enc)).head? =
        some '/' from rfl] at hd
      rw [← Option.some.inj hd]
      decide)
  rw [htake, hdrop]
  rw [if_neg (by decide : ¬ (('[' ∈ "www.bing.com".toList ∧ ']' ∉ "www.bing.com".toList) ∨
    (']' ∈ "www.bing.com".toList ∧ '[' ∉ "www.bing.com".toList)))]
  have hnohash : '#' ∉ "/ck/a".toList ++ '?' :: ("p=1&u=a1".toList ++ enc) := by
    intro hcon
    rcases List.mem_append.mp hcon with h1 | h1
    · exact absurd h1 (by decide)
    · rcases List.mem_cons.mp h1 with h2 | h1
      · exact absurd h2 (by decide)
      · rcases List.mem_append.mp h1 with h2 | h2
        · exact absurd h2 (by decide)
        · exact (b64out_class (hmem _ h2)).2.2.1 rfl
  rw [breakFirst_not_mem hnohash]
  dsimp only
  rw [show "/ck/a".toList ++ '?' :: ("p=1&u=a1".toList ++ enc) =
    "/ck/a".toList ++ '?' :: ("p=1&u=a1".toList ++ enc) from rfl]
  rw [breakFirst_append (by decide : '?' ∉ "/ck/a".toList)]
  dsimp only
  rw [show lowerL ("https".toList) = "https".toList from by decide]

/-- Evaluation of `parse_qsl` on the query of a Bing click-redirect URL. -/
theorem parse_qsl_ck (enc : List Char)
    (hmem : ∀ c ∈ enc, (∃ n, n < 64 ∧ c = b64Char n) ∨ c = '=') :
    parse_qsl ("p=1&u=a1".toList ++ enc) =
      [("p".toList, "1".toList), ("u".toList, "a1".toList ++ enc)] := by
  unfold parse_qsl
  rw [show "p=1&u=a1".toList ++ enc = "p=1".toList ++ '&' :: ("u=a1".toList ++ enc) from rfl]
  rw [splitSep_append_cons (by decide : '&' ∉ "p=1".toList)]
  have hnoamp : '&' ∉ "u=a1".toList ++ enc := by
    intro hcon
    rcases List.mem_append.mp hcon with h1 | h1
    · exact absurd h1 (by decide)
    · exact (b64out_class (hmem _ h1)).2.2.2.2.1 rfl
  rw [splitSep_eq_single hnoamp]
  rw [List.filterMap_cons]
  rw [if_neg (by decide : ¬ ("p=1".toList = []))]
  rw [show breakFirst '=' ("p=1".toList) = ("p".toList, some ("1".toList)) from by decide]
  rw [List.filterMap_cons]
  rw [if_neg (by
    intro hcon
    have hlen := congrArg List.length hcon
    rw [List.length_append, List.length_nil,
      (show ("u=a1".toList).length = 4 from rfl)] at hlen
    omega)]
  rw [show "u=a1".toList ++ enc = "u".toList ++ '=' :: ("a1".toList ++ enc) from rfl]
  rw [breakFirst_append (by decide : '=' ∉ "u".toList)]
  dsimp only
  rw [List.filterMap_nil]
  have hval : unquotePlus ("a1".toList ++ enc) = "a1".toList ++ enc := by
    apply unquotePlus_eq_self
    · intro hcon
      rcases List.mem_append.mp hcon with h1 | h1
      · exact absurd h1 (by decide)
      · exact (b64out_class (hmem _ h1)).2.2.2.2.2.1 rfl
    · intro hcon
      rcases List.mem_append.mp hcon with h1 | h1
      · exact absurd h1 (by decide)
      · exact (b64out_class (hmem _ h1)).2.2.2.2.2.2 rfl
  rw [hval]
  rw [show unquotePlus ("p".toList) = "p".toList from by decide]
  rw [show unquotePlus ("1".toList) = "1".toList from by decide]
  rw [show unquotePlus ("u".toList) = "u".toList from by decide]

/-- C8: for a Bing click-redirect URL whose `u` parameter is `a1` followed by
the urlsafe-base64 encoding of an ASCII destination that starts with `http`,
`normalize_url_key` returns exactly the normalization of the decoded
destination; and when the `a1`-prefixed value cannot be decoded — invalid
base64, or a decoded destination not starting with `http` — it returns the
empty string.  (The claim's remaining "cannot decode" case, a missing or
non-`a1` `u`, behaves differently: see the counterexample.) -/
theorem ck_redirect_spec (dest k : List Char)
    (hascii : ∀ c ∈ dest, c.toNat < 128)
    (hhttp : ("http".toList).isPrefixOf dest = true)
    (hk : normalize_url_key dest = some k) :
    normalize_url_key (renderCk dest) = some k ∧
    normalize_url_key "https://bing.com/ck/a?u=a1A".toList = some [] ∧
    normalize_url_key ("https://bing.com/ck/a?u=a1".toList ++
      b64urlEncode (utf8Bytes "/videos/x".toList)) = some [] := by
  refine ⟨?_, by decide, by decide⟩
  have hbytes : ∀ b ∈ utf8Bytes dest, b < 256 := by
    rw [utf8Bytes_ascii hascii]
    intro b hb
    rcases List.mem_map.mp hb with ⟨c, hc, rfl⟩
    have := hascii c hc
    omega
  have hmem : ∀ c ∈ b64urlEncode (utf8Bytes dest),
      (∃ n, n < 64 ∧ c = b64Char n) ∨ c = '=' :=
    b64urlEncode_chars _ hbytes
  have hRne : renderCk dest ≠ [] := by
    intro hc
    have hlen := congrArg List.length hc
    rw [show renderCk dest = "https://www.bing.com/ck/a?p=1&u=a1".toList ++
        b64urlEncode (utf8Bytes dest) from rfl,
      List.length_append, List.length_nil,
      (show ("https://www.bing.com/ck/a?p=1&u=a1".toList).length = 34 from rfl)] at hlen
    omega
  have hnospace : ∀ c ∈ renderCk dest, isPySpace c = false := by
    intro c hc
    rw [show renderCk dest = "https://www.bing.com/ck/a?p=1&u=a1".toList ++
      b64urlEncode (utf8Bytes dest) from rfl] at hc
    rcases List.mem_append.mp hc with h1 | h1
    · exact (show ∀ d ∈ "https://www.bing.com/ck/a?p=1&u=a1".toList,
        isPySpace d = false from by decide) c h1
    · exact (b64out_class (hmem c h1)).1
  have hstrip := pyStrip_eq_self hnospace
  have hflen : dest.length < (renderCk dest).length := by
    rw [show renderCk dest = "https://www.bing.com/ck/a?p=1&u=a1".toList ++
        b64urlEncode (utf8Bytes dest) from rfl, List.length_append]
    have h1 := b64urlEncode_length_ge (utf8Bytes dest)
    have h2 : (utf8Bytes dest).length = dest.length := by
      rw [utf8Bytes_ascii hascii, List.length_map]
    have h3 : ("https://www.bing.com/ck/a?p=1&u=a1".toList).length = 34 := rfl
    omega
  unfold normalize_url_key
  obtain ⟨F, hF, hdlt⟩ : ∃ F, (renderCk dest).length = F ∧ dest.length < F :=
    ⟨_, rfl, hflen⟩
  rw [hF]
  rw [normalizeFuel]
  rw [if_neg hRne]
  dsimp only
  rw [hstrip]
  rw [if_neg hRne]
  have hcs : containsSub ("://".toList) (renderCk dest) = true := by
    rw [show renderCk dest = ("https".toList ++ "://".toList) ++
      ("www.bing.com/ck/a?p=1&u=a1".toList ++ b64urlEncode (utf8Bytes dest)) from rfl]
    exact containsSub_of_append _ _ _
  rw [if_pos hcs]
  rw [show renderCk dest = "https".toList ++ ':' :: '/' :: '/' ::
    ("www.bing.com".toList ++
      ("/ck/a".toList ++ '?' :: ("p=1&u=a1".toList ++ b64urlEncode (utf8Bytes dest)))) from rfl]
  rw [urlsplitE_ck _ hmem]
  dsimp only
  rw [show lowerL ("www.bing.com".toList) = "www.bing.com".toList from by decide]
  rw [if_pos (by decide : ("www.".toList).isPrefixOf ("www.bing.com".toList) = true)]
  rw [show ("www.bing.com".toList).drop 4 = "bing.com".toList from rfl]
  rw [if_pos (⟨by decide, by decide⟩ :
    ("bing.com".toList).isSuffixOf ("bing.com".toList) = true ∧
      ("/ck/a".toList).isPrefixOf ("/ck/a".toList) = true)]
  rw [parse_qsl_ck _ hmem]
  rw [show dictGetLast
      [("p".toList, "1".toList), ("u".toList, "a1".toList ++ b64urlEncode (utf8Bytes dest))]
      ("u".toList) = some ("a1".toList ++ b64urlEncode (utf8Bytes dest)) from by
    unfold dictGetLast
    simp only [List.foldl_cons, List.foldl_nil]
    simp]
  rw [Option.getD_some]
  have hstripu : pyStrip ("a1".toList ++ b64urlEncode (utf8Bytes dest)) =
      "a1".toList ++ b64urlEncode (utf8Bytes dest) := by
    apply pyStrip_eq_self
    intro c hc
    rcases List.mem_append.mp hc with h1 | h1
    · exact (show ∀ d ∈ "a1".toList, isPySpace d = false from by decide) c h1
    · exact (b64out_class (hmem c h1)).1
  rw [hstripu]
  rw [if_pos (show ("a1".toList).isPrefixOf ("a1".toList ++ b64urlEncode (utf8Bytes dest)) =
    true from List.isPrefixOf_iff_prefix.mpr ⟨_, rfl⟩)]
  rw [show ("a1".toList ++ b64urlEncode (utf8Bytes dest)).drop 2 =
    b64urlEncode (utf8Bytes dest) from rfl]
  rw [b64urlEncode_mod4 (utf8Bytes dest)]
  rw [show List.replicate ((4 - 0) % 4) '=' = ([] : List Char) from rfl]
  rw [List.append_nil]
  rw [show urlsafeB64decodeBytes (b64urlEncode (utf8Bytes dest)) = some (utf8Bytes dest) from
    b64_roundtrip _ hbytes]
  dsimp only
  rw [utf8Roundtrip hascii]
  rw [if_pos hhttp]
  rw [normalizeFuel_stable dest.length dest F (dest.length + 1) le_rfl hdlt (by omega)]
  rw [show normalizeFuel (dest.length + 1) dest = normalize_url_key dest from rfl, hk]

/-- C8 counterexample: a Bing click-redirect URL with no decodable `u`
parameter is not normalized to the empty string; the code falls through and
normalizes the Bing URL itself. -/
theorem ck_fallthrough_counterexample :
    normalize_url_key "https://bing.com/ck/a?x=1".toList =
      some ("bing.com/ck/a?x=1".toList) ∧
    ("bing.com/ck/a?x=1".toList) ≠ ([] : List Char) := by
  exact ⟨by decide, by decide⟩

/-- Witness for `ck_redirect_spec` at the destination `http://c.com`. -/
theorem ck_redirect_spec_witness :
    normalize_url_key (renderCk ("http://c.com".toList)) = some ("c.com/".toList) :=
  (ck_redirect_spec ("http://c.com".toList) ("c.com/".toList)
    (by decide) (by decide) (by decide)).1

end UrlSpec
